import Mathlib

/-!
# Connect Four decision engine (`src/connect_four/app.js`)

A shallow embedding of the board model, win detection, static evaluation,
alpha-beta search, power-ups and move handling of `ConnectFourGame`, followed
by theorems about them.

Conventions of the embedding:

* `this.board` is threaded explicitly: a function that writes the board takes a
  `Board` and gives the new `Board` back.
* Array accesses carry their bounds: `cellAt` and `setCell` answer `none` for
  an index outside the 6 x 7 grid, and the functions built from them live in
  `Option`.  This is stricter than JavaScript, which throws only for a row
  outside the grid and yields `undefined` for a column outside it; a result of
  the form `some _` therefore says that the run finished and that no access
  left the grid at all.
* Scores are JavaScript numbers that are either integers or one of the two
  infinities; they are modelled by `Score = WithBot (WithTop Int)` with
  `⊥ = -Infinity` and `⊤ = Infinity`.
* The two calls of `Math.random()` in `getBestMove` are arguments of the
  embedded function.  Doubles are modelled by the rational numbers they denote:
  the draws and the randomness settings are exact rationals, and the product of
  a draw with the number of legal columns is rounded to the nearest double
  (`toDouble`).
* The fields of the game object that the rules read or write are gathered in
  `Game`; a method that changes them takes a `Game` and gives the new one back.
* The callback that `makeMove` hands to `setTimeout` is a function of its own,
  `makeMoveCallback`; `makeMoveOutcome` runs a move and then its callback.
* DOM and sound effects, the clock, statistics, the tournament counters and the
  leaderboard are not modelled.
-/

namespace ConnectFour

/-! ## Data model -/

/-- Number of rows, `this.rows = 6`. -/
abbrev rows : Nat := 6

/-- Number of columns, `this.cols = 7`. -/
abbrev cols : Nat := 7

/-- Values a board cell can hold: `0`, the player ids `1` and `2`, and the
power-up strings that `makeMove` writes (`cellValue = this.activePowerUp`). -/
inductive Cell where
  | empty
  | disc1
  | disc2
  | wild
  | block
  | bomb
  | clear
  deriving DecidableEq, Repr, Inhabited

namespace Cell

/-- The test `typeof v === 'number'`. -/
def isNumber : Cell → Bool
  | empty => true
  | disc1 => true
  | disc2 => true
  | _ => false

end Cell

/-- The grid `this.board`: `rows` arrays of `cols` cells, row 0 on top. -/
abbrev Board : Type := Fin rows → Fin cols → Cell

/-- The board built by `initializeBoard`. -/
def initializeBoard : Board := fun _ _ => Cell.empty

/-- The bounds test `r >= 0 && r < this.rows && c >= 0 && c < this.cols`. -/
def inRange (r c : Int) : Bool :=
  decide (0 ≤ r) && decide (r < rows) && decide (0 ≤ c) && decide (c < cols)

/-- The read `this.board[r][c]`; `none` when an index is outside the grid. -/
def cellAt (b : Board) (r c : Int) : Option Cell :=
  if h : 0 ≤ r ∧ r < rows ∧ 0 ≤ c ∧ c < cols then
    some (b ⟨r.toNat, by omega⟩ ⟨c.toNat, by omega⟩)
  else none

/-- The write `this.board[r][c] = v`; `none` when an index is outside the grid. -/
def setCell (b : Board) (r c : Int) (v : Cell) : Option Board :=
  if 0 ≤ r ∧ r < rows ∧ 0 ≤ c ∧ c < cols then
    some (fun i j => if (i.val : Int) = r ∧ (j.val : Int) = c then v else b i j)
  else none

/-- Scores: integers together with `-Infinity` (`⊥`) and `Infinity` (`⊤`). -/
abbrev Score : Type := WithBot (WithTop Int)

/-- An integer as a score. -/
def Score.ofInt (n : Int) : Score := ((n : WithTop Int) : WithBot (WithTop Int))

/-! ## Board queries -/

/-- The method `isValidMove(col)`. -/
def isValidMove (b : Board) (col : Int) : Bool :=
  decide (col ≥ 0) && decide (col < cols) && (cellAt b 0 col == some Cell.empty)

/-- The loop of `getLowestEmptyRow` over the rows still to visit. -/
def getLowestEmptyRowFrom (b : Board) (col : Int) : List Nat → Int
  | [] => -1
  | row :: rest =>
    if cellAt b row col == some Cell.empty then row else getLowestEmptyRowFrom b col rest

/-- The method `getLowestEmptyRow(col)`: rows are visited from `rows - 1` down to `0`. -/
def getLowestEmptyRow (b : Board) (col : Int) : Int :=
  getLowestEmptyRowFrom b col (List.range rows).reverse

/-- The method `isBoardFull()`: `this.board[0].every((cell) => cell !== 0)`. -/
def isBoardFull (b : Board) : Bool :=
  (List.finRange cols).all fun c => b 0 c != Cell.empty

/-! ## Win detection -/

/-- The four axes of `checkWin`, as `[dx, dy]` pairs. -/
def directions : List (Int × Int) := [(0, 1), (1, 0), (1, 1), (1, -1)]

/-- The loop condition of `checkWin` at cell `(newRow, newCol)`. -/
def matchesAt (b : Board) (player : Cell) (newRow newCol : Int) : Bool :=
  inRange newRow newCol &&
    (cellAt b newRow newCol == some player || cellAt b newRow newCol == some Cell.wild)

/-- One counting loop of `checkWin`: `count++` while the test holds, `break` at
the first index where it fails. -/
def countWhile (test : Int → Bool) : List Int → Nat → Nat
  | [], count => count
  | i :: rest, count => if test i then countWhile test rest (count + 1) else count

/-- The body of the `for (const [dx, dy] of directions)` loop: the value of
`count` after both counting loops. -/
def axisCount (b : Board) (player : Cell) (row col dx dy : Int) : Nat :=
  let count := 1
  let count := countWhile (fun i => matchesAt b player (row + dx * i) (col + dy * i)) [1, 2, 3] count
  countWhile (fun i => matchesAt b player (row - dx * i) (col - dy * i)) [1, 2, 3] count

/-- The method `checkWin(row, col)`. -/
def checkWin (b : Board) (row col : Int) : Option Bool := do
  let player ← cellAt b row col
  if player == Cell.empty || !player.isNumber then
    return false
  return directions.any fun d => decide (axisCount b player row col d.1 d.2 ≥ 4)

/-- The scan of `checkBoardWinner` over the cells still to visit. -/
def checkBoardWinnerFrom (b : Board) : List (Nat × Nat) → Option (Option Cell)
  | [] => some none
  | (row, col) :: rest =>
    (cellAt b row col).bind fun v =>
      if v == Cell.disc1 || v == Cell.disc2 then
        (checkWin b row col).bind fun won =>
          if won then some (some v) else checkBoardWinnerFrom b rest
      else checkBoardWinnerFrom b rest

/-- The cells of the board in the order of the nested loops
`for row ... for col ...`. -/
def allCells : List (Nat × Nat) :=
  List.product (List.range rows) (List.range cols)

/-- The method `checkBoardWinner()`: the inner `none` is the result `null`. -/
def checkBoardWinner (b : Board) : Option (Option Cell) :=
  checkBoardWinnerFrom b allCells

/-! ## Static evaluation -/

/-- The method `evaluateWindow(window)`. -/
def evaluateWindow (window : List Cell) : Int :=
  let score : Int := 0
  let ai := (window.filter fun cell => cell == Cell.disc2).length
  let player := (window.filter fun cell => cell == Cell.disc1).length
  let empty := (window.filter fun cell => cell == Cell.empty).length
  let score :=
    if ai = 4 then score + 100
    else if ai = 3 ∧ empty = 1 then score + 10
    else if ai = 2 ∧ empty = 2 then score + 2
    else score
  let score :=
    if player = 4 then score - 100
    else if player = 3 ∧ empty = 1 then score - 80
    else if player = 2 ∧ empty = 2 then score - 2
    else score
  score

/-- Index quadruples read by the first loop nest of `evaluateBoard`. -/
def horizontalWindows : List (List (Nat × Nat)) :=
  (List.product (List.range rows) (List.range (cols - 3))).map fun p =>
    [(p.1, p.2), (p.1, p.2 + 1), (p.1, p.2 + 2), (p.1, p.2 + 3)]

/-- Index quadruples read by the second loop nest of `evaluateBoard`
(`col` is the outer loop variable). -/
def verticalWindows : List (List (Nat × Nat)) :=
  (List.product (List.range cols) (List.range (rows - 3))).map fun p =>
    [(p.2, p.1), (p.2 + 1, p.1), (p.2 + 2, p.1), (p.2 + 3, p.1)]

/-- Index quadruples read by the third loop nest of `evaluateBoard`: two
windows for each `(row, col)`. -/
def diagonalWindows : List (List (Nat × Nat)) :=
  (List.product (List.range (rows - 3)) (List.range (cols - 3))).flatMap fun p =>
    [[(p.1, p.2), (p.1 + 1, p.2 + 1), (p.1 + 2, p.2 + 2), (p.1 + 3, p.2 + 3)],
     [(p.1 + 3, p.2), (p.1 + 2, p.2 + 1), (p.1 + 1, p.2 + 2), (p.1, p.2 + 3)]]

/-- The array literal handed to `evaluateWindow`: the four reads. -/
def readWindow (b : Board) (w : List (Nat × Nat)) : Option (List Cell) :=
  w.mapM fun p => cellAt b p.1 p.2

/-- One statement `score += this.evaluateWindow([...])`. -/
def addWindow (b : Board) (score : Int) (w : List (Nat × Nat)) : Option Int :=
  (readWindow b w).map fun window => score + evaluateWindow window

/-- The method `evaluateBoard()`. -/
def evaluateBoard (b : Board) : Option Int :=
  let score : Int := 0
  (horizontalWindows.foldlM (addWindow b) score).bind fun score =>
  (verticalWindows.foldlM (addWindow b) score).bind fun score =>
  diagonalWindows.foldlM (addWindow b) score

/-! ## Search -/

/-- The `for` loop of the maximizing branch of `minimax`, over the columns
still to visit; `recurse` is the call `this.minimax(depth - 1, false, _, _)`. -/
def maxLoop (recurse : Score → Score → Board → Option (Score × Board)) (beta : Score) :
    List Nat → Score → Score → Board → Option (Score × Board)
  | [], maxScore, _, b => some (maxScore, b)
  | col :: rest, maxScore, alpha, b =>
    if isValidMove b col then
      let row := getLowestEmptyRow b col
      (setCell b row col Cell.disc2).bind fun b1 =>
      (recurse alpha beta b1).bind fun r =>
      (setCell r.2 row col Cell.empty).bind fun b2 =>
        let score := r.1
        let maxScore := max score maxScore
        let alpha := max alpha score
        if beta ≤ alpha then some (maxScore, b2)
        else maxLoop recurse beta rest maxScore alpha b2
    else maxLoop recurse beta rest maxScore alpha b

/-- The `for` loop of the minimizing branch of `minimax`; `recurse` is the
call `this.minimax(depth - 1, true, _, _)`. -/
def minLoop (recurse : Score → Score → Board → Option (Score × Board)) (alpha : Score) :
    List Nat → Score → Score → Board → Option (Score × Board)
  | [], minScore, _, b => some (minScore, b)
  | col :: rest, minScore, beta, b =>
    if isValidMove b col then
      let row := getLowestEmptyRow b col
      (setCell b row col Cell.disc1).bind fun b1 =>
      (recurse alpha beta b1).bind fun r =>
      (setCell r.2 row col Cell.empty).bind fun b2 =>
        let score := r.1
        let minScore := min score minScore
        let beta := min beta score
        if beta ≤ alpha then some (minScore, b2)
        else minLoop recurse alpha rest minScore beta b2
    else minLoop recurse alpha rest minScore beta b

/-- The leaf case of `minimax`: `return this.evaluateBoard()`. -/
def evaluateLeaf (b : Board) : Option (Score × Board) :=
  (evaluateBoard b).map fun s => (Score.ofInt s, b)

/-- The method `minimax(depth, isMaximizing, alpha, beta)`; the result pairs the returned
score with the board left behind. -/
def minimax : Nat → Bool → Score → Score → Board → Option (Score × Board)
  | depth, isMaximizing, alpha, beta, b =>
    (checkBoardWinner b).bind fun winner =>
      if winner = some Cell.disc2 then some (Score.ofInt (100 + depth), b)
      else if winner = some Cell.disc1 then some (Score.ofInt (-100 - depth), b)
      else
        match depth with
        | 0 => evaluateLeaf b
        | d + 1 =>
          if isBoardFull b then evaluateLeaf b
          else if isMaximizing then
            maxLoop (minimax d false) beta (List.range cols) ⊥ alpha b
          else
            minLoop (minimax d true) alpha (List.range cols) ⊤ beta b

/-- An entry of `this.difficulties`. -/
structure Settings where
  depth : Nat
  randomness : ℚ
  deriving DecidableEq, Repr

/-- The keys of `this.difficulties`. -/
inductive Difficulty where
  | easy
  | medium
  | hard
  | insane
  deriving DecidableEq, Repr

/-- The table `this.difficulties`.  The randomness of an entry is the double
that its literal (`0.3`, `0.2`, `0.1`, `0.05`) denotes, as an exact rational. -/
def difficulties : Difficulty → Settings
  | Difficulty.easy => ⟨2, 5404319552844595 / 2 ^ 54⟩
  | Difficulty.medium => ⟨3, 3602879701896397 / 2 ^ 54⟩
  | Difficulty.hard => ⟨4, 3602879701896397 / 2 ^ 55⟩
  | Difficulty.insane => ⟨5, 3602879701896397 / 2 ^ 56⟩

/-- The integer nearest to `y`, and the even one of the two when `y` lies half
way between two integers: the rounding rule of IEEE 754 arithmetic. -/
def roundHalfEven (y : ℚ) : Int :=
  if y - ⌊y⌋ < 1 / 2 then ⌊y⌋
  else if 1 / 2 < y - ⌊y⌋ then ⌊y⌋ + 1
  else if ⌊y⌋ % 2 = 0 then ⌊y⌋
  else ⌊y⌋ + 1

/-- The double (binary64: 53 significant bits, exponents from -1022 on, ties
to even) nearest to the real number `x`, as an exact rational: the result of a
JavaScript arithmetic operation whose exact result is `x`.  Overflow to
`Infinity`, which needs `|x| ≥ 2 ^ 1024`, is not modelled. -/
def toDouble (x : ℚ) : ℚ :=
  if x = 0 then 0
  else
    (roundHalfEven (x * (2 : ℚ) ^ (52 - max (Int.log 2 |x|) (-1022))) : ℚ) /
      (2 : ℚ) ^ (52 - max (Int.log 2 |x|) (-1022))

/-- The second `for` loop of `getBestMove` (the search branch), over the
columns still to visit. -/
def bestMoveLoop (depth : Nat) : List Nat → Score → Int → Board → Option (Int × Board)
  | [], _, bestMove, b => some (bestMove, b)
  | col :: rest, bestScore, bestMove, b =>
    if isValidMove b col then
      let row := getLowestEmptyRow b col
      (setCell b row col Cell.disc2).bind fun b1 =>
      (minimax depth false ⊥ ⊤ b1).bind fun r =>
      (setCell r.2 row col Cell.empty).bind fun b2 =>
        let score := r.1
        if score > bestScore then bestMoveLoop depth rest score col b2
        else bestMoveLoop depth rest bestScore bestMove b2
    else bestMoveLoop depth rest bestScore bestMove b

/-- The method `getBestMove()`.  `u` and `v` are the doubles returned by the first and the
second call of `Math.random()`, as exact rationals; the product
`Math.random() * validMoves.length` is rounded to a double; the inner `none` of the result
is `undefined`. -/
def getBestMove (settings : Settings) (u v : ℚ) (b : Board) : Option (Option Int × Board) :=
  if u < settings.randomness then
    let validMoves : List Nat := (List.range cols).filter fun col => isValidMove b col
    match Int.floor (toDouble (v * validMoves.length)) with
    | Int.ofNat i => some ((validMoves.get? i).map Int.ofNat, b)
    | Int.negSucc _ => some (none, b)
  else
    (bestMoveLoop settings.depth (List.range cols) ⊥ (-1) b).map fun r => (some r.1, r.2)

/-! ## Gravity compaction -/

/-- The first inner loop of `dropPieces` for column `col`: the pieces met from
the bottom row upwards are pushed onto `pieces` and their cells cleared. -/
def collectPieces (col : Nat) : List Nat → List Cell → Board → Option (List Cell × Board)
  | [], pieces, b => some (pieces, b)
  | row :: rest, pieces, b =>
    (cellAt b row col).bind fun v =>
      if v != Cell.empty then
        (setCell b row col Cell.empty).bind fun b1 => collectPieces col rest (pieces ++ [v]) b1
      else collectPieces col rest pieces b

/-- The second inner loop of `dropPieces`:
`this.board[this.rows - 1 - i][col] = pieces[i]`. -/
def placePieces (col : Nat) (pieces : List Cell) : List Nat → Board → Option Board
  | [], b => some b
  | i :: rest, b =>
    (pieces.get? i).bind fun v =>
      (setCell b ((rows : Int) - 1 - i) col v).bind fun b1 => placePieces col pieces rest b1

/-- The body of the outer loop of `dropPieces` for one column. -/
def dropColumn (b : Board) (col : Nat) : Option Board :=
  (collectPieces col (List.range rows).reverse [] b).bind fun r =>
    placePieces col r.1 (List.range r.1.length) r.2

/-- The method `dropPieces()`. -/
def dropPieces (b : Board) : Option Board :=
  (List.range cols).foldlM dropColumn b

/-! ## Specification vocabulary -/

/-- Along the axis `(dx, dy)` there is a contiguous run of at least 4 cells
through `(row, col)`, every one of them on the board and holding `player` or
`'wild'`.  The run is the set of cells `(row + dx * t, col + dy * t)` for
`lo ≤ t ≤ hi`. -/
def HasRun (b : Board) (player : Cell) (row col dx dy : Int) : Prop :=
  ∃ lo hi : Int, lo ≤ 0 ∧ 0 ≤ hi ∧ 4 ≤ hi - lo + 1 ∧
    ∀ t : Int, lo ≤ t → t ≤ hi →
      (cellAt b (row + dx * t) (col + dy * t) = some player ∨
        cellAt b (row + dx * t) (col + dy * t) = some Cell.wild)

/-- The four axes of the board: horizontal, vertical and the two diagonals. -/
def axes : List (Int × Int) := [(0, 1), (1, 0), (1, 1), (1, -1)]

/-- A board with four discs of player 1 at the start of the bottom row. -/
def fourInRowBoard : Board :=
  fun r c => if r.val = 5 ∧ c.val < 4 then Cell.disc1 else Cell.empty

/-- The contribution of the searching side (player 2) to a window's score, as
the scoring table gives it: `own` discs of player 2 and `gap` empty cells. -/
def ownScore (own gap : Nat) : Int :=
  if own = 4 then 100
  else if own = 3 ∧ gap = 1 then 10
  else if own = 2 ∧ gap = 2 then 2
  else 0

/-- The contribution of the opponent (player 1) to a window's score: `opp`
discs of player 1 and `gap` empty cells. -/
def oppScore (opp gap : Nat) : Int :=
  if opp = 4 then -100
  else if opp = 3 ∧ gap = 1 then -80
  else if opp = 2 ∧ gap = 2 then -2
  else 0

/-- The cell `(r, c)` as a pair of board indices, when it lies on the board. -/
def toCell (r c : Int) : Option (Fin rows × Fin cols) :=
  if h : 0 ≤ r ∧ r < rows ∧ 0 ≤ c ∧ c < cols then
    some (⟨r.toNat, by omega⟩, ⟨c.toNat, by omega⟩)
  else none

/-- The run of 4 cells that starts at `(r, c)` and advances by `(dr, dc)`,
when all four cells lie on the board. -/
def windowAt (r c dr dc : Int) : Option (List (Fin rows × Fin cols)) :=
  [0, 1, 2, 3].mapM fun k : Int => toCell (r + k * dr) (c + k * dc)

/-- All runs of 4 cells along one axis: one for each start cell from which the
run stays on the board. -/
def windowsOfAxis (d : Int × Int) : List (List (Fin rows × Fin cols)) :=
  allCells.filterMap fun p => windowAt p.1 p.2 d.1 d.2

/-- Every contiguous run of 4 cells of the board: horizontal, vertical,
down-right diagonal and up-right diagonal runs. -/
def allWindows : List (List (Fin rows × Fin cols)) :=
  windowsOfAxis (0, 1) ++ windowsOfAxis (1, 0) ++ windowsOfAxis (1, 1) ++ windowsOfAxis (-1, 1)

/-- The values a board holds on a list of cells. -/
def valuesOn (b : Board) (w : List (Fin rows × Fin cols)) : List Cell :=
  w.map fun p => b p.1 p.2

/-- The cells of column `c` from the bottom row upwards. -/
def columnUp (b : Board) (c : Fin cols) : List Cell :=
  (List.finRange rows).reverse.map fun r => b r c

/-- A column after gravity: the non-empty cells of `column` in their order,
then empty cells up to the height of the board. -/
def compacted (column : List Cell) : List Cell :=
  (column.filter fun v => v != Cell.empty) ++
    List.replicate (rows - (column.filter fun v => v != Cell.empty).length) Cell.empty

/-- The legal columns of a board, in ascending order. -/
def legalColumns (b : Board) : List Nat :=
  (List.range cols).filter fun col => isValidMove b col

/-- The board with `disc` dropped into column `col`: the disc lands on the
lowest empty cell of the column. -/
def dropDisc (b : Board) (col : Nat) (disc : Cell) : Option Board :=
  setCell b (getLowestEmptyRow b col) col disc

/-- Plain minimax without pruning: the same terminal test, the same evaluator
and the same ascending column order as `minimax`, but every legal column is
explored and the value of a position is the maximum (player 2 to move) or the
minimum (player 1 to move) of the values of its successors. -/
def plainMinimax : Nat → Bool → Board → Option Score
  | depth, isMaximizing, b =>
    (checkBoardWinner b).bind fun winner =>
      if winner = some Cell.disc2 then some (Score.ofInt (100 + depth))
      else if winner = some Cell.disc1 then some (Score.ofInt (-100 - depth))
      else
        match depth with
        | 0 => (evaluateBoard b).map Score.ofInt
        | d + 1 =>
          if isBoardFull b then (evaluateBoard b).map Score.ofInt
          else if isMaximizing then
            ((legalColumns b).mapM fun col =>
              (dropDisc b col Cell.disc2).bind (plainMinimax d false)).map
                fun scores => scores.foldl max ⊥
          else
            ((legalColumns b).mapM fun col =>
              (dropDisc b col Cell.disc1).bind (plainMinimax d true)).map
                fun scores => scores.foldl min ⊤

/-- The column choice of `getBestMove` with `minimax` replaced by
`plainMinimax`: the columns still to visit, the best score and the best column
so far. -/
def plainBestMoveLoop (depth : Nat) (b : Board) : List Nat → Score → Int → Option Int
  | [], _, bestMove => some bestMove
  | col :: rest, bestScore, bestMove =>
    if isValidMove b col then
      (dropDisc b col Cell.disc2).bind fun b1 =>
      (plainMinimax depth false b1).bind fun score =>
        if score > bestScore then plainBestMoveLoop depth b rest score col
        else plainBestMoveLoop depth b rest bestScore bestMove
    else plainBestMoveLoop depth b rest bestScore bestMove

/-- The column chosen by the search branch of `getBestMove` when plain minimax
scores the columns. -/
def plainBestMove (depth : Nat) (b : Board) : Option Int :=
  plainBestMoveLoop depth b (List.range cols) ⊥ (-1)

/-- The score `getBestMove` gives to column `col`: the value of
`minimax(depth, false, -Infinity, Infinity)` on the board with a disc of
player 2 dropped into the column. -/
def columnScore (depth : Nat) (b : Board) (col : Nat) : Option Score :=
  (dropDisc b col Cell.disc2).bind fun b1 =>
    (minimax depth false ⊥ ⊤ b1).map fun r => r.1

/-- The window relation between an alpha-beta value `s` and the exact value
`t`: they agree inside the window `(alpha, beta)`, and `s` lies on the same
side as `t` when `t` falls outside. -/
def WindowCorrect (alpha beta s t : Score) : Prop :=
  (t ≤ alpha → s ≤ alpha) ∧ (beta ≤ t → beta ≤ s) ∧ (alpha < t → t < beta → s = t)

/-! ## Game state, power-ups and moves -/

/-- The keys of `this.powerUps`, which are also the values `this.activePowerUp`
takes when it is not `null`. -/
inductive PowerUp where
  | bomb
  | wild
  | clear
  | block
  deriving DecidableEq, Repr

/-- The string of a power-up as a board value: `makeMove` writes
`cellValue = this.activePowerUp` into the grid. -/
def PowerUp.tag : PowerUp → Cell
  | PowerUp.bomb => Cell.bomb
  | PowerUp.wild => Cell.wild
  | PowerUp.clear => Cell.clear
  | PowerUp.block => Cell.block

/-- The values of `this.currentPlayer`: `1` and `2`. -/
inductive Player where
  | one
  | two
  deriving DecidableEq, Repr

/-- The player id as a board value. -/
def Player.disc : Player → Cell
  | Player.one => Cell.disc1
  | Player.two => Cell.disc2

/-- The values of `this.gameState`. -/
inductive GameState where
  | stopped
  | playing
  | finished
  deriving DecidableEq, Repr

/-- The values of `this.gameMode`: `'vs-ai'`, `'vs-human'`, `'tournament'`. -/
inductive GameMode where
  | vsAI
  | vsHuman
  | tournament
  deriving DecidableEq, Repr

/-- The object `this.powerUps`: one counter for each kind. -/
structure Inventory where
  bomb : Int
  wild : Int
  clear : Int
  block : Int
  deriving DecidableEq, Repr

/-- The read `this.powerUps[type]`. -/
def Inventory.get (inv : Inventory) : PowerUp → Int
  | PowerUp.bomb => inv.bomb
  | PowerUp.wild => inv.wild
  | PowerUp.clear => inv.clear
  | PowerUp.block => inv.block

/-- The statement `this.powerUps[type]--`. -/
def Inventory.decrement (inv : Inventory) : PowerUp → Inventory
  | PowerUp.bomb => { inv with bomb := inv.bomb - 1 }
  | PowerUp.wild => { inv with wild := inv.wild - 1 }
  | PowerUp.clear => { inv with clear := inv.clear - 1 }
  | PowerUp.block => { inv with block := inv.block - 1 }

/-- The inventory set by the constructor and by `resetGame`. -/
def initialInventory : Inventory := ⟨2, 1, 1, 1⟩

/-- An entry of `this.moveHistory`. -/
structure MoveRecord where
  row : Int
  col : Int
  player : Player
  value : Cell
  deriving DecidableEq, Repr

/-- The fields of `ConnectFourGame` that the rule and search code reads or
writes.  Statistics, tournament counters, achievements and the leaderboard are
left out. -/
structure Game where
  board : Board
  currentPlayer : Player
  gameState : GameState
  gameMode : GameMode
  difficulty : Difficulty
  powerUps : Inventory
  activePowerUp : Option PowerUp
  moveHistory : List MoveRecord
  deriving DecidableEq

/-- The state the constructor leaves behind. -/
def initialGame : Game where
  board := initializeBoard
  currentPlayer := Player.one
  gameState := GameState.stopped
  gameMode := GameMode.vsAI
  difficulty := Difficulty.easy
  powerUps := initialInventory
  activePowerUp := none
  moveHistory := []

/-- The method `startNewGame()`. -/
def startNewGame (g : Game) : Game :=
  { g with
    board := initializeBoard
    currentPlayer := Player.one
    gameState := GameState.playing
    moveHistory := []
    activePowerUp := none }

/-- The method `resetGame()`. -/
def resetGame (g : Game) : Game :=
  { g with
    gameState := GameState.stopped
    board := initializeBoard
    currentPlayer := Player.one
    moveHistory := []
    activePowerUp := none
    powerUps := initialInventory }

/-- The method `changeDifficulty(level)`. -/
def changeDifficulty (g : Game) (level : Difficulty) : Game :=
  { g with difficulty := level }

/-- The method `changeMode(mode)`; the mode `'tournament'` goes on to
`startTournament()`, which calls `startNewGame()`. -/
def changeMode (g : Game) (mode : GameMode) : Game :=
  let g := { g with gameMode := mode }
  if mode = GameMode.tournament then startNewGame g else g

/-- The method `switchPlayer()`. -/
def switchPlayer (g : Game) : Game :=
  { g with currentPlayer := if g.currentPlayer = Player.one then Player.two else Player.one }

/-- The method `selectPowerUp(type)`. -/
def selectPowerUp (g : Game) (type : PowerUp) : Game :=
  if g.powerUps.get type ≤ 0 ∨ g.gameState ≠ GameState.playing then g
  else { g with activePowerUp := some type }

/-- The integers `lo, lo + 1, ..., hi` of a loop `for (x = lo; x <= hi; x++)`. -/
def intRange (lo hi : Int) : List Int :=
  (List.range (hi + 1 - lo).toNat).map fun (k : Nat) => lo + (k : Int)

/-- The body of the inner loop of `bombPowerUp` at `(r, c)`. -/
def bombStep (row col : Int) (b : Board) (p : Int × Int) : Option Board :=
  if p.1 ≠ row ∨ p.2 ≠ col then setCell b p.1 p.2 Cell.empty else some b

/-- The method `bombPowerUp(row, col)` with `radius = 1`. -/
def bombPowerUp (b : Board) (row col : Int) : Option Board :=
  let radius : Int := 1
  ((List.product (intRange (max 0 (row - radius)) (min ((rows : Int) - 1) (row + radius)))
      (intRange (max 0 (col - radius)) (min ((cols : Int) - 1) (col + radius)))).foldlM
    (bombStep row col) b).bind dropPieces

/-- The method `clearRowPowerUp(row)`. -/
def clearRowPowerUp (b : Board) (row : Int) : Option Board :=
  ((List.range cols).foldlM (fun b (col : Nat) => setCell b row col Cell.empty) b).bind dropPieces

/-- The method `usePowerUp(type, row, col)`. -/
def usePowerUp (g : Game) (type : PowerUp) (row col : Int) : Option Game :=
  let g := { g with powerUps := g.powerUps.decrement type }
  match type with
  | PowerUp.bomb => (bombPowerUp g.board row col).map fun b => { g with board := b }
  | PowerUp.wild => some g
  | PowerUp.clear => (clearRowPowerUp g.board row).map fun b => { g with board := b }
  | PowerUp.block => some g

/-- The early returns of `makeMove(col, isAIMove)`: the move is dropped before
anything is written. -/
def moveRejected (g : Game) (col : Int) (isAIMove : Bool) : Bool :=
  (g.gameState != GameState.playing || !isValidMove g.board col) ||
  (g.gameMode == GameMode.vsAI && g.currentPlayer == Player.two && !isAIMove) ||
  (getLowestEmptyRow g.board col == -1)

/-- The power-up part of `makeMove`: the value to write and the state after
`usePowerUp`, when a power-up is active and the move is not the AI's. -/
def applyActivePowerUp (g : Game) (row col : Int) (isAIMove : Bool) : Option (Cell × Game) :=
  match g.activePowerUp, isAIMove with
  | some type, false =>
    (usePowerUp g type row col).map fun g1 => (type.tag, { g1 with activePowerUp := none })
  | _, _ => some (g.currentPlayer.disc, g)

/-- The synchronous part of `makeMove(col, isAIMove)`, up to the `setTimeout`
call. -/
def makeMove (g : Game) (col : Int) (isAIMove : Bool) : Option Game :=
  if moveRejected g col isAIMove then some g
  else
    let row := getLowestEmptyRow g.board col
    (applyActivePowerUp g row col isAIMove).bind fun r =>
      (setCell r.2.board row col r.1).map fun b =>
        { r.2 with
          board := b
          moveHistory := r.2.moveHistory ++ [⟨row, col, r.2.currentPlayer, r.1⟩] }

/-- What the deferred part of a move decides. -/
inductive Outcome where
  | win (player : Player)
  | draw
  | inProgress
  deriving DecidableEq, Repr

/-- The method `gameWin()`; the winner shown is `this.currentPlayer`. -/
def gameWin (g : Game) : Game := { g with gameState := GameState.finished }

/-- The method `gameDraw()`. -/
def gameDraw (g : Game) : Game := { g with gameState := GameState.finished }

/-- The callback that `makeMove` hands to `setTimeout`, for the landing cell
`(row, col)`; the follow-up `makeAIMove` it schedules is not part of it. -/
def makeMoveCallback (g : Game) (row col : Int) : Option (Outcome × Game) :=
  (checkWin g.board row col).map fun won =>
    if won then (Outcome.win g.currentPlayer, gameWin g)
    else if isBoardFull g.board then (Outcome.draw, gameDraw g)
    else (Outcome.inProgress, switchPlayer g)

/-- A call of `makeMove` followed by its deferred callback: the outcome is
`none` when the move was rejected and no callback was scheduled. -/
def makeMoveOutcome (g : Game) (col : Int) (isAIMove : Bool) : Option (Option Outcome × Game) :=
  if moveRejected g col isAIMove then some (none, g)
  else
    (makeMove g col isAIMove).bind fun g1 =>
      (makeMoveCallback g1 (getLowestEmptyRow g.board col) col).map fun r => (some r.1, r.2)

/-- The method `getBestMove()` on the game state: the settings come from
`this.difficulties[this.difficulty]`, the board is `this.board`. -/
def gameBestMove (g : Game) (u v : ℚ) : Option (Option Int × Game) :=
  (getBestMove (difficulties g.difficulty) u v g.board).map fun r =>
    (r.1, { g with board := r.2 })

/-- The method `showHint()`; the highlight of the column button is not
modelled. -/
def showHint (g : Game) (u v : ℚ) : Option Game :=
  if g.gameState ≠ GameState.playing ∨ g.gameMode = GameMode.vsHuman then some g
  else (gameBestMove g u v).map fun r => r.2

/-- The gravity invariant: in every column the non-empty cells form a
contiguous run that starts at the bottom row (row `rows - 1`), so below a
non-empty cell every cell is non-empty. -/
def gravityInvariant (b : Board) : Prop :=
  ∀ (c : Fin cols) (r r' : Fin rows), r < r' → b r c ≠ Cell.empty → b r' c ≠ Cell.empty

instance gravityInvariant.decidable (b : Board) : Decidable (gravityInvariant b) := by
  unfold gravityInvariant
  infer_instance

/-- A game in progress in the mode `'vs-ai'` with player 1 to move: discs of
player 1 at the bottom of columns 0, 1, 2 and discs of player 2 in columns 4
and 5. -/
def threeInRowGame : Game :=
  { startNewGame initialGame with
    board := fun r c =>
      if r.val = 5 ∧ c.val < 3 then Cell.disc1
      else if (r.val = 5 ∧ (c.val = 4 ∨ c.val = 5)) ∨ (r.val = 4 ∧ c.val = 4) then Cell.disc2
      else Cell.empty }

/-- The cells of column `c` from the bottom row upwards, row `r` left out. -/
def columnWithoutRow (b : Board) (c : Fin cols) (r : Fin rows) : List Cell :=
  ((List.finRange rows).reverse.filter fun i => i ≠ r).map fun i => b i c

/-- Cell `(i, j)` is one of the up to 8 neighbours of `(row, col)`: at most one
row and one column away, and not `(row, col)` itself. -/
def isNeighbour (row col : Int) (i : Fin rows) (j : Fin cols) : Bool :=
  decide (row - 1 ≤ (i.val : Int) ∧ (i.val : Int) ≤ row + 1 ∧
    col - 1 ≤ (j.val : Int) ∧ (j.val : Int) ≤ col + 1 ∧
    ¬ ((i.val : Int) = row ∧ (j.val : Int) = col))

/-- The board with the neighbours of `(row, col)` emptied and every other
cell, `(row, col)` included, as it was. -/
def clearNeighbours (b : Board) (row col : Int) : Board :=
  fun i j => if isNeighbour row col i j then Cell.empty else b i j

/-- The number of non-empty cells of a board. -/
def nonEmptyCount (b : Board) : Nat :=
  (Finset.univ.filter fun p : Fin rows × Fin cols => b p.1 p.2 ≠ Cell.empty).card

/-- The number of cells of a board that hold the value `v`. -/
def cellCount (b : Board) (v : Cell) : Nat :=
  (Finset.univ.filter fun p : Fin rows × Fin cols => b p.1 p.2 = v).card

/-- A board with every cell occupied by a disc of player 1. -/
def fullBoard : Board := fun _ _ => Cell.disc1

/-- The states a game can be in: the state left by the constructor, and every
state obtained from a reachable one by a call of `selectPowerUp` with a kind
that satisfies `allowed`, by the synchronous part of `makeMove` (of the human
or of the AI), by a run of the callback of a move, or by `startNewGame`,
`resetGame`, `changeMode` or `changeDifficulty`.  The callback may run with any
arguments and at any time, which covers every interleaving of the timers. -/
inductive Reachable (allowed : PowerUp → Prop) : Game → Prop where
  | initial : Reachable allowed initialGame
  | select {g : Game} (type : PowerUp) :
      Reachable allowed g → allowed type → Reachable allowed (selectPowerUp g type)
  | move {g g' : Game} (col : Int) (isAIMove : Bool) :
      Reachable allowed g → makeMove g col isAIMove = some g' → Reachable allowed g'
  | settle {g g' : Game} (row col : Int) (o : Outcome) :
      Reachable allowed g → makeMoveCallback g row col = some (o, g') → Reachable allowed g'
  | start {g : Game} : Reachable allowed g → Reachable allowed (startNewGame g)
  | reset {g : Game} : Reachable allowed g → Reachable allowed (resetGame g)
  | mode {g : Game} (m : GameMode) : Reachable allowed g → Reachable allowed (changeMode g m)
  | level {g : Game} (d : Difficulty) :
      Reachable allowed g → Reachable allowed (changeDifficulty g d)

/-- Every kind of the inventory may be selected. -/
def anyKind : PowerUp → Prop := fun _ => True

/-- The kinds whose tag `renderBoard` draws: `'bomb'`, `'wild'` and `'block'`
(it has no case for `'clear'`). -/
def drawnKind : PowerUp → Prop := fun t => t ≠ PowerUp.clear

/-- A run of the game from `startNewGame()`: player 1 drops a disc into column
3, the AI into column 0, player 1 selects the Bomb and moves into column 3.
The result pairs the state just before the Bomb move with the state after
it. -/
def bombScenario : Option (Game × Game) :=
  (makeMoveOutcome (startNewGame initialGame) 3 false).bind fun r1 =>
  (makeMoveOutcome r1.2 0 true).bind fun r2 =>
  (makeMove (selectPowerUp r2.2 PowerUp.bomb) 3 false).map fun g =>
    (selectPowerUp r2.2 PowerUp.bomb, g)

/-- A run of the game from `startNewGame()`: player 1 drops discs into columns
0, 1 and 2, the AI answers in columns 4, 5 and 4, then player 1 selects the
Wild and moves into column 3.  The result is the state just before the Wild
move, the outcome of the move and the state after its callback. -/
def wildScenario : Option (Game × Option Outcome × Game) :=
  (makeMoveOutcome (startNewGame initialGame) 0 false).bind fun r1 =>
  (makeMoveOutcome r1.2 4 true).bind fun r2 =>
  (makeMoveOutcome r2.2 1 false).bind fun r3 =>
  (makeMoveOutcome r3.2 5 true).bind fun r4 =>
  (makeMoveOutcome r4.2 2 false).bind fun r5 =>
  (makeMoveOutcome r5.2 4 true).bind fun r6 =>
  (makeMoveOutcome (selectPowerUp r6.2 PowerUp.wild) 3 false).map fun r =>
    (selectPowerUp r6.2 PowerUp.wild, r.1, r.2)

/-- A run of the game that continues `bombScenario`, in which `'bomb'` sits at
`(4, 3)` above the empty cell `(5, 3)`: the callback of the Bomb move runs, the
AI drops a disc into column 0, and player 1 selects the Clear Row power-up and
moves into column 3.  The result is the state just before that move, the state
after `usePowerUp` (just before the write of `makeMove`) and the state after
the move. -/
def clearScenario : Option (Game × Game × Game) :=
  bombScenario.bind fun p =>
  (makeMoveCallback p.2 4 3).bind fun r1 =>
  (makeMoveOutcome r1.2 0 true).bind fun r2 =>
  (applyActivePowerUp (selectPowerUp r2.2 PowerUp.clear)
      (getLowestEmptyRow (selectPowerUp r2.2 PowerUp.clear).board 3) 3 false).bind fun r3 =>
  (makeMove (selectPowerUp r2.2 PowerUp.clear) 3 false).map fun g =>
    (selectPowerUp r2.2 PowerUp.clear, r3.2, g)

/-- The columns of a game of 41 plain moves in the mode `'vs-human'`, players 1
and 2 alternating, after which only the cell `(0, 2)` is empty. -/
def drawGameColumns : List Int :=
  [1, 4, 0, 1, 0, 5, 0, 0, 4, 6, 0, 4, 3, 5, 5, 6, 5, 2, 1, 3, 5, 1, 0, 3, 3, 1, 1, 5, 4, 2,
    6, 6, 6, 3, 4, 4, 6, 3, 2, 2, 2]

/-- A run of the game from `startNewGame()` in the mode `'vs-human'`: the 41
moves of `drawGameColumns`, then player 2 selects the Wild and moves into
column 2, the last empty cell.  The result is the state just before the Wild
move, the outcome of the move and the state after its callback. -/
def drawScenario : Option (Game × Option Outcome × Game) :=
  (drawGameColumns.foldlM (fun g col => (makeMoveOutcome g col false).map fun r => r.2)
    (startNewGame (changeMode initialGame GameMode.vsHuman))).bind fun g =>
  (makeMoveOutcome (selectPowerUp g PowerUp.wild) 2 false).map fun r =>
    (selectPowerUp g PowerUp.wild, r.1, r.2)

/-! ## Bit-mask boards and bound certificates for the search -/

end ConnectFour

/-! # Theorems -/

namespace ConnectFour

/-! ## Basic facts about reads and writes -/

theorem cellAt_eq_some_iff (b : Board) (r c : Int) (v : Cell) :
    cellAt b r c = some v ↔ ∃ (i : Fin rows) (j : Fin cols), (i.val : Int) = r ∧ (j.val : Int) = c ∧ b i j = v := by
  unfold cellAt
  constructor
  · intro h
    split at h
    · rename_i hr
      refine ⟨⟨r.toNat, by omega⟩, ⟨c.toNat, by omega⟩, by simp; omega, by simp; omega, ?_⟩
      simpa using h
    · simp at h
  · rintro ⟨i, j, rfl, rfl, rfl⟩
    have hi := i.isLt
    have hj := j.isLt
    rw [dif_pos (by omega)]
    simp

theorem cellAt_fin (b : Board) (i : Fin rows) (j : Fin cols) :
    cellAt b (i.val : Int) (j.val : Int) = some (b i j) :=
  (cellAt_eq_some_iff b _ _ _).2 ⟨i, j, rfl, rfl, rfl⟩

theorem cellAt_nat (b : Board) (r c : Nat) (hr : r < rows) (hc : c < cols) :
    cellAt b (r : Int) (c : Int) = some (b ⟨r, hr⟩ ⟨c, hc⟩) :=
  cellAt_fin b ⟨r, hr⟩ ⟨c, hc⟩

theorem cellAt_isSome_iff (b : Board) (r c : Int) :
    (∃ v, cellAt b r c = some v) ↔ (0 ≤ r ∧ r < rows ∧ 0 ≤ c ∧ c < cols) := by
  unfold cellAt
  by_cases h : 0 ≤ r ∧ r < rows ∧ 0 ≤ c ∧ c < cols
  · rw [dif_pos h]
    exact ⟨fun _ => h, fun _ => ⟨_, rfl⟩⟩
  · rw [dif_neg h]
    exact ⟨fun ⟨v, hv⟩ => (by cases hv), fun h' => absurd h' h⟩

theorem setCell_fin (b : Board) (i : Fin rows) (j : Fin cols) (v : Cell) :
    setCell b (i.val : Int) (j.val : Int) v
      = some (fun i' j' => if i' = i ∧ j' = j then v else b i' j') := by
  have hi := i.isLt
  have hj := j.isLt
  unfold setCell
  rw [if_pos (by omega)]
  congr 1
  funext i' j'
  have : ((i'.val : Int) = i.val ∧ (j'.val : Int) = j.val) ↔ (i' = i ∧ j' = j) := by
    simp [Fin.ext_iff]
  simp only [this]

/-- Writing a value over an empty cell and clearing the cell again gives the
board back. -/
theorem setCell_restore (b : Board) (r c : Int) (v : Cell)
    (h : cellAt b r c = some Cell.empty) :
    ∃ b1, setCell b r c v = some b1 ∧ setCell b1 r c Cell.empty = some b := by
  obtain ⟨i, j, rfl, rfl, hij⟩ := (cellAt_eq_some_iff b r c _).1 h
  refine ⟨_, setCell_fin b i j v, ?_⟩
  rw [setCell_fin]
  congr 1
  funext i' j'
  by_cases hh : i' = i ∧ j' = j
  · obtain ⟨rfl, rfl⟩ := hh
    simp [hij]
  · simp [hh]

theorem getLowestEmptyRowFrom_spec (b : Board) (col : Int) (l : List Nat) :
    (getLowestEmptyRowFrom b col l = -1 ∧ ∀ r ∈ l, cellAt b (r : Int) col ≠ some Cell.empty) ∨
    (∃ r ∈ l, getLowestEmptyRowFrom b col l = (r : Int) ∧ cellAt b (r : Int) col = some Cell.empty) := by
  induction l with
  | nil => left; simp [getLowestEmptyRowFrom]
  | cons r rest ih =>
    unfold getLowestEmptyRowFrom
    by_cases h : cellAt b (r : Int) col = some Cell.empty
    · right
      exact ⟨r, by simp, by simp [h], h⟩
    · have h' : (cellAt b (r : Int) col == some Cell.empty) = false := by simpa using h
      rw [h']
      simp only [Bool.false_eq_true, if_false]
      rcases ih with ⟨h1, h2⟩ | ⟨r', hr', h1, h2⟩
      · left
        refine ⟨h1, ?_⟩
        intro x hx
        rcases List.mem_cons.1 hx with rfl | hx
        · exact h
        · exact h2 x hx
      · right
        exact ⟨r', List.mem_cons_of_mem _ hr', h1, h2⟩

theorem isValidMove_iff (b : Board) (col : Int) :
    isValidMove b col = true ↔ cellAt b 0 col = some Cell.empty := by
  unfold isValidMove
  constructor
  · intro h
    simp only [Bool.and_eq_true, decide_eq_true_eq, beq_iff_eq] at h
    exact h.2
  · intro h
    have hr := (cellAt_isSome_iff b 0 col).1 ⟨_, h⟩
    simp only [Bool.and_eq_true, decide_eq_true_eq, beq_iff_eq]
    exact ⟨⟨hr.2.2.1, hr.2.2.2⟩, h⟩

/-- For a legal column the row found by `getLowestEmptyRow` holds an empty
cell (so it lies on the board). -/
theorem getLowestEmptyRow_empty (b : Board) (col : Int) (h : isValidMove b col = true) :
    cellAt b (getLowestEmptyRow b col) col = some Cell.empty := by
  have h0 := (isValidMove_iff b col).1 h
  unfold getLowestEmptyRow
  rcases getLowestEmptyRowFrom_spec b col (List.range rows).reverse with ⟨_, h2⟩ | ⟨r, _, h1, h2⟩
  · exact absurd h0 (h2 0 (by decide))
  · rw [h1]; exact h2

/-- The loop condition of `checkWin` holds at a cell exactly when the cell is
on the board and holds `player` or `'wild'`. -/
theorem matchesAt_iff (b : Board) (player : Cell) (r c : Int) :
    matchesAt b player r c = true ↔
      (cellAt b r c = some player ∨ cellAt b r c = some Cell.wild) := by
  unfold matchesAt
  simp only [Bool.and_eq_true, Bool.or_eq_true, beq_iff_eq]
  constructor
  · exact fun h => h.2
  · intro h
    refine ⟨?_, h⟩
    have hr : 0 ≤ r ∧ r < rows ∧ 0 ≤ c ∧ c < cols := by
      rcases h with h | h
      · exact (cellAt_isSome_iff b r c).1 ⟨_, h⟩
      · exact (cellAt_isSome_iff b r c).1 ⟨_, h⟩
    unfold inRange
    simp only [Bool.and_eq_true, decide_eq_true_eq]
    exact ⟨⟨⟨hr.1, hr.2.1⟩, hr.2.2.1⟩, hr.2.2.2⟩

/-- The two counting loops reach 4 exactly when one of the four windows of
length 4 through the start cell passes the loop test everywhere else. -/
theorem countWhile_ge_four (f g : Int → Bool) :
    4 ≤ countWhile g [1, 2, 3] (countWhile f [1, 2, 3] 1) ↔
      (f 1 = true ∧ f 2 = true ∧ f 3 = true) ∨ (g 1 = true ∧ f 1 = true ∧ f 2 = true) ∨
      (g 2 = true ∧ g 1 = true ∧ f 1 = true) ∨ (g 3 = true ∧ g 2 = true ∧ g 1 = true) := by
  simp only [countWhile]
  cases f 1 <;> cases f 2 <;> cases f 3 <;> cases g 1 <;> cases g 2 <;> cases g 3 <;> simp

theorem hasRun_iff (b : Board) (player : Cell) (row col dx dy : Int)
    (h0 : cellAt b row col = some player) :
    HasRun b player row col dx dy ↔
      (matchesAt b player (row + dx * 1) (col + dy * 1) = true ∧
        matchesAt b player (row + dx * 2) (col + dy * 2) = true ∧
        matchesAt b player (row + dx * 3) (col + dy * 3) = true) ∨
      (matchesAt b player (row - dx * 1) (col - dy * 1) = true ∧
        matchesAt b player (row + dx * 1) (col + dy * 1) = true ∧
        matchesAt b player (row + dx * 2) (col + dy * 2) = true) ∨
      (matchesAt b player (row - dx * 2) (col - dy * 2) = true ∧
        matchesAt b player (row - dx * 1) (col - dy * 1) = true ∧
        matchesAt b player (row + dx * 1) (col + dy * 1) = true) ∨
      (matchesAt b player (row - dx * 3) (col - dy * 3) = true ∧
        matchesAt b player (row - dx * 2) (col - dy * 2) = true ∧
        matchesAt b player (row - dx * 1) (col - dy * 1) = true) := by
  have neg : ∀ k : Int, matchesAt b player (row - dx * k) (col - dy * k)
      = matchesAt b player (row + dx * (-k)) (col + dy * (-k)) := by
    intro k
    congr 1 <;> ring
  have key : ∀ t : Int, matchesAt b player (row + dx * t) (col + dy * t) = true ↔
      (cellAt b (row + dx * t) (col + dy * t) = some player ∨
        cellAt b (row + dx * t) (col + dy * t) = some Cell.wild) :=
    fun t => matchesAt_iff b player _ _
  have g0 : matchesAt b player (row + dx * 0) (col + dy * 0) = true := by
    rw [key]; left; simpa using h0
  simp only [neg]
  constructor
  · rintro ⟨lo, hi, hlo, hhi, hlen, hall⟩
    have get : ∀ t : Int, lo ≤ t → t ≤ hi →
        matchesAt b player (row + dx * t) (col + dy * t) = true :=
      fun t h1 h2 => (key t).2 (hall t h1 h2)
    by_cases c0 : lo = 0
    · left
      exact ⟨get 1 (by omega) (by omega), get 2 (by omega) (by omega), get 3 (by omega) (by omega)⟩
    by_cases c1 : lo = -1
    · right; left
      exact ⟨get (-1) (by omega) (by omega), get 1 (by omega) (by omega),
        get 2 (by omega) (by omega)⟩
    by_cases c2 : lo = -2
    · right; right; left
      exact ⟨get (-2) (by omega) (by omega), get (-1) (by omega) (by omega),
        get 1 (by omega) (by omega)⟩
    · right; right; right
      exact ⟨get (-3) (by omega) (by omega), get (-2) (by omega) (by omega),
        get (-1) (by omega) (by omega)⟩
  · intro h
    rcases h with ⟨h1, h2, h3⟩ | ⟨h1, h2, h3⟩ | ⟨h1, h2, h3⟩ | ⟨h1, h2, h3⟩
    · refine ⟨0, 3, by omega, by omega, by omega, ?_⟩
      intro t ht1 ht2
      rw [← key]
      obtain rfl | rfl | rfl | rfl : t = 0 ∨ t = 1 ∨ t = 2 ∨ t = 3 := by omega
      all_goals assumption
    · refine ⟨-1, 2, by omega, by omega, by omega, ?_⟩
      intro t ht1 ht2
      rw [← key]
      obtain rfl | rfl | rfl | rfl : t = -1 ∨ t = 0 ∨ t = 1 ∨ t = 2 := by omega
      all_goals assumption
    · refine ⟨-2, 1, by omega, by omega, by omega, ?_⟩
      intro t ht1 ht2
      rw [← key]
      obtain rfl | rfl | rfl | rfl : t = -2 ∨ t = -1 ∨ t = 0 ∨ t = 1 := by omega
      all_goals assumption
    · refine ⟨-3, 0, by omega, by omega, by omega, ?_⟩
      intro t ht1 ht2
      rw [← key]
      obtain rfl | rfl | rfl | rfl : t = -3 ∨ t = -2 ∨ t = -1 ∨ t = 0 := by omega
      all_goals assumption

theorem axisCount_ge_four_iff (b : Board) (player : Cell) (row col dx dy : Int)
    (h0 : cellAt b row col = some player) :
    4 ≤ axisCount b player row col dx dy ↔ HasRun b player row col dx dy := by
  rw [hasRun_iff b player row col dx dy h0]
  unfold axisCount
  exact countWhile_ge_four _ _

/-- Dropping a disc into a legal column and clearing the landing cell again
gives the board back. -/
theorem place_undo (b : Board) (col : Int) (disc : Cell) (h : isValidMove b col = true) :
    ∃ b1, setCell b (getLowestEmptyRow b col) col disc = some b1 ∧
      setCell b1 (getLowestEmptyRow b col) col Cell.empty = some b :=
  setCell_restore b _ col disc (getLowestEmptyRow_empty b col h)

/-- C3: for every board and every legal column, writing a disc at
`(getLowestEmptyRow(col), col)` and then setting that cell back to `0` both
succeed and give back a board equal to the original in every cell. -/
theorem place_then_remove_restores (b : Board) (col : Int) (disc : Cell)
    (h : isValidMove b col = true) :
    ∃ b1, setCell b (getLowestEmptyRow b col) col disc = some b1 ∧
      setCell b1 (getLowestEmptyRow b col) col Cell.empty = some b :=
  setCell_restore b _ col disc (getLowestEmptyRow_empty b col h)

theorem place_then_remove_restores_witness :
    isValidMove fourInRowBoard 4 = true ∧
    ∃ b1, setCell fourInRowBoard (getLowestEmptyRow fourInRowBoard 4) 4 Cell.disc2 = some b1 ∧
      setCell b1 (getLowestEmptyRow fourInRowBoard 4) 4 Cell.empty = some fourInRowBoard :=
  ⟨by decide, place_then_remove_restores fourInRowBoard 4 Cell.disc2 (by decide)⟩

/-- C7: for every 4-cell window `evaluateWindow` returns `own + opp`, with
`own` = +100 / +10 / +2 for 4 / 3 and 1 empty / 2 and 2 empty discs of player 2
(0 otherwise) and `opp` = -100 / -80 / -2 for the same patterns of player 1. -/
theorem evaluateWindow_table (c0 c1 c2 c3 : Cell) :
    evaluateWindow [c0, c1, c2, c3]
      = ownScore ([c0, c1, c2, c3].count Cell.disc2) ([c0, c1, c2, c3].count Cell.empty)
        + oppScore ([c0, c1, c2, c3].count Cell.disc1) ([c0, c1, c2, c3].count Cell.empty) := by
  cases c0 <;> cases c1 <;> cases c2 <;> cases c3 <;> rfl

/-- C8: a 4-cell window that contains a cell other than `0`, `1` or `2`
(`'wild'`, `'block'`, or any other string) is scored 0 by `evaluateWindow`,
whatever the other three cells hold. -/
theorem evaluateWindow_nonplain (c0 c1 c2 c3 : Cell)
    (h : ∃ c ∈ [c0, c1, c2, c3], c.isNumber = false) :
    evaluateWindow [c0, c1, c2, c3] = 0 := by
  obtain ⟨c, hc, hn⟩ := h
  simp only [List.mem_cons, List.mem_singleton, List.not_mem_nil, or_false] at hc
  cases c0 <;> cases c1 <;> cases c2 <;> cases c3 <;> first
    | rfl
    | (exfalso; rcases hc with rfl | rfl | rfl | rfl <;> simp [Cell.isNumber] at hn)

theorem evaluateWindow_nonplain_witness :
    (∃ c ∈ [Cell.disc2, Cell.disc2, Cell.wild, Cell.disc2], c.isNumber = false) ∧
    evaluateWindow [Cell.disc2, Cell.disc2, Cell.wild, Cell.disc2] = 0 :=
  ⟨⟨Cell.wild, by decide, rfl⟩,
    evaluateWindow_nonplain Cell.disc2 Cell.disc2 Cell.wild Cell.disc2 ⟨Cell.wild, by decide, rfl⟩⟩

theorem readWindow_of_fin (b : Board) (w : List (Fin rows × Fin cols)) :
    readWindow b (w.map fun p => (p.1.val, p.2.val)) = some (valuesOn b w) := by
  unfold readWindow valuesOn
  induction w with
  | nil => rfl
  | cons p rest ih =>
    simp only [List.map_cons, List.mapM_cons, ih, cellAt_fin]
    rfl

theorem foldlM_addWindow (b : Board) (ws : List (List (Nat × Nat)))
    (h : ∀ w ∈ ws, ∃ vs, readWindow b w = some vs) (s : Int) :
    ws.foldlM (addWindow b) s
      = some (s + (ws.map fun w => ((readWindow b w).map evaluateWindow).getD 0).sum) := by
  induction ws generalizing s with
  | nil => simp
  | cons w rest ih =>
    obtain ⟨vs, hvs⟩ := h w (List.mem_cons_self _ _)
    have hrest := ih (fun w' hw' => h w' (List.mem_cons_of_mem _ hw'))
    simp only [List.foldlM_cons, addWindow, hvs, Option.map_some', Option.bind_eq_bind,
      Option.some_bind, List.map_cons, List.sum_cons, Option.getD_some]
    rw [hrest]
    congr 1
    ring

theorem codeWindows_perm :
    List.Perm (horizontalWindows ++ verticalWindows ++ diagonalWindows)
      (allWindows.map fun w => w.map fun p => (p.1.val, p.2.val)) := by
  decide

theorem evaluateBoard_eq (b : Board) :
    evaluateBoard b = some ((allWindows.map fun w => evaluateWindow (valuesOn b w)).sum) := by
  have hmem : ∀ w ∈ horizontalWindows ++ verticalWindows ++ diagonalWindows,
      ∃ vs, readWindow b w = some vs := by
    intro w hw
    obtain ⟨fw, _, rfl⟩ := List.mem_map.1 (codeWindows_perm.mem_iff.1 hw)
    exact ⟨_, readWindow_of_fin b fw⟩
  have hH := foldlM_addWindow b horizontalWindows
    (fun w hw => hmem w (by simp [hw])) 0
  have hV := fun s => foldlM_addWindow b verticalWindows
    (fun w hw => hmem w (by simp [hw])) s
  have hD := fun s => foldlM_addWindow b diagonalWindows
    (fun w hw => hmem w (by simp [hw])) s
  unfold evaluateBoard
  simp only [hH, hV, hD, Option.some_bind]
  congr 1
  have hsum := (codeWindows_perm.map
    (fun w => ((readWindow b w).map evaluateWindow).getD 0)).sum_eq
  simp only [List.map_append, List.sum_append, List.map_map] at hsum
  rw [zero_add, hsum]
  exact congrArg List.sum
    (List.map_congr_left fun fw _ => by simp [Function.comp, readWindow_of_fin])

/-- C9: `evaluateBoard` finishes without reading outside the grid and returns
the sum of `evaluateWindow` over the contiguous runs of 4 cells of the board,
each counted once: 24 horizontal, 21 vertical, 12 down-right and 12 up-right
diagonal runs, 69 in all, pairwise different as sets of cells, and every run of
4 cells that fits on the board along one of the four axes is among them. -/
theorem evaluateBoard_sum_windows (b : Board) :
    evaluateBoard b = some ((allWindows.map fun w => evaluateWindow (valuesOn b w)).sum) ∧
    (windowsOfAxis (0, 1)).length = 24 ∧ (windowsOfAxis (1, 0)).length = 21 ∧
    (windowsOfAxis (1, 1)).length = 12 ∧ (windowsOfAxis (-1, 1)).length = 12 ∧
    allWindows.length = 69 ∧
    (allWindows.map List.toFinset).Nodup ∧
    (∀ (r c : Int) (d : Int × Int) (w : List (Fin rows × Fin cols)),
      d ∈ [((0 : Int), (1 : Int)), (1, 0), (1, 1), (-1, 1)] →
      windowAt r c d.1 d.2 = some w → w ∈ allWindows) := by
  refine ⟨evaluateBoard_eq b, by decide, by decide, by decide, by decide, by decide,
    by decide, ?_⟩
  intro r c d w hd hw
  have hcell : ∃ i j : Nat, i < rows ∧ j < cols ∧ (i : Int) = r ∧ (j : Int) = c := by
    simp only [windowAt, List.mapM_cons, Option.bind_eq_bind] at hw
    simp only [zero_mul, add_zero] at hw
    cases h0 : toCell r c with
    | none => simp [h0] at hw
    | some p =>
      unfold toCell at h0
      split at h0
      · rename_i hr
        exact ⟨r.toNat, c.toNat, by omega, by omega, by omega, by omega⟩
      · cases h0
  obtain ⟨i, j, hi, hj, rfl, rfl⟩ := hcell
  have hmemc : (i, j) ∈ allCells := by
    unfold allCells
    exact List.mem_product.2 ⟨List.mem_range.2 hi, List.mem_range.2 hj⟩
  have hax : w ∈ windowsOfAxis d := List.mem_filterMap.2 ⟨(i, j), hmemc, hw⟩
  unfold allWindows
  simp only [List.mem_cons, List.mem_singleton, List.not_mem_nil, or_false] at hd
  simp only [List.mem_append]
  rcases hd with rfl | rfl | rfl | rfl
  · exact Or.inl (Or.inl (Or.inl hax))
  · exact Or.inl (Or.inl (Or.inr hax))
  · exact Or.inl (Or.inr hax)
  · exact Or.inr hax

theorem collectPieces_spec (col : Fin cols) (l : List (Fin rows)) (hnd : l.Nodup) :
    ∀ (pieces : List Cell) (b : Board),
      collectPieces col.val (l.map fun r => r.val) pieces b
        = some (pieces ++ (l.map fun r => b r col).filter (fun v => v != Cell.empty),
            fun i j => if j = col ∧ i ∈ l then Cell.empty else b i j) := by
  induction l with
  | nil => intro pieces b; simp [collectPieces]
  | cons r rest ih =>
    intro pieces b
    have hr : r ∉ rest := (List.nodup_cons.1 hnd).1
    have ih' := ih (List.nodup_cons.1 hnd).2
    simp only [List.map_cons, collectPieces, cellAt_fin, Option.some_bind]
    by_cases hv : b r col = Cell.empty
    · simp only [hv, bne_self_eq_false, Bool.false_eq_true, if_false, ih']
      congr 1
      refine Prod.ext ?_ ?_
      · simp [List.filter_cons]
      · funext i j
        by_cases hi : i = r
        · subst hi
          by_cases hj : j = col
          · subst hj; simp [hv, hr]
          · simp [hj]
        · simp [hi]
    · have hv' : (b r col != Cell.empty) = true := by simpa using hv
      simp only [hv', if_true, setCell_fin, Option.some_bind, ih']
      congr 1
      refine Prod.ext ?_ ?_
      · have hmap : (rest.map fun r' => if r' = r then Cell.empty else b r' col)
            = rest.map fun r' => b r' col := by
          apply List.map_congr_left
          intro r' hr'
          have : r' ≠ r := fun h => hr (h ▸ hr')
          simp [this]
        simp [List.filter_cons, hv', hmap]
      · funext i j
        by_cases hi : i = r
        · subst hi
          by_cases hj : j = col
          · subst hj; simp
          · simp [hj]
        · simp [hi]

theorem placePieces_spec (col : Fin cols) (pieces : List Cell) (is : List Nat)
    (his : ∀ i ∈ is, i < pieces.length ∧ i < rows) :
    ∀ b : Board,
      placePieces col.val pieces is b
        = some (fun r j => if j = col ∧ (rows - 1 - r.val) ∈ is
            then pieces.getD (rows - 1 - r.val) Cell.empty else b r j) := by
  induction is with
  | nil => intro b; simp [placePieces]
  | cons i rest ih =>
    intro b
    obtain ⟨hi1, hi2⟩ := his i (List.mem_cons_self _ _)
    have ih' := ih (fun k hk => his k (List.mem_cons_of_mem _ hk))
    have hget : pieces.get? i = some (pieces.getD i Cell.empty) := by
      rw [List.getD_eq_getElem?_getD, List.get?_eq_getElem?, List.getElem?_eq_getElem hi1]
      simp
    have hrow : ((rows : Int) - 1 - (i : Int)) = (((⟨rows - 1 - i, by omega⟩ : Fin rows).val : Nat) : Int) := by
      simp only [rows] at hi2 ⊢
      omega
    simp only [placePieces, hget, Option.some_bind]
    rw [hrow, setCell_fin]
    simp only [Option.some_bind, ih']
    congr 1
    funext r j
    have hiff : (r = (⟨rows - 1 - i, by omega⟩ : Fin rows)) ↔ rows - 1 - r.val = i := by
      have := r.isLt
      constructor
      · intro h
        rw [h]
        simp only [rows] at hi2 ⊢
        omega
      · intro h
        apply Fin.ext
        simp only [rows] at h hi2 this ⊢
        omega
    simp only [hiff, List.mem_cons]
    by_cases hj : j = col <;> by_cases hr : rows - 1 - r.val = i <;>
      by_cases hm : rows - 1 - r.val ∈ rest <;>
      simp only [hj, hr, hm, true_and, and_true, false_and, and_false, true_or, false_or,
        or_false, or_true, or_self, if_true, if_false, not_true_eq_false, not_false_eq_true]
    · rw [← hr]; simp only [hm, if_true]
    · rw [← hr]; simp only [hm, if_false]

theorem getD_row_eq (p : List Cell) (hp : p.length ≤ rows) :
    [p.getD 0 Cell.empty, p.getD 1 Cell.empty, p.getD 2 Cell.empty, p.getD 3 Cell.empty,
      p.getD 4 Cell.empty, p.getD 5 Cell.empty]
      = p ++ List.replicate (rows - p.length) Cell.empty := by
  rcases p with _ | ⟨a0, _ | ⟨a1, _ | ⟨a2, _ | ⟨a3, _ | ⟨a4, _ | ⟨a5, _ | ⟨a6, p⟩⟩⟩⟩⟩⟩⟩
  all_goals first
    | rfl
    | (simp only [List.length_cons, rows] at hp; omega)

theorem columnUp_eq (b : Board) (c : Fin cols) :
    columnUp b c = [b 5 c, b 4 c, b 3 c, b 2 c, b 1 c, b 0 c] := rfl

theorem columnUp_length (b : Board) (c : Fin cols) : (columnUp b c).length = rows := rfl

theorem columnUp_congr (b b' : Board) (c : Fin cols) (h : ∀ r, b' r c = b r c) :
    columnUp b' c = columnUp b c := by
  simp only [columnUp_eq, h]

/-- One column of `dropPieces`: the column is compacted and every other column
is left alone. -/
theorem dropColumn_spec (b : Board) (col : Fin cols) :
    ∃ b1, dropColumn b col.val = some b1 ∧
      (∀ r j, j ≠ col → b1 r j = b r j) ∧
      columnUp b1 col = compacted (columnUp b col) := by
  have hrev : (List.range rows).reverse = (List.finRange rows).reverse.map fun r => r.val := by
    decide
  have hnd : (List.finRange rows).reverse.Nodup := by decide
  have hcollect := collectPieces_spec col _ hnd [] b
  have hlen : ((columnUp b col).filter fun v => v != Cell.empty).length ≤ rows :=
    le_trans (List.length_filter_le _ _) (le_of_eq (columnUp_length b col))
  have hplace := placePieces_spec col ((columnUp b col).filter fun v => v != Cell.empty)
    (List.range ((columnUp b col).filter fun v => v != Cell.empty).length)
    (fun i hi => ⟨List.mem_range.1 hi, lt_of_lt_of_le (List.mem_range.1 hi) hlen⟩)
  have hfull : ∀ r : Fin rows, r ∈ (List.finRange rows).reverse := by decide
  have hdrop : dropColumn b col.val = some (fun r j =>
      if j = col then
        ((columnUp b col).filter fun v => v != Cell.empty).getD (rows - 1 - r.val) Cell.empty
      else b r j) := by
    unfold dropColumn
    rw [hrev, hcollect]
    simp only [Option.some_bind, List.nil_append]
    refine (hplace _).trans ?_
    congr 1
    funext r j
    by_cases hj : j = col
    · by_cases hm : (rows - 1 - r.val) ∈
          List.range ((columnUp b col).filter fun v => v != Cell.empty).length
      · simp only [hj, hm, and_self, if_true]
      · simp only [hj, hm, and_false, if_false, hfull, and_self, if_true]
        rw [List.getD_eq_default]
        exact not_lt.1 (fun h => hm (List.mem_range.2 h))
    · simp only [hj, false_and, if_false]
  refine ⟨_, hdrop, ?_, ?_⟩
  · intro r j hj
    simp only [hj, if_false]
  · rw [columnUp_eq]
    simp only [if_true]
    exact getD_row_eq _ hlen

theorem dropColumns_spec (cs : List (Fin cols)) (hnd : cs.Nodup) :
    ∀ b : Board, ∃ b', (cs.map fun c => c.val).foldlM dropColumn b = some b' ∧
      (∀ c ∈ cs, columnUp b' c = compacted (columnUp b c)) ∧
      (∀ c, c ∉ cs → ∀ r, b' r c = b r c) := by
  induction cs with
  | nil => intro b; exact ⟨b, rfl, by simp, by simp⟩
  | cons c rest ih =>
    intro b
    have hc : c ∉ rest := (List.nodup_cons.1 hnd).1
    obtain ⟨b1, h1, hother, hcol⟩ := dropColumn_spec b c
    obtain ⟨b', h2, hin, hout⟩ := ih (List.nodup_cons.1 hnd).2 b1
    refine ⟨b', ?_, ?_, ?_⟩
    · simp only [List.map_cons, List.foldlM_cons, h1, Option.bind_eq_bind, Option.some_bind]
      exact h2
    · intro c' hc'
      rcases List.mem_cons.1 hc' with rfl | hc'
      · rw [columnUp_congr b1 b' c' (hout c' hc), hcol]
      · have hne : c' ≠ c := fun h => hc (h ▸ hc')
        rw [hin c' hc', columnUp_congr b b1 c' (fun r => hother r c' hne)]
    · intro c' hc' r
      have hne : c' ≠ c := fun h => hc' (h ▸ List.mem_cons_self _ _)
      rw [hout c' (fun h => hc' (List.mem_cons_of_mem _ h)) r, hother r c' hne]

/-- C10: for every board, gaps included, `dropPieces` finishes and leaves in
each column exactly the column's former non-empty cells, in the same
bottom-to-top order, stacked from the bottom row with only empty cells above
them. -/
theorem dropPieces_compacts (b : Board) :
    ∃ b', dropPieces b = some b' ∧ ∀ c : Fin cols,
      columnUp b' c = ((columnUp b c).filter fun v => v != Cell.empty) ++
        List.replicate (rows - ((columnUp b c).filter fun v => v != Cell.empty).length)
          Cell.empty := by
  have hcols : List.range cols = (List.finRange cols).map fun c => c.val := by decide
  obtain ⟨b', h1, h2, _⟩ := dropColumns_spec (List.finRange cols) (by decide) b
  refine ⟨b', ?_, fun c => h2 c (List.mem_finRange c)⟩
  unfold dropPieces
  rw [hcols]
  exact h1

/-! ## The search leaves the board as it found it -/

theorem checkWin_total (b : Board) (i : Fin rows) (j : Fin cols) :
    ∃ r, checkWin b (i.val : Int) (j.val : Int) = some r := by
  simp only [checkWin, cellAt_fin, Option.bind_eq_bind, Option.some_bind]
  split
  · exact ⟨_, rfl⟩
  · exact ⟨_, rfl⟩

theorem checkBoardWinnerFrom_total (b : Board) (l : List (Nat × Nat))
    (h : ∀ p ∈ l, p.1 < rows ∧ p.2 < cols) :
    ∃ w, checkBoardWinnerFrom b l = some w := by
  induction l with
  | nil => exact ⟨none, rfl⟩
  | cons p rest ih =>
    obtain ⟨row, col⟩ := p
    obtain ⟨hr, hc⟩ := h (row, col) (List.mem_cons_self _ _)
    have ih' := ih (fun q hq => h q (List.mem_cons_of_mem _ hq))
    obtain ⟨r, hr'⟩ := checkWin_total b ⟨row, hr⟩ ⟨col, hc⟩
    simp only [checkBoardWinnerFrom, cellAt_nat b row col hr hc, Option.some_bind]
    split
    · simp only at hr'
      rw [hr']
      simp only [Option.some_bind]
      split
      · exact ⟨_, rfl⟩
      · exact ih'
    · exact ih'

/-- The scan `checkBoardWinner` always finishes with a result. -/
theorem checkBoardWinner_total (b : Board) : ∃ w, checkBoardWinner b = some w := by
  apply checkBoardWinnerFrom_total
  decide

theorem evaluateLeaf_eq (b : Board) : ∃ n : Int, evaluateLeaf b = some (Score.ofInt n, b) := by
  unfold evaluateLeaf
  rw [evaluateBoard_eq]
  exact ⟨_, rfl⟩

theorem maxLoop_frame (recurse : Score → Score → Board → Option (Score × Board))
    (hrec : ∀ alpha beta b, ∃ s, recurse alpha beta b = some (s, b)) (beta : Score)
    (l : List Nat) :
    ∀ maxScore alpha b, ∃ s, maxLoop recurse beta l maxScore alpha b = some (s, b) := by
  induction l with
  | nil => intro maxScore alpha b; exact ⟨_, rfl⟩
  | cons col rest ih =>
    intro maxScore alpha b
    unfold maxLoop
    by_cases hv : isValidMove b col = true
    · obtain ⟨b1, h1, h2⟩ := place_undo b col Cell.disc2 hv
      obtain ⟨s, hs⟩ := hrec alpha beta b1
      simp only [hv, if_true, h1, Option.some_bind, hs, h2]
      split
      · exact ⟨_, rfl⟩
      · exact ih _ _ _
    · simp only [hv, Bool.false_eq_true, if_false]
      exact ih _ _ _

theorem minLoop_frame (recurse : Score → Score → Board → Option (Score × Board))
    (hrec : ∀ alpha beta b, ∃ s, recurse alpha beta b = some (s, b)) (alpha : Score)
    (l : List Nat) :
    ∀ minScore beta b, ∃ s, minLoop recurse alpha l minScore beta b = some (s, b) := by
  induction l with
  | nil => intro minScore beta b; exact ⟨_, rfl⟩
  | cons col rest ih =>
    intro minScore beta b
    unfold minLoop
    by_cases hv : isValidMove b col = true
    · obtain ⟨b1, h1, h2⟩ := place_undo b col Cell.disc1 hv
      obtain ⟨s, hs⟩ := hrec alpha beta b1
      simp only [hv, if_true, h1, Option.some_bind, hs, h2]
      split
      · exact ⟨_, rfl⟩
      · exact ih _ _ _
    · simp only [hv, Bool.false_eq_true, if_false]
      exact ih _ _ _

/-- C2: for every board, depth, side to move and alpha/beta pair, `minimax`
returns a score and the board after the call equals the board before it in
every cell; the early exit through `beta <= alpha` is one of the paths
covered. -/
theorem minimax_restores_board (depth : Nat) (isMaximizing : Bool) (alpha beta : Score)
    (b : Board) : ∃ s, minimax depth isMaximizing alpha beta b = some (s, b) := by
  induction depth generalizing isMaximizing alpha beta b with
  | zero =>
    obtain ⟨w, hw⟩ := checkBoardWinner_total b
    obtain ⟨n, hn⟩ := evaluateLeaf_eq b
    simp only [minimax, hw, Option.some_bind]
    split
    · exact ⟨_, rfl⟩
    · split
      · exact ⟨_, rfl⟩
      · exact ⟨_, hn⟩
  | succ d ih =>
    obtain ⟨w, hw⟩ := checkBoardWinner_total b
    obtain ⟨n, hn⟩ := evaluateLeaf_eq b
    simp only [minimax, hw, Option.some_bind]
    split
    · exact ⟨_, rfl⟩
    · split
      · exact ⟨_, rfl⟩
      · split
        · exact ⟨_, hn⟩
        · split
          · exact maxLoop_frame _ (fun a b' c => ih false a b' c) _ _ _ _ _
          · exact minLoop_frame _ (fun a b' c => ih true a b' c) _ _ _ _ _

theorem checkBoardWinnerFrom_disc (b : Board) (l : List (Nat × Nat)) (w : Cell)
    (h : checkBoardWinnerFrom b l = some (some w)) : w = Cell.disc1 ∨ w = Cell.disc2 := by
  induction l with
  | nil => simp [checkBoardWinnerFrom] at h
  | cons p rest ih =>
    obtain ⟨row, col⟩ := p
    simp only [checkBoardWinnerFrom] at h
    cases hc : cellAt b row col with
    | none => simp [hc] at h
    | some v =>
      simp only [hc, Option.some_bind] at h
      split at h
      · rename_i hv
        cases hcw : checkWin b row col with
        | none => simp [hcw] at h
        | some won =>
          simp only [hcw, Option.some_bind] at h
          split at h
          · simp only [Option.some.injEq] at h
            subst h
            simpa using hv
          · exact ih h
      · exact ih h

/-- C6: on a board where `checkBoardWinner` reports a winner, `minimax` at depth
`d` returns exactly `100 + d` when the winner is player 2 and `-(100 + d)` when
it is player 1, whatever `isMaximizing`, `alpha` and `beta` are; so with more
remaining depth the value of the win is strictly larger in magnitude. -/
theorem minimax_terminal (b : Board) (winner : Cell)
    (hw : checkBoardWinner b = some (some winner)) :
    (winner = Cell.disc2 → ∀ (d : Nat) (isMaximizing : Bool) (alpha beta : Score),
      minimax d isMaximizing alpha beta b = some (Score.ofInt (100 + d), b)) ∧
    (winner = Cell.disc1 → ∀ (d : Nat) (isMaximizing : Bool) (alpha beta : Score),
      minimax d isMaximizing alpha beta b = some (Score.ofInt (-(100 + d)), b)) ∧
    (∀ (d d' : Nat) (m m' : Bool) (alpha beta alpha' beta' : Score), d < d' →
      ∃ n n' : Int, minimax d m alpha beta b = some (Score.ofInt n, b) ∧
        minimax d' m' alpha' beta' b = some (Score.ofInt n', b) ∧ |n| < |n'|) := by
  have h2 : winner = Cell.disc2 → ∀ (d : Nat) (isMaximizing : Bool) (alpha beta : Score),
      minimax d isMaximizing alpha beta b = some (Score.ofInt (100 + d), b) := by
    rintro rfl d isMaximizing alpha beta
    cases d <;> simp [minimax, hw]
  have h1 : winner = Cell.disc1 → ∀ (d : Nat) (isMaximizing : Bool) (alpha beta : Score),
      minimax d isMaximizing alpha beta b = some (Score.ofInt (-(100 + d)), b) := by
    rintro rfl d isMaximizing alpha beta
    have h : (-100 - (d : Int)) = -(100 + d) := by ring
    have key : minimax d isMaximizing alpha beta b
        = some (Score.ofInt (-100 - (d : Int)), b) := by
      cases d <;> simp [minimax, hw]
    rw [key, h]
  refine ⟨h2, h1, ?_⟩
  intro d d' m m' alpha beta alpha' beta' hlt
  rcases checkBoardWinnerFrom_disc b _ winner hw with hwin | hwin
  · refine ⟨_, _, h1 hwin d m alpha beta, h1 hwin d' m' alpha' beta', ?_⟩
    rw [abs_neg, abs_neg, abs_of_nonneg (by omega), abs_of_nonneg (by omega)]
    omega
  · refine ⟨_, _, h2 hwin d m alpha beta, h2 hwin d' m' alpha' beta', ?_⟩
    rw [abs_of_nonneg (by omega), abs_of_nonneg (by omega)]
    omega

theorem minimax_terminal_witness :
    checkBoardWinner fourInRowBoard = some (some Cell.disc1) ∧
    (∀ (d : Nat) (isMaximizing : Bool) (alpha beta : Score),
      minimax d isMaximizing alpha beta fourInRowBoard
        = some (Score.ofInt (-(100 + d)), fourInRowBoard)) :=
  ⟨by decide, (minimax_terminal fourInRowBoard Cell.disc1 (by decide)).2.1 rfl⟩

/-! ## Alpha-beta against plain minimax -/

theorem wc_break_max {a beta s t : Score} (hab : a < beta) (hbr : beta ≤ max a s)
    (h : WindowCorrect a beta s t) : beta ≤ t := by
  have hs : beta ≤ s := by
    rcases le_max_iff.1 hbr with h1 | h1
    · exact absurd h1 (not_le.2 hab)
    · exact h1
  by_contra hcon
  have htb : t < beta := not_le.1 hcon
  rcases le_or_lt t a with hta | hta
  · exact absurd (lt_of_le_of_lt (le_trans hs (h.1 hta)) hab) (lt_irrefl _)
  · have := h.2.2 hta htb
    rw [this] at hs
    exact hcon hs

theorem wc_cont_max {a beta s t : Score} (hlt : max a s < beta)
    (h : WindowCorrect a beta s t) : max a s = max a t := by
  have hs : s < beta := lt_of_le_of_lt (le_max_right _ _) hlt
  rcases le_or_lt t a with hta | hta
  · rw [max_eq_left (h.1 hta), max_eq_left hta]
  · have htb : t < beta := by
      by_contra hcon
      exact absurd (h.2.1 (not_lt.1 hcon)) (not_le.2 hs)
    rw [h.2.2 hta htb]

theorem wc_base_max {alpha0 beta ms m a : Score} (h1 : a = max alpha0 ms)
    (h2 : a = max alpha0 m) (hab : a < beta) : WindowCorrect alpha0 beta ms m := by
  have heq : max alpha0 ms = max alpha0 m := h1.symm.trans h2
  refine ⟨?_, ?_, ?_⟩
  · intro hm
    rw [max_eq_left hm] at heq
    exact (max_eq_left_iff.1 heq)
  · intro hm
    have : m ≤ a := h2 ▸ le_max_right _ _
    exact absurd (lt_of_le_of_lt (le_trans hm this) hab) (lt_irrefl _)
  · intro hm _
    rw [max_eq_right (le_of_lt hm)] at heq
    rcases le_or_lt ms alpha0 with h | h
    · rw [max_eq_left h] at heq
      exact absurd (heq ▸ hm) (lt_irrefl _)
    · rw [max_eq_right (le_of_lt h)] at heq
      exact heq

theorem wc_high {alpha0 beta s t : Score} (hab : alpha0 < beta) (hs : beta ≤ s)
    (ht : beta ≤ t) : WindowCorrect alpha0 beta s t := by
  refine ⟨?_, fun _ => hs, ?_⟩
  · intro h
    exact absurd (lt_of_le_of_lt (le_trans ht h) hab) (lt_irrefl _)
  · intro _ h
    exact absurd (lt_of_le_of_lt ht h) (lt_irrefl _)

theorem wc_break_min {alpha b s t : Score} (hab : alpha < b) (hbr : min b s ≤ alpha)
    (h : WindowCorrect alpha b s t) : t ≤ alpha := by
  have hs : s ≤ alpha := by
    rcases min_le_iff.1 hbr with h1 | h1
    · exact absurd h1 (not_le.2 hab)
    · exact h1
  by_contra hcon
  have hta : alpha < t := not_le.1 hcon
  rcases le_or_lt b t with hbt | hbt
  · exact absurd (lt_of_lt_of_le hab (le_trans (h.2.1 hbt) hs)) (lt_irrefl _)
  · have := h.2.2 hta hbt
    rw [this] at hs
    exact hcon hs

theorem wc_cont_min {alpha b s t : Score} (hlt : alpha < min b s)
    (h : WindowCorrect alpha b s t) : min b s = min b t := by
  have hs : alpha < s := lt_of_lt_of_le hlt (min_le_right _ _)
  rcases le_or_lt b t with hbt | hbt
  · rw [min_eq_left (h.2.1 hbt), min_eq_left hbt]
  · have hta : alpha < t := by
      by_contra hcon
      exact absurd (h.1 (not_lt.1 hcon)) (not_le.2 hs)
    rw [h.2.2 hta hbt]

theorem wc_base_min {alpha beta0 ms m b : Score} (h1 : b = min beta0 ms)
    (h2 : b = min beta0 m) (hab : alpha < b) : WindowCorrect alpha beta0 ms m := by
  have heq : min beta0 ms = min beta0 m := h1.symm.trans h2
  refine ⟨?_, ?_, ?_⟩
  · intro hm
    have : b ≤ m := h2 ▸ min_le_right _ _
    exact absurd (lt_of_lt_of_le hab (le_trans this hm)) (lt_irrefl _)
  · intro hm
    rw [min_eq_left hm] at heq
    exact (min_eq_left_iff.1 heq)
  · intro _ hm
    rw [min_eq_right (le_of_lt hm)] at heq
    rcases le_or_lt beta0 ms with h | h
    · rw [min_eq_left h] at heq
      exact absurd (heq ▸ hm) (lt_irrefl _)
    · rw [min_eq_right (le_of_lt h)] at heq
      exact heq

theorem wc_low {alpha beta0 s t : Score} (hab : alpha < beta0) (hs : s ≤ alpha)
    (ht : t ≤ alpha) : WindowCorrect alpha beta0 s t := by
  refine ⟨fun _ => hs, ?_, ?_⟩
  · intro h
    exact absurd (lt_of_lt_of_le hab (le_trans h ht)) (lt_irrefl _)
  · intro h _
    exact absurd (lt_of_lt_of_le h ht) (lt_irrefl _)

theorem foldl_max_ge (ts : List Score) : ∀ m : Score, m ≤ ts.foldl max m := by
  induction ts with
  | nil => intro m; exact le_refl _
  | cons t rest ih => intro m; exact le_trans (le_max_left _ _) (ih _)

theorem foldl_min_le (ts : List Score) : ∀ m : Score, ts.foldl min m ≤ m := by
  induction ts with
  | nil => intro m; exact le_refl _
  | cons t rest ih => intro m; exact le_trans (ih _) (min_le_left _ _)

/-- With a full window the alpha-beta value is the exact value. -/
theorem wc_full {s t : Score} (h : WindowCorrect ⊥ ⊤ s t) : s = t := by
  rcases eq_or_ne t ⊥ with rfl | hb
  · exact le_bot_iff.1 (h.1 (le_refl _))
  · rcases eq_or_ne t ⊤ with rfl | ht
    · exact top_le_iff.1 (h.2.1 (le_refl _))
    · exact h.2.2 (bot_lt_iff_ne_bot.2 hb) (lt_top_iff_ne_top.2 ht)

theorem plainChildren_total (b : Board) (disc : Cell) (plainRec : Board → Option Score)
    (htot : ∀ b1, ∃ t, plainRec b1 = some t) (l : List Nat) :
    ∃ ts, (l.filter fun col : Nat => isValidMove b col).mapM
      (fun col : Nat => (dropDisc b col disc).bind plainRec) = some ts := by
  induction l with
  | nil => exact ⟨[], rfl⟩
  | cons col rest ih =>
    obtain ⟨ts, hts⟩ := ih
    by_cases hv : isValidMove b col = true
    · obtain ⟨b1, h1, _⟩ := place_undo b col disc hv
      obtain ⟨t, ht⟩ := htot b1
      refine ⟨t :: ts, ?_⟩
      simp only [dropDisc] at hts
      simp only [List.filter_cons, hv, if_true, List.mapM_cons, dropDisc, h1, Option.some_bind,
        ht, hts, Option.bind_eq_bind, Option.pure_def]
    · refine ⟨ts, ?_⟩
      simp only [List.filter_cons, hv, Bool.false_eq_true, if_false, hts]

theorem maxLoop_correct (recurse : Score → Score → Board → Option (Score × Board))
    (plainRec : Board → Option Score) (alpha0 beta : Score)
    (hrec : ∀ a b1, a < beta → ∃ s t, recurse a beta b1 = some (s, b1) ∧
      plainRec b1 = some t ∧ WindowCorrect a beta s t)
    (l : List Nat) :
    ∀ (ms a m : Score) (b : Board), a < beta → a = max alpha0 ms → a = max alpha0 m →
      ∃ s ts, maxLoop recurse beta l ms a b = some (s, b) ∧
        (l.filter fun col : Nat => isValidMove b col).mapM
          (fun col : Nat => (dropDisc b col Cell.disc2).bind plainRec) = some ts ∧
        WindowCorrect alpha0 beta s (ts.foldl max m) := by
  induction l with
  | nil =>
    intro ms a m b hab h1 h2
    exact ⟨ms, [], rfl, rfl, wc_base_max h1 h2 hab⟩
  | cons col rest ih =>
    intro ms a m b hab h1 h2
    have htot : ∀ b1, ∃ t, plainRec b1 = some t := fun b1 => by
      obtain ⟨_, t, _, ht, _⟩ := hrec a b1 hab
      exact ⟨t, ht⟩
    unfold maxLoop
    by_cases hv : isValidMove b col = true
    · obtain ⟨b1, hb1, hb2⟩ := place_undo b col Cell.disc2 hv
      obtain ⟨s, t, hs, ht, hwc⟩ := hrec a b1 hab
      simp only [hv, if_true, hb1, Option.some_bind, hs, hb2, List.filter_cons, List.mapM_cons,
        dropDisc, ht, Option.bind_eq_bind, Option.pure_def]
      have ha0 : alpha0 ≤ a := h1 ▸ le_max_left _ _
      by_cases hbr : beta ≤ max a s
      · obtain ⟨ts, hts⟩ := plainChildren_total b Cell.disc2 plainRec htot rest
        refine ⟨max s ms, t :: ts, by simp only [hbr, if_true], ?_, ?_⟩
        · simp only [dropDisc] at hts
          simp only [hts, Option.some_bind]
        · have hbt : beta ≤ t := wc_break_max hab hbr hwc
          have hbs : beta ≤ s := by
            rcases le_max_iff.1 hbr with h | h
            · exact absurd h (not_le.2 hab)
            · exact h
          refine wc_high (lt_of_le_of_lt ha0 hab) (le_trans hbs (le_max_left _ _)) ?_
          simp only [List.foldl_cons]
          exact le_trans (le_trans hbt (le_max_right _ _)) (foldl_max_ge ts _)
      · have hlt : max a s < beta := not_le.1 hbr
        have hcont := wc_cont_max hlt hwc
        obtain ⟨s', ts, hs', hts, hwc'⟩ := ih (max s ms) (max a s) (max m t) b hlt
          (by rw [h1, max_assoc, max_comm ms s])
          (by rw [hcont, h2, max_assoc])
        refine ⟨s', t :: ts, by simp only [hbr, if_false]; exact hs', ?_, ?_⟩
        · simp only [dropDisc] at hts
          simp only [hts, Option.some_bind]
        · simpa only [List.foldl_cons] using hwc'
    · obtain ⟨s', ts, hs', hts, hwc'⟩ := ih ms a m b hab h1 h2
      refine ⟨s', ts, ?_, ?_, hwc'⟩
      · simp only [hv, Bool.false_eq_true, if_false]
        exact hs'
      · simp only [List.filter_cons, hv, Bool.false_eq_true, if_false]
        exact hts

theorem minLoop_correct (recurse : Score → Score → Board → Option (Score × Board))
    (plainRec : Board → Option Score) (alpha beta0 : Score)
    (hrec : ∀ bt b1, alpha < bt → ∃ s t, recurse alpha bt b1 = some (s, b1) ∧
      plainRec b1 = some t ∧ WindowCorrect alpha bt s t)
    (l : List Nat) :
    ∀ (ms bt m : Score) (b : Board), alpha < bt → bt = min beta0 ms → bt = min beta0 m →
      ∃ s ts, minLoop recurse alpha l ms bt b = some (s, b) ∧
        (l.filter fun col : Nat => isValidMove b col).mapM
          (fun col : Nat => (dropDisc b col Cell.disc1).bind plainRec) = some ts ∧
        WindowCorrect alpha beta0 s (ts.foldl min m) := by
  induction l with
  | nil =>
    intro ms bt m b hab h1 h2
    exact ⟨ms, [], rfl, rfl, wc_base_min h1 h2 hab⟩
  | cons col rest ih =>
    intro ms bt m b hab h1 h2
    have htot : ∀ b1, ∃ t, plainRec b1 = some t := fun b1 => by
      obtain ⟨_, t, _, ht, _⟩ := hrec bt b1 hab
      exact ⟨t, ht⟩
    unfold minLoop
    by_cases hv : isValidMove b col = true
    · obtain ⟨b1, hb1, hb2⟩ := place_undo b col Cell.disc1 hv
      obtain ⟨s, t, hs, ht, hwc⟩ := hrec bt b1 hab
      simp only [hv, if_true, hb1, Option.some_bind, hs, hb2, List.filter_cons, List.mapM_cons,
        dropDisc, ht, Option.bind_eq_bind, Option.pure_def]
      have hb0 : bt ≤ beta0 := h1 ▸ min_le_left _ _
      by_cases hbr : min bt s ≤ alpha
      · obtain ⟨ts, hts⟩ := plainChildren_total b Cell.disc1 plainRec htot rest
        refine ⟨min s ms, t :: ts, by simp only [hbr, if_true], ?_, ?_⟩
        · simp only [dropDisc] at hts
          simp only [hts, Option.some_bind]
        · have hbt : t ≤ alpha := wc_break_min hab hbr hwc
          have hbs : s ≤ alpha := by
            rcases min_le_iff.1 hbr with h | h
            · exact absurd h (not_le.2 hab)
            · exact h
          refine wc_low (lt_of_lt_of_le hab hb0) (le_trans (min_le_left _ _) hbs) ?_
          simp only [List.foldl_cons]
          exact le_trans (foldl_min_le ts _) (le_trans (min_le_right _ _) hbt)
      · have hlt : alpha < min bt s := not_le.1 hbr
        have hcont := wc_cont_min hlt hwc
        obtain ⟨s', ts, hs', hts, hwc'⟩ := ih (min s ms) (min bt s) (min m t) b hlt
          (by rw [h1, min_assoc, min_comm ms s])
          (by rw [hcont, h2, min_assoc])
        refine ⟨s', t :: ts, by simp only [hbr, if_false]; exact hs', ?_, ?_⟩
        · simp only [dropDisc] at hts
          simp only [hts, Option.some_bind]
        · simpa only [List.foldl_cons] using hwc'
    · obtain ⟨s', ts, hs', hts, hwc'⟩ := ih ms bt m b hab h1 h2
      refine ⟨s', ts, ?_, ?_, hwc'⟩
      · simp only [hv, Bool.false_eq_true, if_false]
        exact hs'
      · simp only [List.filter_cons, hv, Bool.false_eq_true, if_false]
        exact hts

theorem wc_refl (alpha beta s : Score) : WindowCorrect alpha beta s s :=
  ⟨fun h => h, fun h => h, fun _ _ => rfl⟩

/-- Inside any window `alpha < beta` the value of `minimax` is window-correct
for the plain minimax value, and the board is restored. -/
theorem minimax_windowCorrect (depth : Nat) :
    ∀ (isMaximizing : Bool) (alpha beta : Score) (b : Board), alpha < beta →
      ∃ s t, minimax depth isMaximizing alpha beta b = some (s, b) ∧
        plainMinimax depth isMaximizing b = some t ∧ WindowCorrect alpha beta s t := by
  induction depth with
  | zero =>
    intro isMaximizing alpha beta b _
    obtain ⟨w, hw⟩ := checkBoardWinner_total b
    simp only [minimax, plainMinimax, hw, Option.some_bind, evaluateLeaf, evaluateBoard_eq,
      Option.map_some']
    split
    · exact ⟨_, _, rfl, rfl, wc_refl _ _ _⟩
    · split
      · exact ⟨_, _, rfl, rfl, wc_refl _ _ _⟩
      · exact ⟨_, _, rfl, rfl, wc_refl _ _ _⟩
  | succ d ih =>
    intro isMaximizing alpha beta b hab
    obtain ⟨w, hw⟩ := checkBoardWinner_total b
    simp only [minimax, plainMinimax, hw, Option.some_bind, evaluateLeaf, evaluateBoard_eq,
      Option.map_some']
    split
    · exact ⟨_, _, rfl, rfl, wc_refl _ _ _⟩
    · split
      · exact ⟨_, _, rfl, rfl, wc_refl _ _ _⟩
      · split
        · exact ⟨_, _, rfl, rfl, wc_refl _ _ _⟩
        · split
          · obtain ⟨s, ts, hs, hts, hwc⟩ := maxLoop_correct (minimax d false)
              (plainMinimax d false) alpha beta (fun a b1 h => ih false a beta b1 h)
              (List.range cols) ⊥ alpha ⊥ b hab (max_bot_right _).symm (max_bot_right _).symm
            refine ⟨s, ts.foldl max ⊥, hs, ?_, hwc⟩
            unfold legalColumns
            rw [hts]
            rfl
          · obtain ⟨s, ts, hs, hts, hwc⟩ := minLoop_correct (minimax d true)
              (plainMinimax d true) alpha beta (fun bt b1 h => ih true alpha bt b1 h)
              (List.range cols) ⊤ beta ⊤ b hab (min_top_right _).symm (min_top_right _).symm
            refine ⟨s, ts.foldl min ⊤, hs, ?_, hwc⟩
            unfold legalColumns
            rw [hts]
            rfl

/-- With the full window, `minimax` returns the plain minimax value. -/
theorem minimax_eq_plain (depth : Nat) (isMaximizing : Bool) (b : Board) :
    ∃ s, minimax depth isMaximizing ⊥ ⊤ b = some (s, b) ∧
      plainMinimax depth isMaximizing b = some s := by
  obtain ⟨s, t, hs, ht, hwc⟩ := minimax_windowCorrect depth isMaximizing ⊥ ⊤ b
    (by decide)
  have := wc_full hwc
  subst this
  exact ⟨s, hs, ht⟩

/-! ## Scores are finite -/

theorem foldl_max_mem (ts : List Score) :
    ∀ m : Score, ts.foldl max m = m ∨ ts.foldl max m ∈ ts := by
  induction ts with
  | nil => intro m; exact Or.inl rfl
  | cons t rest ih =>
    intro m
    simp only [List.foldl_cons, List.mem_cons]
    rcases ih (max m t) with h | h
    · rw [h]
      rcases le_total m t with hmt | hmt
      · rw [max_eq_right hmt]; exact Or.inr (Or.inl rfl)
      · rw [max_eq_left hmt]; exact Or.inl rfl
    · exact Or.inr (Or.inr h)

theorem foldl_min_mem (ts : List Score) :
    ∀ m : Score, ts.foldl min m = m ∨ ts.foldl min m ∈ ts := by
  induction ts with
  | nil => intro m; exact Or.inl rfl
  | cons t rest ih =>
    intro m
    simp only [List.foldl_cons, List.mem_cons]
    rcases ih (min m t) with h | h
    · rw [h]
      rcases le_total m t with hmt | hmt
      · rw [min_eq_left hmt]; exact Or.inl rfl
      · rw [min_eq_right hmt]; exact Or.inr (Or.inl rfl)
    · exact Or.inr (Or.inr h)

theorem ofInt_ne_bot (n : Int) : Score.ofInt n ≠ ⊥ := by
  unfold Score.ofInt
  exact WithBot.coe_ne_bot

theorem ofInt_ne_top (n : Int) : Score.ofInt n ≠ ⊤ := by
  unfold Score.ofInt
  intro h
  have h' : ((n : WithTop Int) : WithBot (WithTop Int)) = ((⊤ : WithTop Int) : WithBot (WithTop Int)) := h
  exact WithTop.coe_ne_top (WithBot.coe_injective h')

theorem foldl_max_finite (ts : List Score) (hne : ts ≠ [])
    (hfin : ∀ t ∈ ts, ∃ n, t = Score.ofInt n) : ∃ n, ts.foldl max ⊥ = Score.ofInt n := by
  rcases foldl_max_mem ts ⊥ with h | h
  · obtain ⟨t, rest, rfl⟩ := List.exists_cons_of_ne_nil hne
    obtain ⟨n, hn⟩ := hfin t (List.mem_cons_self _ _)
    have hge : max ⊥ t ≤ (t :: rest).foldl max ⊥ := foldl_max_ge rest _
    rw [h, max_eq_right bot_le, hn] at hge
    exact absurd (le_bot_iff.1 hge) (ofInt_ne_bot n)
  · exact hfin _ h

theorem foldl_min_finite (ts : List Score) (hne : ts ≠ [])
    (hfin : ∀ t ∈ ts, ∃ n, t = Score.ofInt n) : ∃ n, ts.foldl min ⊤ = Score.ofInt n := by
  rcases foldl_min_mem ts ⊤ with h | h
  · obtain ⟨t, rest, rfl⟩ := List.exists_cons_of_ne_nil hne
    obtain ⟨n, hn⟩ := hfin t (List.mem_cons_self _ _)
    have hle : (t :: rest).foldl min ⊤ ≤ min ⊤ t := foldl_min_le rest _
    rw [h, min_eq_right le_top, hn] at hle
    exact absurd (top_le_iff.1 hle) (ofInt_ne_top n)
  · exact hfin _ h

theorem plainChildren_finite (b : Board) (disc : Cell) (plainRec : Board → Option Score)
    (hfin : ∀ b1, ∃ n, plainRec b1 = some (Score.ofInt n)) (l : List Nat)
    (hl : ∀ col ∈ l, isValidMove b (col : Nat) = true) :
    ∃ ts, l.mapM (fun col : Nat => (dropDisc b col disc).bind plainRec) = some ts ∧
      ts.length = l.length ∧ ∀ t ∈ ts, ∃ n, t = Score.ofInt n := by
  induction l with
  | nil => exact ⟨[], rfl, rfl, by simp⟩
  | cons col rest ih =>
    obtain ⟨ts, hts, hlen, hall⟩ := ih (fun c hc => hl c (List.mem_cons_of_mem _ hc))
    obtain ⟨b1, h1, _⟩ := place_undo b col disc
      (hl col (List.mem_cons_self _ _))
    obtain ⟨n, hn⟩ := hfin b1
    refine ⟨Score.ofInt n :: ts, ?_, by simp [hlen], ?_⟩
    · simp only [dropDisc] at hts
      simp only [List.mapM_cons, dropDisc, h1, Option.some_bind, hn, hts, Option.bind_eq_bind,
        Option.pure_def]
    · intro t ht
      rcases List.mem_cons.1 ht with rfl | ht
      · exact ⟨n, rfl⟩
      · exact hall t ht

theorem legalColumns_ne_nil (b : Board) (h : isBoardFull b = false) : legalColumns b ≠ [] := by
  unfold isBoardFull at h
  have h' : ∃ c : Fin cols, b 0 c = Cell.empty := by
    by_contra hcon
    have hcon' : ∀ c : Fin cols, b 0 c ≠ Cell.empty := fun c hc => hcon ⟨c, hc⟩
    have : ((List.finRange cols).all fun c => b 0 c != Cell.empty) = true := by
      rw [List.all_eq_true]
      intro c _
      simpa using hcon' c
    rw [this] at h
    exact Bool.noConfusion h
  obtain ⟨c, hc⟩ := h'
  have hv : isValidMove b (c.val : Nat) = true := by
    rw [isValidMove_iff]
    have := cellAt_fin b 0 c
    rw [hc] at this
    exact this
  intro hnil
  have hmem : c.val ∈ legalColumns b := by
    unfold legalColumns
    exact List.mem_filter.2 ⟨List.mem_range.2 c.isLt, hv⟩
  rw [hnil] at hmem
  exact List.not_mem_nil _ hmem

/-- Plain minimax always finishes with a finite score. -/
theorem plainMinimax_finite (depth : Nat) :
    ∀ (isMaximizing : Bool) (b : Board),
      ∃ n : Int, plainMinimax depth isMaximizing b = some (Score.ofInt n) := by
  induction depth with
  | zero =>
    intro isMaximizing b
    obtain ⟨w, hw⟩ := checkBoardWinner_total b
    simp only [plainMinimax, hw, Option.some_bind, evaluateBoard_eq, Option.map_some']
    split
    · exact ⟨_, rfl⟩
    · split
      · exact ⟨_, rfl⟩
      · exact ⟨_, rfl⟩
  | succ d ih =>
    intro isMaximizing b
    obtain ⟨w, hw⟩ := checkBoardWinner_total b
    simp only [plainMinimax, hw, Option.some_bind, evaluateBoard_eq, Option.map_some']
    have hlegal : ∀ col ∈ legalColumns b, isValidMove b (col : Nat) = true := by
      intro col hcol
      exact (List.mem_filter.1 hcol).2
    split
    · exact ⟨_, rfl⟩
    · split
      · exact ⟨_, rfl⟩
      · split
        · exact ⟨_, rfl⟩
        · rename_i hfull
          have hne := legalColumns_ne_nil b (by simpa using hfull)
          split
          · obtain ⟨ts, hts, hlen, hall⟩ := plainChildren_finite b Cell.disc2
              (plainMinimax d false) (ih false) (legalColumns b) hlegal
            rw [hts]
            have hts_ne : ts ≠ [] := by
              intro h
              rw [h] at hlen
              exact hne (List.length_eq_zero.1 hlen.symm)
            obtain ⟨n, hn⟩ := foldl_max_finite ts hts_ne hall
            exact ⟨n, by rw [Option.map_some', hn]⟩
          · obtain ⟨ts, hts, hlen, hall⟩ := plainChildren_finite b Cell.disc1
              (plainMinimax d true) (ih true) (legalColumns b) hlegal
            rw [hts]
            have hts_ne : ts ≠ [] := by
              intro h
              rw [h] at hlen
              exact hne (List.length_eq_zero.1 hlen.symm)
            obtain ⟨n, hn⟩ := foldl_min_finite ts hts_ne hall
            exact ⟨n, by rw [Option.map_some', hn]⟩

/-- The score of a legal column exists and is finite; it is the plain minimax
value of the position after the drop. -/
theorem columnScore_finite (depth : Nat) (b : Board) (col : Nat)
    (hv : isValidMove b (col : Nat) = true) :
    ∃ (b1 : Board) (n : Int), dropDisc b col Cell.disc2 = some b1 ∧
      setCell b1 (getLowestEmptyRow b col) col Cell.empty = some b ∧
      minimax depth false ⊥ ⊤ b1 = some (Score.ofInt n, b1) ∧
      plainMinimax depth false b1 = some (Score.ofInt n) ∧
      columnScore depth b col = some (Score.ofInt n) := by
  obtain ⟨b1, h1, h2⟩ := place_undo b col Cell.disc2 hv
  obtain ⟨s, hs, ht⟩ := minimax_eq_plain depth false b1
  obtain ⟨n, hn⟩ := plainMinimax_finite depth false b1
  have hsn : s = Score.ofInt n := by
    rw [ht] at hn
    exact Option.some.inj hn
  subst hsn
  refine ⟨b1, n, h1, h2, hs, ht, ?_⟩
  unfold columnScore dropDisc
  rw [h1]
  simp only [Option.some_bind, hs, Option.map_some']

/-! ## The column choice of `getBestMove` -/

theorem bestMoveLoop_eq_plain (depth : Nat) (b : Board) (l : List Nat) :
    ∀ (bestScore : Score) (bestMove : Int),
      ∃ m, bestMoveLoop depth l bestScore bestMove b = some (m, b) ∧
        plainBestMoveLoop depth b l bestScore bestMove = some m := by
  induction l with
  | nil => intro bestScore bestMove; exact ⟨bestMove, rfl, rfl⟩
  | cons col rest ih =>
    intro bestScore bestMove
    unfold bestMoveLoop plainBestMoveLoop
    by_cases hv : isValidMove b (col : Nat) = true
    · obtain ⟨b1, n, h1, h2, hs, ht, _⟩ := columnScore_finite depth b col hv
      simp only [dropDisc] at h1
      simp only [hv, if_true, dropDisc, h1, Option.some_bind, hs, ht, h2]
      split
      · exact ih _ _
      · exact ih _ _
    · simp only [hv, Bool.false_eq_true, if_false]
      exact ih _ _

theorem bestMoveLoop_spec (depth : Nat) (b : Board) (l : List Nat)
    (hsorted : l.Pairwise (· < ·)) :
    ∀ (bestScore : Score) (bestMove : Int),
      ∃ m, bestMoveLoop depth l bestScore bestMove b = some (m, b) ∧
        ((m = bestMove ∧ ∀ c ∈ l, isValidMove b (c : Nat) = true →
            ∃ sc, columnScore depth b c = some sc ∧ sc ≤ bestScore) ∨
         (∃ c ∈ l, m = (c : Nat) ∧ isValidMove b (c : Nat) = true ∧
            ∃ sc, columnScore depth b c = some sc ∧ bestScore < sc ∧
              ∀ c' ∈ l, isValidMove b (c' : Nat) = true →
                ∃ sc', columnScore depth b c' = some sc' ∧ sc' ≤ sc ∧ (c' < c → sc' < sc))) := by
  induction l with
  | nil =>
    intro bestScore bestMove
    exact ⟨bestMove, rfl, Or.inl ⟨rfl, by simp⟩⟩
  | cons col rest ih =>
    intro bestScore bestMove
    have hlt : ∀ c ∈ rest, col < c := (List.pairwise_cons.1 hsorted).1
    have ih' := ih (List.pairwise_cons.1 hsorted).2
    unfold bestMoveLoop
    by_cases hv : isValidMove b (col : Nat) = true
    · obtain ⟨b1, n, h1, h2, hs, _, hcs⟩ := columnScore_finite depth b col hv
      simp only [dropDisc] at h1
      simp only [hv, if_true, h1, Option.some_bind, hs, h2]
      by_cases hgt : Score.ofInt n > bestScore
      · simp only [hgt, if_true]
        obtain ⟨m, hm, hcase⟩ := ih' (Score.ofInt n) col
        refine ⟨m, hm, Or.inr ?_⟩
        rcases hcase with ⟨hmc, hall⟩ | ⟨c, hc, hmc, hcv, sc, hsc, hlt', hall⟩
        · refine ⟨col, List.mem_cons_self _ _, hmc, hv, _, hcs, hgt, ?_⟩
          intro c' hc' hv'
          rcases List.mem_cons.1 hc' with rfl | hc'
          · exact ⟨_, hcs, le_refl _, fun h => absurd h (lt_irrefl _)⟩
          · obtain ⟨sc', hsc', hle⟩ := hall c' hc' hv'
            exact ⟨sc', hsc', hle, fun h => absurd (lt_trans h (hlt c' hc')) (lt_irrefl _)⟩
        · refine ⟨c, List.mem_cons_of_mem _ hc, hmc, hcv, sc, hsc, lt_trans hgt hlt', ?_⟩
          intro c' hc' hv'
          rcases List.mem_cons.1 hc' with rfl | hc'
          · exact ⟨_, hcs, le_of_lt hlt', fun _ => hlt'⟩
          · exact hall c' hc' hv'
      · simp only [hgt, if_false]
        have hle : Score.ofInt n ≤ bestScore := not_lt.1 hgt
        obtain ⟨m, hm, hcase⟩ := ih' bestScore bestMove
        refine ⟨m, hm, ?_⟩
        rcases hcase with ⟨hmc, hall⟩ | ⟨c, hc, hmc, hcv, sc, hsc, hlt', hall⟩
        · refine Or.inl ⟨hmc, ?_⟩
          intro c' hc' hv'
          rcases List.mem_cons.1 hc' with rfl | hc'
          · exact ⟨_, hcs, hle⟩
          · exact hall c' hc' hv'
        · refine Or.inr ⟨c, List.mem_cons_of_mem _ hc, hmc, hcv, sc, hsc, hlt', ?_⟩
          intro c' hc' hv'
          rcases List.mem_cons.1 hc' with rfl | hc'
          · exact ⟨_, hcs, le_of_lt (lt_of_le_of_lt hle hlt'),
              fun _ => lt_of_le_of_lt hle hlt'⟩
          · exact hall c' hc' hv'
    · simp only [hv, Bool.false_eq_true, if_false]
      obtain ⟨m, hm, hcase⟩ := ih' bestScore bestMove
      refine ⟨m, hm, ?_⟩
      rcases hcase with ⟨hmc, hall⟩ | ⟨c, hc, hmc, hcv, sc, hsc, hlt', hall⟩
      · refine Or.inl ⟨hmc, ?_⟩
        intro c' hc' hv'
        rcases List.mem_cons.1 hc' with rfl | hc'
        · exact absurd hv' hv
        · exact hall c' hc' hv'
      · refine Or.inr ⟨c, List.mem_cons_of_mem _ hc, hmc, hcv, sc, hsc, hlt', ?_⟩
        intro c' hc' hv'
        rcases List.mem_cons.1 hc' with rfl | hc'
        · exact absurd hv' hv
        · exact hall c' hc' hv'

theorem getBestMove_search (settings : Settings) (u v : ℚ) (b : Board)
    (hsearch : ¬ u < settings.randomness) :
    getBestMove settings u v b
      = (bestMoveLoop settings.depth (List.range cols) ⊥ (-1) b).map fun r => (some r.1, r.2) := by
  unfold getBestMove
  rw [if_neg hsearch]

/-- C4: for every board and every search depth (so for each depth up to 4),
`minimax(depth, isMax, -Infinity, +Infinity)` returns the value of plain
minimax without pruning, and the search branch of `getBestMove` returns the
column that the same loop chooses when plain minimax scores the columns. -/
theorem alphabeta_refines_plain (depth : Nat) (b : Board) :
    (∀ isMaximizing : Bool, ∃ s, minimax depth isMaximizing ⊥ ⊤ b = some (s, b) ∧
      plainMinimax depth isMaximizing b = some s) ∧
    (∀ randomness u v : ℚ, ¬ u < randomness →
      ∃ m, getBestMove ⟨depth, randomness⟩ u v b = some (some m, b) ∧
        plainBestMove depth b = some m) := by
  refine ⟨fun isMaximizing => minimax_eq_plain depth isMaximizing b, ?_⟩
  intro randomness u v hsearch
  obtain ⟨m, hm, hp⟩ := bestMoveLoop_eq_plain depth b (List.range cols) ⊥ (-1)
  refine ⟨m, ?_, hp⟩
  rw [getBestMove_search ⟨depth, randomness⟩ u v b hsearch]
  simp only [hm, Option.map_some']

theorem alphabeta_refines_plain_witness :
    ¬ ((1 : ℚ) / 2 < 1 / 10) ∧
    ∃ m, getBestMove ⟨4, 1 / 10⟩ (1 / 2) 0 fourInRowBoard = some (some m, fourInRowBoard) ∧
      plainBestMove 4 fourInRowBoard = some m :=
  ⟨by norm_num, (alphabeta_refines_plain 4 fourInRowBoard).2 (1 / 10) (1 / 2) 0 (by norm_num)⟩

/-- C5: in the search branch `getBestMove` leaves the board as it was and
returns the lowest-index legal column whose score is maximal over all legal
columns, the score of a column being the value of
`minimax(depth, false, -Infinity, +Infinity)` after a player-2 disc is dropped
into it; it returns -1 exactly when no column is legal. -/
theorem getBestMove_first_max (settings : Settings) (u v : ℚ) (b : Board)
    (hsearch : ¬ u < settings.randomness) :
    ∃ m : Int, getBestMove settings u v b = some (some m, b) ∧
      (m = -1 ↔ ∀ col : Int, isValidMove b col = false) ∧
      (m ≠ -1 → ∃ c : Nat, m = (c : Nat) ∧ isValidMove b (c : Nat) = true ∧
        ∃ sc, columnScore settings.depth b c = some sc ∧
          ∀ c' : Nat, isValidMove b (c' : Nat) = true →
            ∃ sc', columnScore settings.depth b c' = some sc' ∧ sc' ≤ sc ∧
              (c' < c → sc' < sc)) := by
  have hrange : ∀ c : Nat, isValidMove b (c : Nat) = true → c ∈ List.range cols := by
    intro c hc
    have := (cellAt_isSome_iff b 0 c).1 ⟨_, (isValidMove_iff b c).1 hc⟩
    exact List.mem_range.2 (by omega)
  obtain ⟨m, hm, hcase⟩ := bestMoveLoop_spec settings.depth b (List.range cols)
    (by decide) ⊥ (-1)
  refine ⟨m, ?_, ?_, ?_⟩
  · rw [getBestMove_search settings u v b hsearch]
    simp only [hm, Option.map_some']
  · rcases hcase with ⟨hmc, hall⟩ | ⟨c, _, hmc, hcv, _⟩
    · refine ⟨fun _ => ?_, fun _ => hmc⟩
      intro col
      by_contra hcon
      have hv : isValidMove b col = true := by simpa using hcon
      have hcol := (cellAt_isSome_iff b 0 col).1 ⟨_, (isValidMove_iff b col).1 hv⟩
      obtain ⟨k, rfl⟩ : ∃ k : Nat, col = (k : Nat) := ⟨col.toNat, by omega⟩
      obtain ⟨sc, hsc, hle⟩ := hall k (hrange k hv) hv
      obtain ⟨_, n, _, _, _, _, hcs⟩ := columnScore_finite settings.depth b k hv
      rw [hcs] at hsc
      have : Score.ofInt n = sc := Option.some.inj hsc
      rw [← this] at hle
      exact ofInt_ne_bot n (le_bot_iff.1 hle)
    · constructor
      · intro h
        rw [hmc] at h
        omega
      · intro h
        rw [h c] at hcv
        exact Bool.noConfusion hcv
  · intro hne
    rcases hcase with ⟨hmc, _⟩ | ⟨c, _, hmc, hcv, sc, hsc, _, hall⟩
    · exact absurd hmc hne
    · exact ⟨c, hmc, hcv, sc, hsc, fun c' hv' => hall c' (hrange c' hv') hv'⟩

theorem getBestMove_first_max_witness :
    ¬ ((1 : ℚ) / 2 < (difficulties Difficulty.hard).randomness) ∧
    ∃ m : Int, getBestMove (difficulties Difficulty.hard) (1 / 2) 0 fourInRowBoard
        = some (some m, fourInRowBoard) ∧
      (m = -1 ↔ ∀ col : Int, isValidMove fourInRowBoard col = false) ∧
      (m ≠ -1 → ∃ c : Nat, m = (c : Nat) ∧ isValidMove fourInRowBoard (c : Nat) = true ∧
        ∃ sc, columnScore (difficulties Difficulty.hard).depth fourInRowBoard c = some sc ∧
          ∀ c' : Nat, isValidMove fourInRowBoard (c' : Nat) = true →
            ∃ sc', columnScore (difficulties Difficulty.hard).depth fourInRowBoard c'
                = some sc' ∧ sc' ≤ sc ∧ (c' < c → sc' < sc)) :=
  ⟨by norm_num [difficulties],
    getBestMove_first_max (difficulties Difficulty.hard) (1 / 2) 0 fourInRowBoard
      (by norm_num [difficulties])⟩

/-! ## Moves on the game state -/

theorem isValidMove_false_of_full (b : Board) (col : Int)
    (h : col < 0 ∨ col ≥ cols ∨ ∀ row : Fin rows, cellAt b row col ≠ some Cell.empty) :
    isValidMove b col = false := by
  rw [Bool.eq_false_iff]
  intro hv
  have h0 := (isValidMove_iff b col).1 hv
  have hr := (cellAt_isSome_iff b 0 col).1 ⟨_, h0⟩
  rcases h with h | h | h
  · omega
  · omega
  · exact h 0 h0

/-- C17: for every game state, `makeMove` with a column that is out of range
(`col < 0` or `col >= 7`) or has no empty cell returns before anything is
written: the state after the call (board, move history, inventory, active
power-up, current player) is the state before it, and no callback is
scheduled. -/
theorem makeMove_rejects (g : Game) (col : Int) (isAIMove : Bool)
    (h : col < 0 ∨ col ≥ cols ∨ ∀ row : Fin rows, cellAt g.board row col ≠ some Cell.empty) :
    makeMove g col isAIMove = some g ∧ makeMoveOutcome g col isAIMove = some (none, g) := by
  have hv := isValidMove_false_of_full g.board col h
  have hrej : moveRejected g col isAIMove = true := by
    unfold moveRejected
    simp [hv]
  unfold makeMove makeMoveOutcome
  simp [hrej]

theorem makeMove_rejects_witness :
    ((7 : Int) < 0 ∨ (7 : Int) ≥ cols ∨
      ∀ row : Fin rows, cellAt threeInRowGame.board row 7 ≠ some Cell.empty) ∧
    makeMove threeInRowGame 7 false = some threeInRowGame ∧
    makeMoveOutcome threeInRowGame 7 false = some (none, threeInRowGame) :=
  ⟨Or.inr (Or.inl (by decide)),
    makeMove_rejects threeInRowGame 7 false (Or.inr (Or.inl (by decide)))⟩

theorem getLowestEmptyRowFrom_first (b : Board) (col : Int) (l : List Nat)
    (hl : l.Pairwise (· > ·)) (r : Nat) (hr : getLowestEmptyRowFrom b col l = (r : Int)) :
    ∀ r' ∈ l, r' > r → cellAt b (r' : Int) col ≠ some Cell.empty := by
  induction l with
  | nil => intro r' hr'; exact absurd hr' (List.not_mem_nil _)
  | cons x rest ih =>
    unfold getLowestEmptyRowFrom at hr
    by_cases hx : cellAt b (x : Int) col = some Cell.empty
    · simp only [hx, beq_self_eq_true, if_true] at hr
      have hxr : x = r := by exact_mod_cast hr
      subst hxr
      intro r' hr' hgt
      rcases List.mem_cons.1 hr' with rfl | hmem
      · exact absurd hgt (lt_irrefl _)
      · exact absurd ((List.pairwise_cons.1 hl).1 r' hmem) (by omega)
    · have hx' : (cellAt b (x : Int) col == some Cell.empty) = false := by simpa using hx
      simp only [hx', Bool.false_eq_true, if_false] at hr
      intro r' hr' hgt
      rcases List.mem_cons.1 hr' with rfl | hmem
      · exact hx
      · exact ih (List.pairwise_cons.1 hl).2 hr r' hmem hgt

/-- For a legal column the landing cell is a cell of the board, it is empty,
and every cell below it in the column is occupied. -/
theorem landing_cell (b : Board) (col : Int) (h : isValidMove b col = true) :
    ∃ (i : Fin rows) (j : Fin cols), (i.val : Int) = getLowestEmptyRow b col ∧
      (j.val : Int) = col ∧ b i j = Cell.empty ∧ ∀ i' : Fin rows, i < i' → b i' j ≠ Cell.empty := by
  have hempty := getLowestEmptyRow_empty b col h
  obtain ⟨i, j, hi, hj, hij⟩ := (cellAt_eq_some_iff b _ col _).1 hempty
  refine ⟨i, j, hi, hj, hij, ?_⟩
  intro i' hlt hcon
  have hfirst := getLowestEmptyRowFrom_first b col (List.range rows).reverse (by decide) i.val
    (by rw [hi]; rfl) i'.val (by
      have := i'.isLt
      simp only [List.mem_reverse, List.mem_range]
      exact this) hlt
  apply hfirst
  rw [← hj, cellAt_fin, hcon]

theorem gravity_after_drop (b : Board) (i : Fin rows) (j : Fin cols) (v : Cell)
    (hv : v ≠ Cell.empty) (hg : gravityInvariant b)
    (hbelow : ∀ i' : Fin rows, i < i' → b i' j ≠ Cell.empty) :
    gravityInvariant (fun i' j' => if i' = i ∧ j' = j then v else b i' j') := by
  intro c r r' hlt hne
  by_cases h1 : r' = i ∧ c = j
  · simp only [h1, and_self, if_true]
    exact hv
  · simp only [h1, if_false]
    by_cases h2 : r = i ∧ c = j
    · obtain ⟨rfl, rfl⟩ := h2
      exact hbelow r' hlt
    · simp only [h2, if_false] at hne
      exact hg c r r' hlt hne

theorem Player.disc_ne_empty (p : Player) : p.disc ≠ Cell.empty := by
  cases p <;> decide

theorem makeMove_plain (g : Game) (col : Int) (isAIMove : Bool)
    (hplay : g.gameState = GameState.playing)
    (hturn : ¬ (g.gameMode = GameMode.vsAI ∧ g.currentPlayer = Player.two ∧ isAIMove = false))
    (hplain : g.activePowerUp = none ∨ isAIMove = true)
    (hvalid : isValidMove g.board col = true) (i : Fin rows) (j : Fin cols)
    (hi : (i.val : Int) = getLowestEmptyRow g.board col) (hj : (j.val : Int) = col) :
    makeMove g col isAIMove = some
      { g with
        board := fun i' j' => if i' = i ∧ j' = j then g.currentPlayer.disc else g.board i' j'
        moveHistory := g.moveHistory ++
          [⟨getLowestEmptyRow g.board col, col, g.currentPlayer, g.currentPlayer.disc⟩] } := by
  have hrow : getLowestEmptyRow g.board col ≠ -1 := by
    rw [← hi]
    omega
  have hrej : moveRejected g col isAIMove = false := by
    unfold moveRejected
    have h2 : (g.gameMode == GameMode.vsAI && g.currentPlayer == Player.two && !isAIMove)
        = false := by
      rw [Bool.eq_false_iff]
      intro hc
      simp only [Bool.and_eq_true, beq_iff_eq, Bool.not_eq_true'] at hc
      exact hturn ⟨hc.1.1, hc.1.2, hc.2⟩
    simp [hplay, hvalid, h2, hrow]
  have happly : applyActivePowerUp g (getLowestEmptyRow g.board col) col isAIMove
      = some (g.currentPlayer.disc, g) := by
    unfold applyActivePowerUp
    rcases hplain with h | h
    · rw [h]
    · rw [h]
      cases g.activePowerUp <;> rfl
  unfold makeMove
  rw [hrej]
  simp only [Bool.false_eq_true, if_false, happly, Option.some_bind]
  rw [← hi, ← hj, setCell_fin]
  rfl

/-- C18: on a board that satisfies the gravity invariant, a plain disc move
into a legal column (game in progress, the mover's turn, no power-up in play)
writes the mover's id at `(getLowestEmptyRow(col), col)`, which was empty,
changes no other cell, and leaves a board that satisfies the gravity invariant
again. -/
theorem plainMove_keeps_gravity (g : Game) (col : Int) (isAIMove : Bool)
    (hplay : g.gameState = GameState.playing)
    (hturn : ¬ (g.gameMode = GameMode.vsAI ∧ g.currentPlayer = Player.two ∧ isAIMove = false))
    (hplain : g.activePowerUp = none ∨ isAIMove = true)
    (hgrav : gravityInvariant g.board) (hvalid : isValidMove g.board col = true) :
    ∃ (g' : Game) (i : Fin rows) (j : Fin cols),
      makeMove g col isAIMove = some g' ∧
      (i.val : Int) = getLowestEmptyRow g.board col ∧ (j.val : Int) = col ∧
      g.board i j = Cell.empty ∧ g'.board i j = g.currentPlayer.disc ∧
      (∀ i' j', ¬ (i' = i ∧ j' = j) → g'.board i' j' = g.board i' j') ∧
      gravityInvariant g'.board := by
  obtain ⟨i, j, hi, hj, hempty, hbelow⟩ := landing_cell g.board col hvalid
  refine ⟨_, i, j, makeMove_plain g col isAIMove hplay hturn hplain hvalid i j hi hj, hi, hj,
    hempty, ?_, ?_, ?_⟩
  · simp
  · intro i' j' hne
    simp [hne]
  · exact gravity_after_drop g.board i j _ (Player.disc_ne_empty _) hgrav hbelow

theorem plainMove_keeps_gravity_witness :
    threeInRowGame.gameState = GameState.playing ∧
    ¬ (threeInRowGame.gameMode = GameMode.vsAI ∧ threeInRowGame.currentPlayer = Player.two ∧
      false = false) ∧
    (threeInRowGame.activePowerUp = none ∨ false = true) ∧
    gravityInvariant threeInRowGame.board ∧ isValidMove threeInRowGame.board 3 = true ∧
    ∃ (g' : Game) (i : Fin rows) (j : Fin cols),
      makeMove threeInRowGame 3 false = some g' ∧
      (i.val : Int) = getLowestEmptyRow threeInRowGame.board 3 ∧ (j.val : Int) = 3 ∧
      threeInRowGame.board i j = Cell.empty ∧
      g'.board i j = threeInRowGame.currentPlayer.disc ∧
      (∀ i' j', ¬ (i' = i ∧ j' = j) → g'.board i' j' = threeInRowGame.board i' j') ∧
      gravityInvariant g'.board :=
  ⟨rfl, by decide, Or.inl rfl, by decide, by decide,
    plainMove_keeps_gravity threeInRowGame 3 false rfl (by decide) (Or.inl rfl) (by decide)
      (by decide)⟩

/-- Both branches of `getBestMove` give the board back as they found it. -/
theorem getBestMove_restores (settings : Settings) (u v : ℚ) (b : Board) :
    ∃ m, getBestMove settings u v b = some (m, b) := by
  unfold getBestMove
  split
  · simp only
    split
    · exact ⟨_, rfl⟩
    · exact ⟨_, rfl⟩
  · obtain ⟨m, hm, _⟩ := bestMoveLoop_eq_plain settings.depth b (List.range cols) ⊥ (-1)
    exact ⟨some m, by rw [hm]; rfl⟩

/-- C19: for every game state and every pair of random draws, `getBestMove`
returns with the whole state (board, move history, inventory, active power-up,
difficulty, current player) equal to the state before the call, and so does
`showHint`, which calls it. -/
theorem getBestMove_frame (g : Game) (u v : ℚ) :
    (∃ m, gameBestMove g u v = some (m, g)) ∧ showHint g u v = some g := by
  obtain ⟨m, hm⟩ := getBestMove_restores (difficulties g.difficulty) u v g.board
  have h1 : gameBestMove g u v = some (m, g) := by
    unfold gameBestMove
    rw [hm]
    rfl
  refine ⟨⟨m, h1⟩, ?_⟩
  unfold showHint
  split
  · rfl
  · rw [h1]
    rfl

/-! ## Power-up effects -/

theorem compacted_columnUp_congr (l l' : List Cell)
    (h : (l.filter fun v => v != Cell.empty) = l'.filter fun v => v != Cell.empty) :
    compacted l = compacted l' := by
  unfold compacted
  rw [h]

theorem clearRow_fold (i : Fin rows) (l : List (Fin cols)) :
    ∀ b : Board, (l.map fun j => j.val).foldlM
        (fun b (col : Nat) => setCell b (i.val : Int) col Cell.empty) b
      = some (fun i' j' => if i' = i ∧ j' ∈ l then Cell.empty else b i' j') := by
  induction l with
  | nil => intro b; simp
  | cons j rest ih =>
    intro b
    simp only [List.map_cons, List.foldlM_cons, setCell_fin, Option.bind_eq_bind,
      Option.some_bind, ih]
    congr 1
    funext i' j'
    by_cases hi : i' = i
    · by_cases hj : j' = j
      · simp [hi, hj]
      · by_cases hm : j' ∈ rest <;> simp [hi, hj, hm]
    · simp [hi]

theorem filter_clearedRow (b : Board) (c : Fin cols) (r : Fin rows) (l : List (Fin rows)) :
    ((l.map fun i => if i = r then Cell.empty else b i c).filter fun v => v != Cell.empty)
      = (((l.filter fun i => i ≠ r).map fun i => b i c).filter fun v => v != Cell.empty) := by
  induction l with
  | nil => rfl
  | cons x rest ih =>
    by_cases hx : x = r
    · simp [List.filter_cons, hx, ih]
    · simp [List.filter_cons, hx, ih]

theorem dropPieces_columns (b : Board) :
    ∃ b', dropPieces b = some b' ∧ ∀ c : Fin cols, columnUp b' c = compacted (columnUp b c) := by
  have hcols : List.range cols = (List.finRange cols).map fun c => c.val := by decide
  obtain ⟨b', h1, h2, _⟩ := dropColumns_spec (List.finRange cols) (by decide) b
  refine ⟨b', ?_, fun c => h2 c (List.mem_finRange c)⟩
  unfold dropPieces
  rw [hcols]
  exact h1

/-- C13: for every board and every row index `r` of the board,
`clearRowPowerUp(r)` finishes, and afterwards each column holds exactly its
former non-empty cells other than the one in row `r`, in the same bottom-to-top
order, stacked from the bottom row with only empty cells above them.  The
gravity invariant of the board before the call is not needed. -/
theorem clearRowPowerUp_spec (b : Board) (r : Fin rows) :
    ∃ b', clearRowPowerUp b (r.val : Int) = some b' ∧ ∀ c : Fin cols,
      columnUp b' c = ((columnWithoutRow b c r).filter fun v => v != Cell.empty) ++
        List.replicate
          (rows - ((columnWithoutRow b c r).filter fun v => v != Cell.empty).length)
          Cell.empty := by
  have hcols : List.range cols = (List.finRange cols).map fun c => c.val := by decide
  have hfold := clearRow_fold r (List.finRange cols) b
  obtain ⟨b', hb', hcol⟩ := dropPieces_columns
    (fun i' j' => if i' = r ∧ j' ∈ List.finRange cols then Cell.empty else b i' j')
  refine ⟨b', ?_, ?_⟩
  · unfold clearRowPowerUp
    rw [hcols, hfold]
    exact hb'
  · intro c
    rw [hcol c]
    have := compacted_columnUp_congr
      (columnUp (fun i' j' => if i' = r ∧ j' ∈ List.finRange cols then Cell.empty else b i' j') c)
      (columnWithoutRow b c r) (by
        unfold columnUp columnWithoutRow
        simp only [List.mem_finRange, and_true]
        exact filter_clearedRow b c r _)
    rw [this]
    rfl

theorem mem_intRange (lo hi x : Int) : x ∈ intRange lo hi ↔ lo ≤ x ∧ x ≤ hi := by
  unfold intRange
  simp only [List.mem_map, List.mem_range]
  constructor
  · rintro ⟨k, hk, rfl⟩
    have := Int.lt_toNat.1 hk
    omega
  · rintro ⟨h1, h2⟩
    refine ⟨(x - lo).toNat, ?_, ?_⟩
    · rw [Int.lt_toNat, Int.toNat_of_nonneg (by omega)]
      omega
    · rw [Int.toNat_of_nonneg (by omega)]
      omega

theorem bombStep_fold (row col : Int) (l : List (Int × Int))
    (hl : ∀ p ∈ l, 0 ≤ p.1 ∧ p.1 < rows ∧ 0 ≤ p.2 ∧ p.2 < cols) :
    ∀ b : Board, l.foldlM (bombStep row col) b
      = some (fun i j =>
          if ((i.val : Int), (j.val : Int)) ∈ l ∧ ((i.val : Int) ≠ row ∨ (j.val : Int) ≠ col)
          then Cell.empty else b i j) := by
  induction l with
  | nil => intro b; simp
  | cons p rest ih =>
    intro b
    obtain ⟨hp1, hp2, hp3, hp4⟩ := hl p (List.mem_cons_self _ _)
    have ih' := ih (fun q hq => hl q (List.mem_cons_of_mem _ hq))
    obtain ⟨pr, pc⟩ := p
    simp only at hp1 hp2 hp3 hp4
    have hpr : pr = (((⟨pr.toNat, by omega⟩ : Fin rows).val : Nat) : Int) := by
      simp only [Int.toNat_of_nonneg hp1]
    have hpc : pc = (((⟨pc.toNat, by omega⟩ : Fin cols).val : Nat) : Int) := by
      simp only [Int.toNat_of_nonneg hp3]
    simp only [List.foldlM_cons, bombStep, Option.bind_eq_bind]
    by_cases hc : pr ≠ row ∨ pc ≠ col
    · rw [if_pos hc]
      have hset : setCell b pr pc Cell.empty = some (fun i' j' =>
          if i' = (⟨pr.toNat, by omega⟩ : Fin rows) ∧ j' = (⟨pc.toNat, by omega⟩ : Fin cols)
          then Cell.empty else b i' j') := by
        conv_lhs => rw [hpr, hpc]
        exact setCell_fin b _ _ _
      rw [hset, Option.some_bind, ih']
      congr 1
      funext i j
      have hiff : (i = (⟨pr.toNat, by omega⟩ : Fin rows) ∧ j = (⟨pc.toNat, by omega⟩ : Fin cols))
          ↔ ((i.val : Int), (j.val : Int)) = (pr, pc) := by
        simp only [Fin.ext_iff, Prod.mk.injEq]
        omega
      simp only [hiff, List.mem_cons]
      by_cases h1 : ((i.val : Int), (j.val : Int)) = (pr, pc)
      · have h1' := h1
        simp only [Prod.mk.injEq] at h1'
        have hc' : (i.val : Int) ≠ row ∨ (j.val : Int) ≠ col := by
          rw [h1'.1, h1'.2]; exact hc
        simp [h1, hc']
      · simp [h1]
    · rw [if_neg hc, Option.some_bind, ih']
      congr 1
      funext i j
      simp only [List.mem_cons]
      by_cases h1 : ((i.val : Int), (j.val : Int)) = (pr, pc)
      · have h1' := h1
        simp only [Prod.mk.injEq] at h1'
        have hc' : ¬ ((i.val : Int) ≠ row ∨ (j.val : Int) ≠ col) := by
          rw [h1'.1, h1'.2]; exact hc
        simp [hc']
      · simp [h1]

/-- The clearing loops of `bombPowerUp` stay on the board and empty exactly the
neighbours of `(row, col)`. -/
theorem bomb_clear_eq (b : Board) (row col : Int)
    (hr : 0 ≤ row ∧ row < rows) (hc : 0 ≤ col ∧ col < cols) :
    (List.product (intRange (max 0 (row - 1)) (min ((rows : Int) - 1) (row + 1)))
        (intRange (max 0 (col - 1)) (min ((cols : Int) - 1) (col + 1)))).foldlM
      (bombStep row col) b = some (clearNeighbours b row col) := by
  have hrows : (rows : Int) = 6 := rfl
  have hcols : (cols : Int) = 7 := rfl
  rw [bombStep_fold]
  · congr 1
    funext i j
    have hi : (i.val : Int) < 6 := by exact_mod_cast i.isLt
    have hj : (j.val : Int) < 7 := by exact_mod_cast j.isLt
    unfold clearNeighbours isNeighbour
    split_ifs with h1 h2 h2
    · rfl
    · exfalso
      simp only [List.pair_mem_product, List.mem_product, mem_intRange, decide_eq_true_eq] at h1 h2
      omega
    · exfalso
      simp only [List.pair_mem_product, List.mem_product, mem_intRange, decide_eq_true_eq] at h1 h2
      omega
    · rfl
  · intro p hp
    obtain ⟨pr, pc⟩ := p
    simp only [List.pair_mem_product, List.mem_product, mem_intRange] at hp
    simp only
    omega

theorem bombPowerUp_columns (b : Board) (row col : Int)
    (hr : 0 ≤ row ∧ row < rows) (hc : 0 ≤ col ∧ col < cols) :
    ∃ b', bombPowerUp b row col = some b' ∧
      ∀ c : Fin cols, columnUp b' c = compacted (columnUp (clearNeighbours b row col) c) := by
  obtain ⟨b', hb', hcol⟩ := dropPieces_columns (clearNeighbours b row col)
  refine ⟨b', ?_, hcol⟩
  unfold bombPowerUp
  simp only [sub_eq_add_neg] at *
  have := bomb_clear_eq b row col hr hc
  simp only [sub_eq_add_neg] at this
  rw [this]
  exact hb'

theorem column_count (b : Board) (c : Fin cols) :
    (∑ r : Fin rows, if b r c ≠ Cell.empty then 1 else 0)
      = ((columnUp b c).filter fun v => v != Cell.empty).length := by
  rw [columnUp_eq]
  simp only [← List.countP_eq_length_filter, List.countP_cons, List.countP_nil,
    Fin.sum_univ_six, bne_iff_ne, ne_eq]
  ring

theorem nonEmptyCount_eq_columns (b : Board) :
    nonEmptyCount b = ∑ c : Fin cols, ((columnUp b c).filter fun v => v != Cell.empty).length := by
  unfold nonEmptyCount
  rw [Finset.card_filter, Fintype.sum_prod_type_right]
  exact Finset.sum_congr rfl fun c _ => column_count b c

theorem filter_compacted (l : List Cell) :
    ((compacted l).filter fun v => v != Cell.empty) = l.filter fun v => v != Cell.empty := by
  unfold compacted
  rw [List.filter_append, List.filter_filter]
  have : (List.replicate (rows - (l.filter fun v => v != Cell.empty).length) Cell.empty).filter
      (fun v => v != Cell.empty) = [] := by
    rw [List.filter_eq_nil_iff]
    intro a ha
    rw [List.eq_of_mem_replicate ha]
    decide
  rw [this]
  simp

theorem nonEmptyCount_of_compacted (b b' : Board)
    (h : ∀ c : Fin cols, columnUp b' c = compacted (columnUp b c)) :
    nonEmptyCount b' = nonEmptyCount b := by
  rw [nonEmptyCount_eq_columns, nonEmptyCount_eq_columns]
  exact Finset.sum_congr rfl fun c _ => by rw [h c, filter_compacted]

theorem neighbour_card :
    ∀ (i : Fin rows) (j : Fin cols), 1 ≤ i.val ∧ i.val ≤ 4 ∧ 1 ≤ j.val ∧ j.val ≤ 5 →
      (Finset.univ.filter fun p : Fin rows × Fin cols =>
        isNeighbour (i.val : Int) (j.val : Int) p.1 p.2 = true).card = 8 := by
  decide

theorem nonEmptyCount_clearNeighbours (b : Board) (i : Fin rows) (j : Fin cols)
    (hint : 1 ≤ i.val ∧ i.val ≤ 4 ∧ 1 ≤ j.val ∧ j.val ≤ 5)
    (hocc : ∀ (i' : Fin rows) (j' : Fin cols),
      isNeighbour (i.val : Int) (j.val : Int) i' j' = true → b i' j' ≠ Cell.empty) :
    nonEmptyCount (clearNeighbours b (i.val : Int) (j.val : Int)) + 8 = nonEmptyCount b := by
  unfold nonEmptyCount
  have hsplit : (Finset.univ.filter fun p : Fin rows × Fin cols =>
        clearNeighbours b (i.val : Int) (j.val : Int) p.1 p.2 ≠ Cell.empty)
      = (Finset.univ.filter fun p : Fin rows × Fin cols => b p.1 p.2 ≠ Cell.empty) \
        (Finset.univ.filter fun p : Fin rows × Fin cols =>
          isNeighbour (i.val : Int) (j.val : Int) p.1 p.2 = true) := by
    ext p
    simp only [Finset.mem_filter, Finset.mem_univ, true_and, Finset.mem_sdiff, clearNeighbours]
    by_cases hn : isNeighbour (i.val : Int) (j.val : Int) p.1 p.2 = true
    · simp [hn]
    · simp [hn]
  have hsub : (Finset.univ.filter fun p : Fin rows × Fin cols =>
        isNeighbour (i.val : Int) (j.val : Int) p.1 p.2 = true)
      ⊆ (Finset.univ.filter fun p : Fin rows × Fin cols => b p.1 p.2 ≠ Cell.empty) := by
    intro p hp
    simp only [Finset.mem_filter, Finset.mem_univ, true_and] at hp ⊢
    exact hocc p.1 p.2 hp
  rw [hsplit, Finset.card_sdiff hsub, neighbour_card i j hint]
  have := Finset.card_le_card hsub
  rw [neighbour_card i j hint] at this
  omega

/-- C11: for every board and every cell `(row, col)` of the board,
`bombPowerUp(row, col)` finishes without writing outside the grid (near an
edge only the neighbours that exist are cleared), and each column afterwards
is the compaction of the column with the neighbours of `(row, col)` emptied and
the centre left in place.  For an interior cell whose 3 x 3 neighbourhood is
fully occupied the number of non-empty cells drops by exactly 8 and the centre
piece is still in its column. -/
theorem bombPowerUp_spec (b : Board) (i : Fin rows) (j : Fin cols) :
    ∃ b', bombPowerUp b (i.val : Int) (j.val : Int) = some b' ∧
      (∀ c : Fin cols, columnUp b' c
        = ((columnUp (clearNeighbours b i.val j.val) c).filter fun v => v != Cell.empty) ++
          List.replicate (rows -
            ((columnUp (clearNeighbours b i.val j.val) c).filter fun v => v != Cell.empty).length)
            Cell.empty) ∧
      clearNeighbours b i.val j.val i j = b i j ∧
      (1 ≤ i.val ∧ i.val ≤ 4 ∧ 1 ≤ j.val ∧ j.val ≤ 5 →
        (∀ (i' : Fin rows) (j' : Fin cols),
          (i.val : Int) - 1 ≤ i'.val ∧ (i'.val : Int) ≤ i.val + 1 ∧
          (j.val : Int) - 1 ≤ j'.val ∧ (j'.val : Int) ≤ j.val + 1 → b i' j' ≠ Cell.empty) →
        nonEmptyCount b' + 8 = nonEmptyCount b ∧ b i j ∈ columnUp b' j) := by
  have hi : (0 : Int) ≤ i.val ∧ (i.val : Int) < rows := ⟨by omega, by exact_mod_cast i.isLt⟩
  have hj : (0 : Int) ≤ j.val ∧ (j.val : Int) < cols := ⟨by omega, by exact_mod_cast j.isLt⟩
  obtain ⟨b', hb', hcol⟩ := bombPowerUp_columns b i.val j.val hi hj
  have hcentre : clearNeighbours b i.val j.val i j = b i j := by
    unfold clearNeighbours isNeighbour
    simp
  refine ⟨b', hb', hcol, hcentre, ?_⟩
  intro hint hocc
  constructor
  · rw [nonEmptyCount_of_compacted _ b' hcol]
    apply nonEmptyCount_clearNeighbours b i j hint
    intro i' j' hn
    unfold isNeighbour at hn
    simp only [decide_eq_true_eq] at hn
    exact hocc i' j' ⟨hn.1, hn.2.1, hn.2.2.1, hn.2.2.2.1⟩
  · have hne : b i j ≠ Cell.empty := hocc i j ⟨by omega, by omega, by omega, by omega⟩
    rw [hcol j]
    unfold compacted
    apply List.mem_append_left
    rw [List.mem_filter]
    refine ⟨?_, by simpa using hne⟩
    rw [← hcentre]
    unfold columnUp
    exact List.mem_map.2 ⟨i, by simp, rfl⟩

/-! ## The shape of an accepted move -/

theorem clearRowPowerUp_columns (b : Board) (r : Fin rows) :
    ∃ b', clearRowPowerUp b (r.val : Int) = some b' ∧ ∀ c : Fin cols,
      columnUp b' c = compacted (columnUp (fun i' j' => if i' = r then Cell.empty else b i' j') c) := by
  have hcols : List.range cols = (List.finRange cols).map fun c => c.val := by decide
  have hfold := clearRow_fold r (List.finRange cols) b
  obtain ⟨b', hb', hcol⟩ := dropPieces_columns
    (fun i' j' => if i' = r ∧ j' ∈ List.finRange cols then Cell.empty else b i' j')
  refine ⟨b', ?_, ?_⟩
  · unfold clearRowPowerUp
    rw [hcols, hfold]
    exact hb'
  · intro c
    rw [hcol c]
    simp only [List.mem_finRange, and_true]

theorem moveRejected_false (g : Game) (col : Int) (isAIMove : Bool)
    (h : moveRejected g col isAIMove = false) :
    g.gameState = GameState.playing ∧ isValidMove g.board col = true ∧
    ¬ (g.gameMode = GameMode.vsAI ∧ g.currentPlayer = Player.two ∧ isAIMove = false) := by
  unfold moveRejected at h
  simp only [Bool.or_eq_false_iff, Bool.and_eq_false_iff, bne_eq_false_iff_eq,
    Bool.not_eq_false', beq_eq_false_iff_ne, ne_eq, Bool.not_eq_eq_eq_not, Bool.not_true,
    Bool.not_eq_false] at h
  refine ⟨h.1.1.1, h.1.1.2, ?_⟩
  rintro ⟨h1, h2, h3⟩
  rcases h.1.2 with (h' | h') | h'
  · exact h' h1
  · exact h' h2
  · rw [h3] at h'
    exact Bool.noConfusion h'

/-- An accepted move with a power-up in play: the effect of the power-up is
applied to the board, the counter of the kind goes down by one, no power-up is
active afterwards, and the tag of the kind is written at the landing cell. -/
theorem makeMove_power (g : Game) (col : Int) (type : PowerUp)
    (hacc : moveRejected g col false = false) (hactive : g.activePowerUp = some type) :
    ∃ (i : Fin rows) (j : Fin cols) (b1 : Board),
      (i.val : Int) = getLowestEmptyRow g.board col ∧ (j.val : Int) = col ∧
      (type = PowerUp.bomb → bombPowerUp g.board i.val j.val = some b1) ∧
      (type = PowerUp.clear → clearRowPowerUp g.board i.val = some b1) ∧
      (type = PowerUp.wild ∨ type = PowerUp.block → b1 = g.board) ∧
      makeMove g col false = some
        { g with
          board := fun i' j' => if i' = i ∧ j' = j then type.tag else b1 i' j'
          powerUps := g.powerUps.decrement type
          activePowerUp := none
          moveHistory := g.moveHistory ++
            [⟨getLowestEmptyRow g.board col, col, g.currentPlayer, type.tag⟩] } := by
  obtain ⟨_, hvalid, _⟩ := moveRejected_false g col false hacc
  obtain ⟨i, j, hi, hj, _, _⟩ := landing_cell g.board col hvalid
  have hir : (0 : Int) ≤ i.val ∧ (i.val : Int) < rows := ⟨by omega, by exact_mod_cast i.isLt⟩
  have hjr : (0 : Int) ≤ j.val ∧ (j.val : Int) < cols := ⟨by omega, by exact_mod_cast j.isLt⟩
  cases type with
  | bomb =>
    obtain ⟨b1, hb1, _⟩ := bombPowerUp_columns g.board i.val j.val hir hjr
    refine ⟨i, j, b1, hi, hj, fun _ => hb1, ?_, ?_, ?_⟩
    · intro h; cases h
    · rintro (h | h) <;> cases h
    unfold makeMove
    rw [hacc]
    simp only [Bool.false_eq_true, if_false, applyActivePowerUp, hactive, usePowerUp]
    rw [← hi, ← hj, hb1]
    simp only [Option.map_some', Option.some_bind, setCell_fin]
  | clear =>
    obtain ⟨b1, hb1, _⟩ := clearRowPowerUp_columns g.board i
    refine ⟨i, j, b1, hi, hj, ?_, fun _ => hb1, ?_, ?_⟩
    · intro h; cases h
    · rintro (h | h) <;> cases h
    unfold makeMove
    rw [hacc]
    simp only [Bool.false_eq_true, if_false, applyActivePowerUp, hactive, usePowerUp]
    rw [← hi, ← hj, hb1]
    simp only [Option.map_some', Option.some_bind, setCell_fin]
  | wild =>
    refine ⟨i, j, g.board, hi, hj, ?_, ?_, fun _ => rfl, ?_⟩
    · intro h; cases h
    · intro h; cases h
    unfold makeMove
    rw [hacc]
    simp only [Bool.false_eq_true, if_false, applyActivePowerUp, hactive, usePowerUp]
    rw [← hi, ← hj]
    simp only [Option.map_some', Option.some_bind, setCell_fin]
  | block =>
    refine ⟨i, j, g.board, hi, hj, ?_, ?_, fun _ => rfl, ?_⟩
    · intro h; cases h
    · intro h; cases h
    unfold makeMove
    rw [hacc]
    simp only [Bool.false_eq_true, if_false, applyActivePowerUp, hactive, usePowerUp]
    rw [← hi, ← hj]
    simp only [Option.map_some', Option.some_bind, setCell_fin]

theorem makeMove_cases (g : Game) (col : Int) (isAIMove : Bool) (g' : Game)
    (h : makeMove g col isAIMove = some g') :
    g' = g ∨
    (∃ (i : Fin rows) (j : Fin cols), (g.activePowerUp = none ∨ isAIMove = true) ∧
      g' = { g with
        board := fun i' j' => if i' = i ∧ j' = j then g.currentPlayer.disc else g.board i' j'
        moveHistory := g.moveHistory ++
          [⟨getLowestEmptyRow g.board col, col, g.currentPlayer, g.currentPlayer.disc⟩] }) ∨
    (∃ (type : PowerUp) (i : Fin rows) (j : Fin cols) (b1 : Board),
      g.activePowerUp = some type ∧ isAIMove = false ∧
      (type = PowerUp.bomb → bombPowerUp g.board i.val j.val = some b1) ∧
      (type = PowerUp.clear → clearRowPowerUp g.board i.val = some b1) ∧
      (type = PowerUp.wild ∨ type = PowerUp.block → b1 = g.board) ∧
      g' = { g with
        board := fun i' j' => if i' = i ∧ j' = j then type.tag else b1 i' j'
        powerUps := g.powerUps.decrement type
        activePowerUp := none
        moveHistory := g.moveHistory ++
          [⟨getLowestEmptyRow g.board col, col, g.currentPlayer, type.tag⟩] }) := by
  by_cases hrej : moveRejected g col isAIMove = true
  · left
    unfold makeMove at h
    rw [if_pos hrej] at h
    exact (Option.some.inj h).symm
  · have hacc : moveRejected g col isAIMove = false := by simpa using hrej
    obtain ⟨hplay, hvalid, hturn⟩ := moveRejected_false g col isAIMove hacc
    right
    by_cases hplain : g.activePowerUp = none ∨ isAIMove = true
    · left
      obtain ⟨i, j, hi, hj, _, _⟩ := landing_cell g.board col hvalid
      have := makeMove_plain g col isAIMove hplay hturn hplain hvalid i j hi hj
      rw [this] at h
      exact ⟨i, j, hplain, (Option.some.inj h).symm⟩
    · right
      have hAI : isAIMove = false := by
        cases isAIMove
        · rfl
        · exact absurd (Or.inr rfl) hplain
      subst hAI
      cases hact : g.activePowerUp with
      | none => exact absurd (Or.inl hact) hplain
      | some type =>
        obtain ⟨i, j, b1, _, _, h1, h2, h3, h4⟩ := makeMove_power g col type hacc hact
        rw [h4] at h
        exact ⟨type, i, j, b1, rfl, rfl, h1, h2, h3, (Option.some.inj h).symm⟩

theorem compacted_values (b b' : Board)
    (h : ∀ c : Fin cols, columnUp b' c = compacted (columnUp b c)) (i : Fin rows) (j : Fin cols) :
    b' i j = Cell.empty ∨ ∃ i', b' i j = b i' j := by
  have hmem : b' i j ∈ columnUp b' j := by
    unfold columnUp
    exact List.mem_map.2 ⟨i, by simp, rfl⟩
  rw [h j] at hmem
  unfold compacted at hmem
  rcases List.mem_append.1 hmem with hm | hm
  · right
    have := (List.mem_filter.1 hm).1
    unfold columnUp at this
    obtain ⟨i', _, hi'⟩ := List.mem_map.1 this
    exact ⟨i', hi'.symm⟩
  · left
    exact List.eq_of_mem_replicate hm

theorem bombPowerUp_values (b b1 : Board) (i0 : Fin rows) (j0 : Fin cols)
    (h : bombPowerUp b i0.val j0.val = some b1) (i : Fin rows) (j : Fin cols) :
    b1 i j = Cell.empty ∨ ∃ i' j', b1 i j = b i' j' := by
  have hir : (0 : Int) ≤ i0.val ∧ (i0.val : Int) < rows := ⟨by omega, by exact_mod_cast i0.isLt⟩
  have hjr : (0 : Int) ≤ j0.val ∧ (j0.val : Int) < cols := ⟨by omega, by exact_mod_cast j0.isLt⟩
  obtain ⟨b', hb', hcol⟩ := bombPowerUp_columns b i0.val j0.val hir hjr
  rw [hb'] at h
  have hb := Option.some.inj h
  subst hb
  rcases compacted_values _ b' hcol i j with h1 | ⟨i', h1⟩
  · exact Or.inl h1
  · unfold clearNeighbours at h1
    split at h1
    · exact Or.inl h1
    · exact Or.inr ⟨i', j, h1⟩

theorem clearRowPowerUp_values (b b1 : Board) (i0 : Fin rows)
    (h : clearRowPowerUp b i0.val = some b1) (i : Fin rows) (j : Fin cols) :
    b1 i j = Cell.empty ∨ ∃ i' j', b1 i j = b i' j' := by
  obtain ⟨b', hb', hcol⟩ := clearRowPowerUp_columns b i0
  rw [hb'] at h
  have hb := Option.some.inj h
  subst hb
  rcases compacted_values _ b' hcol i j with h1 | ⟨i', h1⟩
  · exact Or.inl h1
  · split at h1
    · exact Or.inl h1
    · exact Or.inr ⟨i', j, h1⟩

theorem makeMoveCallback_fields (g g' : Game) (row col : Int) (o : Outcome)
    (h : makeMoveCallback g row col = some (o, g')) :
    g'.board = g.board ∧ g'.powerUps = g.powerUps ∧ g'.activePowerUp = g.activePowerUp := by
  unfold makeMoveCallback at h
  cases hc : checkWin g.board row col with
  | none => simp [hc] at h
  | some won =>
    simp only [hc, Option.map_some', Option.some.injEq] at h
    split at h
    · cases h; exact ⟨rfl, rfl, rfl⟩
    · split at h
      · cases h; exact ⟨rfl, rfl, rfl⟩
      · cases h; exact ⟨rfl, rfl, rfl⟩

/-! ## Invariants of the reachable states -/

theorem reachable_kinds_inv (allowed : PowerUp → Prop) (g : Game) (h : Reachable allowed g) :
    (∀ i j, g.board i j = Cell.empty ∨ g.board i j = Cell.disc1 ∨ g.board i j = Cell.disc2 ∨
      ∃ t, allowed t ∧ g.board i j = t.tag) ∧
    (∀ t, g.activePowerUp = some t → allowed t) := by
  induction h with
  | initial =>
    exact ⟨fun i j => Or.inl rfl, fun t ht => by cases ht⟩
  | @select g type _ hallowed ih =>
    unfold selectPowerUp
    split
    · exact ih
    · refine ⟨ih.1, ?_⟩
      intro t ht
      simp only [Option.some.injEq] at ht
      exact ht ▸ hallowed
  | @move g g' col isAIMove _ hmove ih =>
    rcases makeMove_cases g col isAIMove g' hmove with rfl | ⟨i, j, _, rfl⟩ |
      ⟨type, i, j, b1, hact, _, hbomb, hclear, hother, rfl⟩
    · exact ih
    · refine ⟨?_, ih.2⟩
      intro i' j'
      simp only
      split
      · cases g.currentPlayer
        · exact Or.inr (Or.inl rfl)
        · exact Or.inr (Or.inr (Or.inl rfl))
      · exact ih.1 i' j'
    · refine ⟨?_, fun t ht => by cases ht⟩
      have hb1 : ∀ i' j', b1 i' j' = Cell.empty ∨ ∃ i'' j'', b1 i' j' = g.board i'' j'' := by
        intro i' j'
        cases type with
        | bomb => exact bombPowerUp_values g.board b1 i j (hbomb rfl) i' j'
        | clear => exact clearRowPowerUp_values g.board b1 i (hclear rfl) i' j'
        | wild => exact Or.inr ⟨i', j', by rw [hother (Or.inl rfl)]⟩
        | block => exact Or.inr ⟨i', j', by rw [hother (Or.inr rfl)]⟩
      intro i' j'
      simp only
      split
      · exact Or.inr (Or.inr (Or.inr ⟨type, ih.2 type hact, rfl⟩))
      · rcases hb1 i' j' with h1 | ⟨i'', j'', h1⟩
        · exact Or.inl h1
        · rw [h1]
          exact ih.1 i'' j''
  | @settle g g' row col o _ hcb ih =>
    obtain ⟨h1, _, h3⟩ := makeMoveCallback_fields g g' row col o hcb
    rw [h1, h3]
    exact ih
  | start _ _ =>
    exact ⟨fun i j => Or.inl rfl, fun t ht => by cases ht⟩
  | reset _ _ =>
    exact ⟨fun i j => Or.inl rfl, fun t ht => by cases ht⟩
  | @mode g m _ ih =>
    unfold changeMode
    simp only
    split
    · exact ⟨fun i j => Or.inl rfl, fun t ht => by cases ht⟩
    · exact ih
  | level d _ ih =>
    exact ih

/-- C15 (as amended): in every state reachable from the constructor's state
through `selectPowerUp` called with the kinds `'bomb'`, `'wild'` and `'block'`
(the kinds `renderBoard` draws), `makeMove` and its callback, `startNewGame`,
`resetGame`, `changeMode` and `changeDifficulty`, every board cell holds `0`, a
disc of player 1 or 2, `'wild'`, `'block'` or `'bomb'`. -/
theorem reachable_cell_kinds (g : Game) (h : Reachable drawnKind g)
    (i : Fin rows) (j : Fin cols) :
    g.board i j = Cell.empty ∨ g.board i j = Cell.disc1 ∨ g.board i j = Cell.disc2 ∨
      g.board i j = Cell.wild ∨ g.board i j = Cell.block ∨ g.board i j = Cell.bomb := by
  rcases (reachable_kinds_inv drawnKind g h).1 i j with h1 | h1 | h1 | ⟨t, ht, h1⟩
  · exact Or.inl h1
  · exact Or.inr (Or.inl h1)
  · exact Or.inr (Or.inr (Or.inl h1))
  · cases t with
    | bomb => exact Or.inr (Or.inr (Or.inr (Or.inr (Or.inr h1))))
    | wild => exact Or.inr (Or.inr (Or.inr (Or.inl h1)))
    | clear => exact absurd rfl ht
    | block => exact Or.inr (Or.inr (Or.inr (Or.inr (Or.inl h1))))

theorem reachable_cell_kinds_witness :
    ∃ g, makeMove (selectPowerUp (startNewGame initialGame) PowerUp.bomb) 3 false = some g ∧
      Reachable drawnKind g ∧ g.board 5 3 = Cell.bomb ∧
      ∀ (i : Fin rows) (j : Fin cols),
        g.board i j = Cell.empty ∨ g.board i j = Cell.disc1 ∨ g.board i j = Cell.disc2 ∨
          g.board i j = Cell.wild ∨ g.board i j = Cell.block ∨ g.board i j = Cell.bomb := by
  have hval : (makeMove (selectPowerUp (startNewGame initialGame) PowerUp.bomb) 3 false).map
      (fun g => g.board 5 3) = some Cell.bomb := by decide
  cases hm : makeMove (selectPowerUp (startNewGame initialGame) PowerUp.bomb) 3 false with
  | none => rw [hm] at hval; cases hval
  | some g =>
    rw [hm] at hval
    have hreach : Reachable drawnKind g :=
      Reachable.move 3 false
        (Reachable.select PowerUp.bomb (Reachable.start Reachable.initial)
          (fun h => PowerUp.noConfusion h)) hm
    exact ⟨g, rfl, hreach, Option.some.inj hval, reachable_cell_kinds g hreach⟩

/-- C15 (as stated) fails: after `startNewGame()`, `selectPowerUp('bomb')` and
`makeMove(3)` the cell `(5, 3)` holds `'bomb'`, which is none of `0`, a disc,
`'wild'` and `'block'`. -/
theorem bomb_cell_counterexample :
    ∃ g, Reachable anyKind g ∧ g.board 5 3 = Cell.bomb ∧
      Cell.bomb ≠ Cell.empty ∧ Cell.bomb ≠ Cell.disc1 ∧ Cell.bomb ≠ Cell.disc2 ∧
      Cell.bomb ≠ Cell.wild ∧ Cell.bomb ≠ Cell.block := by
  have hval : (makeMove (selectPowerUp (startNewGame initialGame) PowerUp.bomb) 3 false).map
      (fun g => g.board 5 3) = some Cell.bomb := by decide
  cases hm : makeMove (selectPowerUp (startNewGame initialGame) PowerUp.bomb) 3 false with
  | none => rw [hm] at hval; cases hval
  | some g =>
    rw [hm] at hval
    refine ⟨g, ?_, Option.some.inj hval, by decide, by decide, by decide, by decide, by decide⟩
    exact Reachable.move 3 false
      (Reachable.select PowerUp.bomb (Reachable.start Reachable.initial) trivial) hm

theorem Inventory.get_decrement (inv : Inventory) (t t' : PowerUp) :
    (inv.decrement t).get t' = if t' = t then inv.get t - 1 else inv.get t' := by
  cases t <;> cases t' <;> simp [Inventory.decrement, Inventory.get]

theorem reachable_inventory_inv (allowed : PowerUp → Prop) (g : Game)
    (h : Reachable allowed g) :
    (∀ t, 0 ≤ g.powerUps.get t) ∧ (∀ t, g.activePowerUp = some t → 1 ≤ g.powerUps.get t) := by
  induction h with
  | initial =>
    exact ⟨fun t => by cases t <;> decide, fun t ht => by cases ht⟩
  | @select g type _ _ ih =>
    unfold selectPowerUp
    split
    · exact ih
    · rename_i hcond
      refine ⟨ih.1, ?_⟩
      intro t ht
      simp only [Option.some.injEq] at ht
      subst ht
      have : ¬ g.powerUps.get type ≤ 0 := fun hc => hcond (Or.inl hc)
      show 1 ≤ g.powerUps.get type
      omega
  | @move g g' col isAIMove _ hmove ih =>
    rcases makeMove_cases g col isAIMove g' hmove with rfl | ⟨i, j, _, rfl⟩ |
      ⟨type, i, j, b1, hact, _, _, _, _, rfl⟩
    · exact ih
    · exact ih
    · refine ⟨?_, fun t ht => by cases ht⟩
      intro t
      simp only [Inventory.get_decrement]
      have h1 := ih.2 type hact
      have h0 := ih.1 t
      split
      · omega
      · exact h0
  | @settle g g' row col o _ hcb ih =>
    obtain ⟨_, h2, h3⟩ := makeMoveCallback_fields g g' row col o hcb
    rw [h2, h3]
    exact ih
  | start _ ih =>
    exact ⟨ih.1, fun t ht => by cases ht⟩
  | reset _ _ =>
    refine ⟨fun t => ?_, fun t ht => by cases ht⟩
    show 0 ≤ initialInventory.get t
    cases t <;> decide
  | @mode g m _ ih =>
    unfold changeMode
    simp only
    split
    · exact ⟨ih.1, fun t ht => by cases ht⟩
    · exact ih
  | level d _ ih =>
    exact ih

/-- C16: in every state reachable from the initial inventory
`{bomb: 2, wild: 1, clear: 1, block: 1}` every power-up counter is a
non-negative integer; `selectPowerUp` on a kind whose counter is 0 leaves the
state as it is; an accepted move with a power-up in play lowers the counter of
that kind by exactly one and leaves the other counters alone; and any other
call of `makeMove` leaves all counters alone. -/
theorem inventory_nonneg (g : Game) (h : Reachable anyKind g) :
    (∀ t, 0 ≤ g.powerUps.get t) ∧
    (∀ t, g.powerUps.get t = 0 → selectPowerUp g t = g) ∧
    (∀ (col : Int) (t : PowerUp), moveRejected g col false = false →
      g.activePowerUp = some t →
      ∃ g', makeMove g col false = some g' ∧ g'.powerUps.get t = g.powerUps.get t - 1 ∧
        ∀ t', t' ≠ t → g'.powerUps.get t' = g.powerUps.get t') ∧
    (∀ (col : Int) (isAIMove : Bool) (g' : Game), makeMove g col isAIMove = some g' →
      moveRejected g col isAIMove = true ∨ g.activePowerUp = none ∨ isAIMove = true →
      g'.powerUps = g.powerUps) := by
  refine ⟨(reachable_inventory_inv anyKind g h).1, ?_, ?_, ?_⟩
  · intro t ht
    unfold selectPowerUp
    rw [if_pos (Or.inl (le_of_eq ht))]
  · intro col t hacc hact
    obtain ⟨i, j, b1, _, _, _, _, _, hm⟩ := makeMove_power g col t hacc hact
    refine ⟨_, hm, ?_, ?_⟩
    · simp [Inventory.get_decrement]
    · intro t' ht'
      simp [Inventory.get_decrement, ht']
  · intro col isAIMove g' hm hcase
    rcases makeMove_cases g col isAIMove g' hm with rfl | ⟨i, j, _, rfl⟩ |
      ⟨type, i, j, b1, hact, hAI, _, _, _, rfl⟩
    · rfl
    · rfl
    · exfalso
      rcases hcase with hrej | hnone | hai
      · unfold makeMove at hm
        rw [if_pos hrej] at hm
        have hg := Option.some.inj hm
        have : g.activePowerUp = none := by
          rw [hg]
        rw [hact] at this
        cases this
      · rw [hact] at hnone
        cases hnone
      · rw [hAI] at hai
        cases hai

theorem inventory_nonneg_witness :
    Reachable anyKind (selectPowerUp (startNewGame initialGame) PowerUp.bomb) ∧
    (∀ t, 0 ≤ (selectPowerUp (startNewGame initialGame) PowerUp.bomb).powerUps.get t) ∧
    (∃ g', makeMove (selectPowerUp (startNewGame initialGame) PowerUp.bomb) 3 false = some g' ∧
      g'.powerUps.get PowerUp.bomb
        = (selectPowerUp (startNewGame initialGame) PowerUp.bomb).powerUps.get PowerUp.bomb - 1 ∧
      ∀ t', t' ≠ PowerUp.bomb → g'.powerUps.get t'
        = (selectPowerUp (startNewGame initialGame) PowerUp.bomb).powerUps.get t') :=
  ⟨Reachable.select PowerUp.bomb (Reachable.start Reachable.initial) trivial,
    (inventory_nonneg _
      (Reachable.select PowerUp.bomb (Reachable.start Reachable.initial) trivial)).1,
    (inventory_nonneg _
      (Reachable.select PowerUp.bomb (Reachable.start Reachable.initial) trivial)).2.2.1
      3 PowerUp.bomb (by decide) (by decide)⟩

/-! ## Power-up moves that miss their specification -/

theorem bombPowerUp_spec_witness :
    ∃ b', bombPowerUp fullBoard 2 3 = some b' ∧ nonEmptyCount b' + 8 = nonEmptyCount fullBoard ∧
      fullBoard 2 3 ∈ columnUp b' 3 := by
  obtain ⟨b', h1, _, _, h4⟩ := bombPowerUp_spec fullBoard 2 3
  exact ⟨b', h1, h4 (by decide) (fun i' j' _ => by unfold fullBoard; decide)⟩

/-- C12 fails on the code: in `bombScenario` the board before the Bomb move
satisfies the gravity invariant, column 3 is legal and the landing row is 4;
the move clears the disc at `(5, 3)` below the landing cell, compacts, and then
writes `'bomb'` at `(4, 3)` above the empty cell `(5, 3)`, so the board after
the move breaks the gravity invariant. -/
theorem bombMove_breaks_gravity :
    bombScenario.map (fun p => (decide (gravityInvariant p.1.board), isValidMove p.1.board 3,
        p.1.activePowerUp, getLowestEmptyRow p.1.board 3))
      = some (true, true, some PowerUp.bomb, 4) ∧
    bombScenario.map (fun p => (p.2.board 4 3, p.2.board 5 3,
        decide (gravityInvariant p.2.board)))
      = some (Cell.bomb, Cell.empty, false) := by
  constructor <;> decide

/-- C14 fails on the code: in `wildScenario` player 1 has discs at `(5, 0)`,
`(5, 1)`, `(5, 2)` and the Wild move puts `'wild'` at `(5, 3)`; `checkWin(5, 3)`
returns `false`, the outcome of the move is not a win and the turn passes to
player 2, although `checkBoardWinner` finds player 1 as the winner on the
board after the move. -/
theorem wildMove_misses_win :
    wildScenario.map (fun p => ([p.1.board 5 0, p.1.board 5 1, p.1.board 5 2, p.1.board 5 3],
        p.1.currentPlayer, p.1.activePowerUp))
      = some ([Cell.disc1, Cell.disc1, Cell.disc1, Cell.empty], Player.one,
          some PowerUp.wild) ∧
    wildScenario.map (fun p => (p.2.2.board 5 3, checkWin p.2.2.board 5 3, p.2.1))
      = some (Cell.wild, some false, some Outcome.inProgress) ∧
    wildScenario.map (fun p => (p.2.2.currentPlayer, p.2.2.gameState,
        checkBoardWinner p.2.2.board))
      = some (Player.two, GameState.playing, some (some Cell.disc1)) := by
  refine ⟨?_, ?_, ?_⟩ <;> decide

/-! ## Board queries against their contracts -/

/-- C24: for every board and every column of the grid, `getLowestEmptyRow(col)`
returns `-1` exactly when the column has no empty cell; when the column has an
empty cell it returns the largest row index (the cell nearest the bottom) whose
cell in that column is empty. -/
theorem getLowestEmptyRow_largest (b : Board) (j : Fin cols) :
    (getLowestEmptyRow b (j.val : Int) = -1 ↔ ∀ i : Fin rows, b i j ≠ Cell.empty) ∧
    ((∃ i : Fin rows, b i j = Cell.empty) →
      ∃ i : Fin rows, getLowestEmptyRow b (j.val : Int) = (i.val : Int) ∧ b i j = Cell.empty ∧
        ∀ i' : Fin rows, b i' j = Cell.empty → i' ≤ i) := by
  have hmem : ∀ i : Fin rows, i.val ∈ (List.range rows).reverse := by
    intro i
    simp only [List.mem_reverse, List.mem_range]
    exact i.isLt
  have hcell : ∀ (r : Nat) (hr : r ∈ (List.range rows).reverse),
      cellAt b (r : Int) (j.val : Int)
        = some (b ⟨r, by simpa using hr⟩ j) := by
    intro r hr
    exact cellAt_fin b ⟨r, by simpa using hr⟩ j
  unfold getLowestEmptyRow
  rcases getLowestEmptyRowFrom_spec b (j.val : Int) (List.range rows).reverse with
    ⟨h1, h2⟩ | ⟨r, hr, h1, h2⟩
  · have hall : ∀ i : Fin rows, b i j ≠ Cell.empty := by
      intro i hi
      apply h2 i.val (hmem i)
      rw [cellAt_fin, hi]
    refine ⟨⟨fun _ => hall, fun _ => h1⟩, ?_⟩
    rintro ⟨i, hi⟩
    exact absurd hi (hall i)
  · have hr' : r < rows := by simpa using hr
    have hempty : b ⟨r, hr'⟩ j = Cell.empty := by
      have := hcell r hr
      rw [h2] at this
      exact (Option.some.inj this).symm
    refine ⟨⟨fun h => ?_, fun h => absurd hempty (h ⟨r, hr'⟩)⟩, ?_⟩
    · rw [h1] at h
      omega
    · intro _
      refine ⟨⟨r, hr'⟩, h1, hempty, ?_⟩
      intro i' hi'
      by_contra hcon
      have hgt : i'.val > r := by
        have : ¬ i'.val ≤ r := fun h => hcon (Fin.mk_le_mk.2 h)
        omega
      apply getLowestEmptyRowFrom_first b (j.val : Int) (List.range rows).reverse (by decide) r h1
        i'.val (hmem i') hgt
      rw [cellAt_fin, hi']

/-- C25: for every board, `isBoardFull()` is true exactly when `isValidMove(col)`
is false for every column `0..6`; and `isValidMove(col)` is true exactly when
`col` is in range and the top cell (row 0) of the column is empty. -/
theorem isBoardFull_iff_no_valid (b : Board) :
    (isBoardFull b = true ↔
      ∀ col : Int, 0 ≤ col → col < cols → isValidMove b col = false) ∧
    (∀ col : Int, isValidMove b col = true ↔
      (0 ≤ col ∧ col < cols ∧ cellAt b 0 col = some Cell.empty)) := by
  have hvalid : ∀ col : Int, isValidMove b col = true ↔
      (0 ≤ col ∧ col < cols ∧ cellAt b 0 col = some Cell.empty) := by
    intro col
    rw [isValidMove_iff]
    constructor
    · intro h
      have hr := (cellAt_isSome_iff b 0 col).1 ⟨_, h⟩
      exact ⟨hr.2.2.1, hr.2.2.2, h⟩
    · exact fun h => h.2.2
  refine ⟨?_, hvalid⟩
  constructor
  · intro hfull col h0 h1
    rw [Bool.eq_false_iff]
    intro hv
    by_cases hf : isBoardFull b = false
    · rw [hfull] at hf
      exact Bool.noConfusion hf
    · have h0' := (isValidMove_iff b col).1 hv
      obtain ⟨i, j, hi, hj, hij⟩ := (cellAt_eq_some_iff b 0 col _).1 h0'
      have hi0 : i = 0 := Fin.ext (by simpa using hi)
      subst hi0
      unfold isBoardFull at hfull
      rw [List.all_eq_true] at hfull
      have := hfull j (List.mem_finRange j)
      simp [hij] at this
  · intro hall
    by_contra hcon
    have hf : isBoardFull b = false := by simpa using hcon
    have hne := legalColumns_ne_nil b hf
    obtain ⟨c, rest, hc⟩ := List.exists_cons_of_ne_nil hne
    have hmem : c ∈ legalColumns b := by rw [hc]; exact List.mem_cons_self _ _
    unfold legalColumns at hmem
    obtain ⟨hrange, hv⟩ := List.mem_filter.1 hmem
    have hlt := List.mem_range.1 hrange
    have := hall (c : Int) (by omega) (by exact_mod_cast hlt)
    rw [this] at hv
    exact Bool.noConfusion hv

/-! ## Leaves of the search and finiteness of its values -/

/-- C28: on a board where `checkBoardWinner` finds no winner, if `depth` is 0
or the board is full then `minimax(depth, isMaximizing, alpha, beta)` returns
exactly the value of `evaluateBoard()` on that board and leaves the board as it
is, for either value of `isMaximizing` and every `alpha` and `beta`. -/
theorem minimax_leaf (b : Board) (depth : Nat) (isMaximizing : Bool) (alpha beta : Score)
    (hw : checkBoardWinner b = some none) (hleaf : depth = 0 ∨ isBoardFull b = true) :
    ∃ n : Int, evaluateBoard b = some n ∧
      minimax depth isMaximizing alpha beta b = some (Score.ofInt n, b) := by
  refine ⟨_, evaluateBoard_eq b, ?_⟩
  cases depth with
  | zero => simp [minimax, hw, evaluateLeaf, evaluateBoard_eq]
  | succ d =>
    rcases hleaf with h | h
    · exact absurd h (Nat.succ_ne_zero d)
    · simp [minimax, hw, evaluateLeaf, evaluateBoard_eq, h]

theorem minimax_leaf_witness :
    checkBoardWinner initializeBoard = some none ∧
    ((0 : Nat) = 0 ∨ isBoardFull initializeBoard = true) ∧
    ∃ n : Int, evaluateBoard initializeBoard = some n ∧
      minimax 0 true ⊥ ⊤ initializeBoard = some (Score.ofInt n, initializeBoard) :=
  ⟨by decide, Or.inl rfl, minimax_leaf initializeBoard 0 true ⊥ ⊤ (by decide) (Or.inl rfl)⟩

theorem max_finite (n : Int) (ms : Score) (h : (∃ k : Int, ms = Score.ofInt k) ∨ ms = ⊥) :
    ∃ k : Int, max (Score.ofInt n) ms = Score.ofInt k := by
  rcases h with ⟨k, rfl⟩ | rfl
  · rcases max_choice (Score.ofInt n) (Score.ofInt k) with h | h
    · exact ⟨n, h⟩
    · exact ⟨k, h⟩
  · exact ⟨n, max_bot_right _⟩

theorem min_finite (n : Int) (ms : Score) (h : (∃ k : Int, ms = Score.ofInt k) ∨ ms = ⊤) :
    ∃ k : Int, min (Score.ofInt n) ms = Score.ofInt k := by
  rcases h with ⟨k, rfl⟩ | rfl
  · rcases min_choice (Score.ofInt n) (Score.ofInt k) with h | h
    · exact ⟨n, h⟩
    · exact ⟨k, h⟩
  · exact ⟨n, min_top_right _⟩

/-- The maximizing loop returns a finite score as soon as the running maximum
is finite or a legal column is still to be visited. -/
theorem maxLoop_finite (recurse : Score → Score → Board → Option (Score × Board))
    (hrec : ∀ alpha beta b, ∃ n : Int, recurse alpha beta b = some (Score.ofInt n, b))
    (beta : Score) (l : List Nat) :
    ∀ maxScore alpha b,
      ((∃ k : Int, maxScore = Score.ofInt k) ∨
        (maxScore = ⊥ ∧ ∃ col ∈ l, isValidMove b (col : Nat) = true)) →
      ∃ n : Int, maxLoop recurse beta l maxScore alpha b = some (Score.ofInt n, b) := by
  induction l with
  | nil =>
    intro maxScore alpha b h
    rcases h with ⟨k, rfl⟩ | ⟨_, col, hcol, _⟩
    · exact ⟨k, rfl⟩
    · exact absurd hcol (List.not_mem_nil _)
  | cons col rest ih =>
    intro maxScore alpha b h
    unfold maxLoop
    by_cases hv : isValidMove b col = true
    · obtain ⟨b1, h1, h2⟩ := place_undo b col Cell.disc2 hv
      obtain ⟨n, hn⟩ := hrec alpha beta b1
      have hfin : ∃ k : Int, max (Score.ofInt n) maxScore = Score.ofInt k := by
        apply max_finite
        rcases h with h | h
        · exact Or.inl h
        · exact Or.inr h.1
      simp only [hv, if_true, h1, Option.some_bind, hn, h2]
      split
      · obtain ⟨k, hk⟩ := hfin
        exact ⟨k, by rw [hk]⟩
      · exact ih _ _ _ (Or.inl hfin)
    · simp only [hv, Bool.false_eq_true, if_false]
      apply ih
      rcases h with h | ⟨hbot, c, hc, hcv⟩
      · exact Or.inl h
      · refine Or.inr ⟨hbot, c, ?_, hcv⟩
        rcases List.mem_cons.1 hc with rfl | hc
        · exact absurd hcv hv
        · exact hc

/-- The minimizing loop returns a finite score as soon as the running minimum
is finite or a legal column is still to be visited. -/
theorem minLoop_finite (recurse : Score → Score → Board → Option (Score × Board))
    (hrec : ∀ alpha beta b, ∃ n : Int, recurse alpha beta b = some (Score.ofInt n, b))
    (alpha : Score) (l : List Nat) :
    ∀ minScore beta b,
      ((∃ k : Int, minScore = Score.ofInt k) ∨
        (minScore = ⊤ ∧ ∃ col ∈ l, isValidMove b (col : Nat) = true)) →
      ∃ n : Int, minLoop recurse alpha l minScore beta b = some (Score.ofInt n, b) := by
  induction l with
  | nil =>
    intro minScore beta b h
    rcases h with ⟨k, rfl⟩ | ⟨_, col, hcol, _⟩
    · exact ⟨k, rfl⟩
    · exact absurd hcol (List.not_mem_nil _)
  | cons col rest ih =>
    intro minScore beta b h
    unfold minLoop
    by_cases hv : isValidMove b col = true
    · obtain ⟨b1, h1, h2⟩ := place_undo b col Cell.disc1 hv
      obtain ⟨n, hn⟩ := hrec alpha beta b1
      have hfin : ∃ k : Int, min (Score.ofInt n) minScore = Score.ofInt k := by
        apply min_finite
        rcases h with h | h
        · exact Or.inl h
        · exact Or.inr h.1
      simp only [hv, if_true, h1, Option.some_bind, hn, h2]
      split
      · obtain ⟨k, hk⟩ := hfin
        exact ⟨k, by rw [hk]⟩
      · exact ih _ _ _ (Or.inl hfin)
    · simp only [hv, Bool.false_eq_true, if_false]
      apply ih
      rcases h with h | ⟨htop, c, hc, hcv⟩
      · exact Or.inl h
      · refine Or.inr ⟨htop, c, ?_, hcv⟩
        rcases List.mem_cons.1 hc with rfl | hc
        · exact absurd hcv hv
        · exact hc

/-- A board that is not full has a legal column among `0..6`. -/
theorem exists_legal_column (b : Board) (h : isBoardFull b = false) :
    ∃ col ∈ List.range cols, isValidMove b (col : Nat) = true := by
  obtain ⟨c, rest, hc⟩ := List.exists_cons_of_ne_nil (legalColumns_ne_nil b h)
  have hmem : c ∈ legalColumns b := by rw [hc]; exact List.mem_cons_self _ _
  unfold legalColumns at hmem
  obtain ⟨hrange, hv⟩ := List.mem_filter.1 hmem
  exact ⟨c, hrange, hv⟩

/-- C29: for every board, every depth and every `alpha` and `beta` (so for
every `alpha < beta`, and for `alpha = -Infinity`, `beta = Infinity`), `minimax`
returns, and the score it returns is a finite integer, never one of the
sentinels `-Infinity` and `Infinity`; for whenever the board is not full one of
the columns `0..6` is legal, so the move loop explores at least one column
before it can prune. -/
theorem minimax_finite (depth : Nat) (isMaximizing : Bool) (alpha beta : Score) (b : Board) :
    (∃ n : Int, minimax depth isMaximizing alpha beta b = some (Score.ofInt n, b)) ∧
    (isBoardFull b = false → ∃ col ∈ List.range cols, isValidMove b (col : Nat) = true) := by
  refine ⟨?_, exists_legal_column b⟩
  induction depth generalizing isMaximizing alpha beta b with
  | zero =>
    obtain ⟨w, hw⟩ := checkBoardWinner_total b
    obtain ⟨n, hn⟩ := evaluateLeaf_eq b
    simp only [minimax, hw, Option.some_bind]
    split
    · exact ⟨_, rfl⟩
    · split
      · exact ⟨_, rfl⟩
      · exact ⟨_, hn⟩
  | succ d ih =>
    obtain ⟨w, hw⟩ := checkBoardWinner_total b
    obtain ⟨n, hn⟩ := evaluateLeaf_eq b
    simp only [minimax, hw, Option.some_bind]
    split
    · exact ⟨_, rfl⟩
    · split
      · exact ⟨_, rfl⟩
      · split
        · exact ⟨_, hn⟩
        · rename_i hfull
          have hlegal := exists_legal_column b (by simpa using hfull)
          split
          · exact maxLoop_finite _ (fun a b' c => ih false a b' c) _ _ _ _ _
              (Or.inr ⟨rfl, hlegal⟩)
          · exact minLoop_finite _ (fun a b' c => ih true a b' c) _ _ _ _ _
              (Or.inr ⟨rfl, hlegal⟩)

/-! ## The full-board scan against the test seeded by the last move -/

/-- For a cell that holds a disc, `checkWin` returns a result, and the result is
`true` exactly when the cell lies in a run of at least 4 along some axis. -/
theorem checkWin_disc (b : Board) (row col : Int) (v : Cell)
    (hcell : cellAt b row col = some v) (hv : v = Cell.disc1 ∨ v = Cell.disc2) :
    ∃ r, checkWin b row col = some r ∧
      (r = true ↔ ∃ d ∈ axes, HasRun b v row col d.1 d.2) := by
  have hnum : (v == Cell.empty || !v.isNumber) = false := by
    rcases hv with rfl | rfl <;> rfl
  have hcw : checkWin b row col
      = some (directions.any fun d => decide (axisCount b v row col d.1 d.2 ≥ 4)) := by
    simp only [checkWin, hcell, Option.bind_eq_bind, Option.some_bind, hnum]
    rfl
  refine ⟨_, hcw, ?_⟩
  simp only [directions, axes, List.any_eq_true, decide_eq_true_eq, ge_iff_le,
    axisCount_ge_four_iff b v row col _ _ hcell]

/-- What the scan of `checkBoardWinner` returns: `null` when no visited disc
cell passes `checkWin`, and otherwise the value of a visited disc cell that
passes it. -/
theorem checkBoardWinnerFrom_spec (b : Board) (l : List (Nat × Nat))
    (hl : ∀ p ∈ l, p.1 < rows ∧ p.2 < cols) :
    (checkBoardWinnerFrom b l = some none ∧
      ∀ p ∈ l, ∀ v, cellAt b (p.1 : Nat) (p.2 : Nat) = some v →
        v = Cell.disc1 ∨ v = Cell.disc2 → checkWin b (p.1 : Nat) (p.2 : Nat) = some false) ∨
    (∃ p ∈ l, ∃ v, checkBoardWinnerFrom b l = some (some v) ∧
      cellAt b (p.1 : Nat) (p.2 : Nat) = some v ∧ (v = Cell.disc1 ∨ v = Cell.disc2) ∧
      checkWin b (p.1 : Nat) (p.2 : Nat) = some true) := by
  induction l with
  | nil => exact Or.inl ⟨rfl, fun p hp => absurd hp (List.not_mem_nil _)⟩
  | cons p rest ih =>
    obtain ⟨row, col⟩ := p
    obtain ⟨hr, hc⟩ := hl (row, col) (List.mem_cons_self _ _)
    have ih' := ih (fun q hq => hl q (List.mem_cons_of_mem _ hq))
    have hcell := cellAt_nat b row col hr hc
    obtain ⟨won, hwon⟩ := checkWin_total b ⟨row, hr⟩ ⟨col, hc⟩
    simp only at hwon
    simp only [checkBoardWinnerFrom, hcell, Option.some_bind]
    by_cases hd : b ⟨row, hr⟩ ⟨col, hc⟩ = Cell.disc1 ∨ b ⟨row, hr⟩ ⟨col, hc⟩ = Cell.disc2
    · have hd' : (b ⟨row, hr⟩ ⟨col, hc⟩ == Cell.disc1 || b ⟨row, hr⟩ ⟨col, hc⟩ == Cell.disc2)
          = true := by
        simpa using hd
      simp only [hd', if_true, hwon, Option.some_bind]
      cases won with
      | true =>
        refine Or.inr ⟨(row, col), List.mem_cons_self _ _, _, ?_, hcell, hd, hwon⟩
        simp
      | false =>
        simp only [Bool.false_eq_true, if_false]
        rcases ih' with ⟨h1, h2⟩ | ⟨q, hq, v, h1, h2, h3, h4⟩
        · refine Or.inl ⟨h1, ?_⟩
          intro q hq v hv hdv
          rcases List.mem_cons.1 hq with rfl | hq
          · exact hwon
          · exact h2 q hq v hv hdv
        · exact Or.inr ⟨q, List.mem_cons_of_mem _ hq, v, h1, h2, h3, h4⟩
    · have hd' : (b ⟨row, hr⟩ ⟨col, hc⟩ == Cell.disc1 || b ⟨row, hr⟩ ⟨col, hc⟩ == Cell.disc2)
          = false := by
        simpa using hd
      simp only [hd', Bool.false_eq_true, if_false]
      rcases ih' with ⟨h1, h2⟩ | ⟨q, hq, v, h1, h2, h3, h4⟩
      · refine Or.inl ⟨h1, ?_⟩
        intro q hq v hv hdv
        rcases List.mem_cons.1 hq with rfl | hq
        · rw [hcell] at hv
          rw [← Option.some.inj hv] at hdv
          exact absurd hdv hd
        · exact h2 q hq v hv hdv
      · exact Or.inr ⟨q, List.mem_cons_of_mem _ hq, v, h1, h2, h3, h4⟩

theorem mem_allCells (i : Fin rows) (j : Fin cols) : (i.val, j.val) ∈ allCells := by
  unfold allCells
  rw [List.pair_mem_product]
  exact ⟨List.mem_range.2 i.isLt, List.mem_range.2 j.isLt⟩

theorem allCells_inRange : ∀ p ∈ allCells, p.1 < rows ∧ p.2 < cols := by
  intro p hp
  unfold allCells at hp
  obtain ⟨a, c⟩ := p
  rw [List.pair_mem_product] at hp
  exact ⟨List.mem_range.1 hp.1, List.mem_range.1 hp.2⟩

/-- `checkBoardWinner` returns `null` exactly when no disc cell passes
`checkWin`. -/
theorem checkBoardWinner_none_iff (b : Board) :
    checkBoardWinner b = some none ↔
      ∀ (i : Fin rows) (j : Fin cols), b i j = Cell.disc1 ∨ b i j = Cell.disc2 →
        checkWin b (i.val : Int) (j.val : Int) = some false := by
  unfold checkBoardWinner
  constructor
  · intro h i j hd
    rcases checkBoardWinnerFrom_spec b allCells allCells_inRange with
      ⟨_, h2⟩ | ⟨q, _, v, h1, _⟩
    · exact h2 (i.val, j.val) (mem_allCells i j) _ (cellAt_fin b i j) hd
    · rw [h] at h1
      cases h1
  · intro h
    rcases checkBoardWinnerFrom_spec b allCells allCells_inRange with
      ⟨h1, _⟩ | ⟨q, hq, v, _, h2, h3, h4⟩
    · exact h1
    · obtain ⟨hr, hc⟩ := allCells_inRange q hq
      have hcell := cellAt_nat b q.1 q.2 hr hc
      rw [hcell] at h2
      have hv := Option.some.inj h2
      have := h ⟨q.1, hr⟩ ⟨q.2, hc⟩ (by rw [hv]; exact h3)
      simp only at this
      rw [this] at h4
      cases h4

/-- When `checkBoardWinner` returns a player, a cell of that player passes
`checkWin`. -/
theorem checkBoardWinner_some (b : Board) (v : Cell) (h : checkBoardWinner b = some (some v)) :
    ∃ (i : Fin rows) (j : Fin cols), b i j = v ∧ (v = Cell.disc1 ∨ v = Cell.disc2) ∧
      checkWin b (i.val : Int) (j.val : Int) = some true := by
  unfold checkBoardWinner at h
  rcases checkBoardWinnerFrom_spec b allCells allCells_inRange with
    ⟨h1, _⟩ | ⟨q, hq, v', h1, h2, h3, h4⟩
  · rw [h] at h1
    cases h1
  · rw [h] at h1
    have hv : v = v' := Option.some.inj (Option.some.inj h1)
    subst hv
    obtain ⟨hr, hc⟩ := allCells_inRange q hq
    have hcell := cellAt_nat b q.1 q.2 hr hc
    rw [hcell] at h2
    exact ⟨⟨q.1, hr⟩, ⟨q.2, hc⟩, Option.some.inj h2, h3, h4⟩

/-- A run on the board after a write either avoids the written cell, and then
it was a run before the write, or it passes through the written cell, and then
it is a run through that cell for the written value. -/
theorem hasRun_after_write (b b1 : Board) (i0 : Fin rows) (j0 : Fin cols) (v0 q : Cell)
    (hat : b1 i0 j0 = v0) (hother : ∀ i j, ¬ (i = i0 ∧ j = j0) → b1 i j = b i j)
    (hv0 : v0 ≠ Cell.wild) (row col dx dy : Int) (h : HasRun b1 q row col dx dy) :
    HasRun b q row col dx dy ∨
      (q = v0 ∧ HasRun b1 v0 (i0.val : Int) (j0.val : Int) dx dy) := by
  obtain ⟨lo, hi, hlo, hhi, hlen, hall⟩ := h
  have hread : ∀ r c : Int, ¬ (r = (i0.val : Int) ∧ c = (j0.val : Int)) →
      cellAt b1 r c = cellAt b r c := by
    intro r c hne
    unfold cellAt
    split
    · rename_i hr
      congr 1
      apply hother
      rintro ⟨h1, h2⟩
      apply hne
      constructor
      · have := congrArg Fin.val h1
        simp only at this
        omega
      · have := congrArg Fin.val h2
        simp only at this
        omega
    · rfl
  have hcell : cellAt b1 (i0.val : Int) (j0.val : Int) = some v0 := by
    rw [cellAt_fin, hat]
  by_cases hthrough : ∃ t : Int, lo ≤ t ∧ t ≤ hi ∧ row + dx * t = (i0.val : Int) ∧
      col + dy * t = (j0.val : Int)
  · obtain ⟨t0, h1, h2, h3, h4⟩ := hthrough
    have hq : q = v0 := by
      have := hall t0 h1 h2
      rw [h3, h4, hcell] at this
      rcases this with h | h
      · exact (Option.some.inj h).symm
      · exact absurd (Option.some.inj h) hv0
    subst hq
    refine Or.inr ⟨rfl, lo - t0, hi - t0, by omega, by omega, by omega, ?_⟩
    intro t ht1 ht2
    have := hall (t0 + t) (by omega) (by omega)
    have e1 : row + dx * (t0 + t) = (i0.val : Int) + dx * t := by rw [← h3]; ring
    have e2 : col + dy * (t0 + t) = (j0.val : Int) + dy * t := by rw [← h4]; ring
    rw [e1, e2] at this
    exact this
  · refine Or.inl ⟨lo, hi, hlo, hhi, hlen, ?_⟩
    intro t ht1 ht2
    have := hall t ht1 ht2
    rw [hread _ _ (fun hc => hthrough ⟨t, ht1, ht2, hc.1, hc.2⟩)] at this
    exact this

/-- After a disc is written over an empty cell of a board without a winner,
`checkBoardWinner` returns that disc when `checkWin` passes at the written
cell, and `null` otherwise. -/
theorem checkBoardWinner_after_write (b b1 : Board) (i0 : Fin rows) (j0 : Fin cols) (v0 : Cell)
    (hat : b1 i0 j0 = v0) (hother : ∀ i j, ¬ (i = i0 ∧ j = j0) → b1 i j = b i j)
    (hv0 : v0 = Cell.disc1 ∨ v0 = Cell.disc2) (hw : checkBoardWinner b = some none) :
    ∃ won, checkWin b1 (i0.val : Int) (j0.val : Int) = some won ∧
      checkBoardWinner b1 = some (if won then some v0 else none) := by
  have hwild : v0 ≠ Cell.wild := by rcases hv0 with rfl | rfl <;> decide
  obtain ⟨won, hwon, hiff⟩ := checkWin_disc b1 (i0.val : Int) (j0.val : Int) v0
    (by rw [cellAt_fin, hat]) hv0
  refine ⟨won, hwon, ?_⟩
  have hkey : ∀ (i : Fin rows) (j : Fin cols) (q : Cell), b1 i j = q →
      (q = Cell.disc1 ∨ q = Cell.disc2) →
      checkWin b1 (i.val : Int) (j.val : Int) = some true → q = v0 ∧ won = true := by
    intro i j q hq hqd hcw
    obtain ⟨r, hr, hriff⟩ := checkWin_disc b1 (i.val : Int) (j.val : Int) q
      (by rw [cellAt_fin, hq]) hqd
    rw [hcw] at hr
    have hrt : r = true := (Option.some.inj hr).symm
    obtain ⟨d, hd, hrun⟩ := hriff.1 hrt
    rcases hasRun_after_write b b1 i0 j0 v0 q hat hother hwild _ _ _ _ hrun with
      hold | ⟨hqv, hnew⟩
    · by_cases hij : i = i0 ∧ j = j0
      · obtain ⟨rfl, rfl⟩ := hij
        have hqv : q = v0 := by rw [← hq, hat]
        subst hqv
        exact ⟨rfl, hiff.2 ⟨d, hd, hrun⟩⟩
      · have hbq : b i j = q := by rw [← hq, hother i j hij]
        exfalso
        have hno := (checkBoardWinner_none_iff b).1 hw i j (by rw [hbq]; exact hqd)
        obtain ⟨r', hr', hriff'⟩ := checkWin_disc b (i.val : Int) (j.val : Int) q
          (by rw [cellAt_fin, hbq]) hqd
        rw [hno] at hr'
        have : r' = true := hriff'.2 ⟨d, hd, hold⟩
        rw [this] at hr'
        cases hr'
    · exact ⟨hqv, hiff.2 ⟨d, hd, hnew⟩⟩
  obtain ⟨w, hwres⟩ := checkBoardWinner_total b1
  rw [hwres]
  cases w with
  | none =>
    cases won with
    | false => rfl
    | true =>
      exfalso
      have := (checkBoardWinner_none_iff b1).1 hwres i0 j0 (by rw [hat]; exact hv0)
      rw [this] at hwon
      cases hwon
  | some q =>
    obtain ⟨i, j, hq, hqd, hcw⟩ := checkBoardWinner_some b1 q hwres
    obtain ⟨hqv, hwt⟩ := hkey i j q hq hqd hcw
    rw [hqv, hwt]
    rfl

/-- C27: on a board where `checkBoardWinner` finds no winner, after a disc of
player `p` is dropped into a legal column at its landing cell `(row, col)`,
`checkBoardWinner` returns `p` if and only if `checkWin(row, col)` is true; it
returns `null` when `checkWin(row, col)` is false, and it never returns the
other player. -/
theorem checkBoardWinner_seeded (b : Board) (col : Int) (p : Player)
    (hw : checkBoardWinner b = some none) (hv : isValidMove b col = true) :
    ∃ b1 won, setCell b (getLowestEmptyRow b col) col p.disc = some b1 ∧
      checkWin b1 (getLowestEmptyRow b col) col = some won ∧
      (checkBoardWinner b1 = some (some p.disc) ↔ won = true) ∧
      (checkBoardWinner b1 = some none ↔ won = false) ∧
      (∀ q : Player, q ≠ p → checkBoardWinner b1 ≠ some (some q.disc)) := by
  obtain ⟨i, j, hi, hj, hempty, _⟩ := landing_cell b col hv
  have hd : p.disc = Cell.disc1 ∨ p.disc = Cell.disc2 := by
    cases p
    · exact Or.inl rfl
    · exact Or.inr rfl
  obtain ⟨won, hwon, hres⟩ := checkBoardWinner_after_write b
    (fun i' j' => if i' = i ∧ j' = j then p.disc else b i' j') i j p.disc (by simp)
    (fun i' j' hne => by simp [hne]) hd hw
  refine ⟨fun i' j' => if i' = i ∧ j' = j then p.disc else b i' j', won, ?_, ?_, ?_, ?_, ?_⟩
  · rw [← hi, ← hj]
    exact setCell_fin b i j p.disc
  · rw [← hi, ← hj]
    exact hwon
  · rw [hres]
    cases won <;> simp
  · rw [hres]
    cases won <;> simp
  · intro q hq
    rw [hres]
    cases won
    · simp
    · cases p <;> cases q <;> simp_all [Player.disc]

theorem checkBoardWinner_seeded_witness :
    checkBoardWinner threeInRowGame.board = some none ∧
    isValidMove threeInRowGame.board 3 = true ∧
    ∃ b1 won, setCell threeInRowGame.board (getLowestEmptyRow threeInRowGame.board 3) 3
        Player.one.disc = some b1 ∧
      checkWin b1 (getLowestEmptyRow threeInRowGame.board 3) 3 = some won ∧
      (checkBoardWinner b1 = some (some Player.one.disc) ↔ won = true) ∧
      (checkBoardWinner b1 = some none ↔ won = false) ∧
      (∀ q : Player, q ≠ Player.one → checkBoardWinner b1 ≠ some (some q.disc)) :=
  ⟨by decide, by decide,
    checkBoardWinner_seeded threeInRowGame.board 3 Player.one (by decide) (by decide)⟩

/-! ## Moves whose outcome or write misses the specification -/

/-- C30 fails on the code for a power-up move: in `clearScenario` column 3 is
legal before the Clear Row move, `getLowestEmptyRow(3)` is 5 and the cell
`(5, 3)` is empty, with `'bomb'` floating at `(4, 3)`; but `usePowerUp` runs
before the write, `dropPieces` lets the `'bomb'` fall to `(5, 3)`, and `makeMove`
then writes `'clear'` at `(5, 3)`, a cell that is occupied at the time of the
write, so the `'bomb'` piece is overwritten. -/
theorem clearMove_overwrites :
    clearScenario.map (fun p => (isValidMove p.1.board 3, getLowestEmptyRow p.1.board 3,
        p.1.board 5 3, p.1.board 4 3, p.1.activePowerUp))
      = some (true, 5, Cell.empty, Cell.bomb, some PowerUp.clear) ∧
    clearScenario.map (fun p => (p.2.1.board 5 3, p.2.1.board 4 3, p.2.2.board 5 3,
        p.2.2.board 4 3))
      = some (Cell.bomb, Cell.empty, Cell.clear, Cell.empty) := by
  constructor <;> decide

/-- C26 fails on the code: in `drawScenario` the game is in progress, player 2
has the Wild selected and column 2 is legal; the move fills the last empty cell
`(0, 2)` with `'wild'`, which completes a horizontal run of four for player 2
(`checkBoardWinner` finds player 2 on the full board), yet the outcome the move
computes is Draw. -/
theorem wildMove_draw_with_winner :
    drawScenario.map (fun p => (p.1.gameState, p.1.currentPlayer, p.1.activePowerUp,
        isValidMove p.1.board 2))
      = some (GameState.playing, Player.two, some PowerUp.wild, true) ∧
    drawScenario.map (fun p => (p.2.1, p.2.2.board 0 2, isBoardFull p.2.2.board,
        checkBoardWinner p.2.2.board))
      = some (some Outcome.draw, Cell.wild, true, some (some Cell.disc2)) := by
  constructor <;> decide

/-! ## The random branch of `getBestMove` -/

theorem roundHalfEven_ge (y : ℚ) (m : Int) (h : (m : ℚ) ≤ y) : m ≤ roundHalfEven y := by
  have hf : m ≤ ⌊y⌋ := Int.le_floor.2 h
  unfold roundHalfEven
  split_ifs <;> omega

theorem roundHalfEven_le (y : ℚ) (m : Int) (h : y ≤ (m : ℚ)) : roundHalfEven y ≤ m := by
  have hf : ⌊y⌋ ≤ m := by
    have h' : (⌊y⌋ : ℚ) ≤ (m : ℚ) := (Int.floor_le y).trans h
    exact_mod_cast h'
  by_cases hint : (⌊y⌋ : ℚ) = y
  · unfold roundHalfEven
    rw [if_pos (by rw [hint]; norm_num)]
    exact hf
  · have hlt : (⌊y⌋ : ℚ) < y := lt_of_le_of_ne (Int.floor_le y) hint
    have hlt' : (⌊y⌋ : ℚ) < (m : ℚ) := lt_of_lt_of_le hlt h
    have : ⌊y⌋ < m := by exact_mod_cast hlt'
    unfold roundHalfEven
    split_ifs <;> omega

theorem roundHalfEven_lt (y : ℚ) (m : Int) (h : y < (m : ℚ) - 1 / 2) : roundHalfEven y < m := by
  have h1 : (⌊y⌋ : ℚ) ≤ y := Int.floor_le y
  have hf : ⌊y⌋ < m := by
    have : (⌊y⌋ : ℚ) < (m : ℚ) := by linarith
    exact_mod_cast this
  by_cases hc : ⌊y⌋ = m - 1
  · have hfrac : y - ⌊y⌋ < 1 / 2 := by
      rw [hc]
      push_cast
      linarith
    unfold roundHalfEven
    rw [if_pos hfrac]
    exact hf
  · unfold roundHalfEven
    split_ifs <;> omega

/-- For `0 < x < N ≤ 2 ^ 53` the double nearest to `x` is `x`, scaled by a
power `2 ^ K` of two, rounded to an integer and scaled back; `t = 2 ^ 52 / 2 ^ K`
is the power of two of the leading bit of `x` (or `2 ^ (-1022)`). -/
theorem toDouble_scale (x N : ℚ) (hx : 0 < x) (hxN : x < N) (hN1 : 1 ≤ N) (hN : N ≤ 2 ^ 53) :
    ∃ (K : Nat) (t : ℚ), 0 < t ∧ t < N ∧ (2 : ℚ) ^ K * t = 2 ^ 52 ∧
      toDouble x = (roundHalfEven (x * 2 ^ K) : ℚ) / 2 ^ K := by
  have habs : |x| = x := abs_of_pos hx
  have hlog_le : (2 : ℚ) ^ Int.log 2 x ≤ x := by
    have := Int.zpow_log_le_self (b := 2) (r := x) (by norm_num) hx
    simpa using this
  have hlog_lt : Int.log 2 x < 53 := by
    rw [← Int.lt_zpow_iff_log_lt (b := 2) (by norm_num) hx]
    have h53 : x < (2 : ℚ) ^ (53 : ℕ) := lt_of_lt_of_le hxN hN
    have hz : (2 : ℚ) ^ (53 : ℕ) = ((2 : ℕ) : ℚ) ^ (53 : ℤ) := by norm_num
    rw [← hz]
    exact h53
  obtain ⟨e, he⟩ : ∃ e : Int, e = max (Int.log 2 x) (-1022) := ⟨_, rfl⟩
  have he52 : e ≤ 52 := by
    rw [he]
    exact max_le (by omega) (by norm_num)
  have ht : (2 : ℚ) ^ e < N := by
    rcases le_total (Int.log 2 x) (-1022) with h | h
    · have hsmall : (2 : ℚ) ^ (-1022 : ℤ) < 1 := by
        rw [zpow_neg]
        apply inv_lt_one_of_one_lt₀
        exact one_lt_zpow₀ (by norm_num) (by norm_num)
      rw [he, max_eq_right h]
      exact lt_of_lt_of_le hsmall hN1
    · rw [he, max_eq_left h]
      exact lt_of_le_of_lt hlog_le hxN
  obtain ⟨K, hK⟩ : ∃ K : Nat, (K : ℤ) = 52 - e := ⟨(52 - e).toNat, by omega⟩
  have hs : (2 : ℚ) ^ (52 - e) = 2 ^ K := by
    rw [← hK, zpow_natCast]
  refine ⟨K, (2 : ℚ) ^ e, by positivity, ht, ?_, ?_⟩
  · rw [← hs, ← zpow_add₀ (by norm_num : (2 : ℚ) ≠ 0)]
    have : 52 - e + e = ((52 : ℕ) : ℤ) := by push_cast; ring
    rw [this, zpow_natCast]
  · unfold toDouble
    rw [if_neg (ne_of_gt hx), habs, ← he, hs]

/-- Rounding to a double does not cross an integer: below. -/
theorem toDouble_ge (x : ℚ) (m : Int) (hx0 : 0 ≤ x) (h53 : x < 2 ^ 53) (h : (m : ℚ) ≤ x) :
    (m : ℚ) ≤ toDouble x := by
  rcases eq_or_lt_of_le hx0 with h0 | hx
  · unfold toDouble
    rw [if_pos h0.symm]
    rw [← h0] at h
    exact h
  obtain ⟨K, t, _, _, _, hd⟩ := toDouble_scale x (2 ^ 53) hx h53 (by norm_num) (le_refl _)
  rw [hd, le_div_iff₀ (by positivity)]
  have hm : ((m * 2 ^ K : Int) : ℚ) ≤ x * 2 ^ K := by
    push_cast
    exact mul_le_mul_of_nonneg_right h (by positivity)
  have := roundHalfEven_ge _ _ hm
  have hc : ((m * 2 ^ K : Int) : ℚ) ≤ (roundHalfEven (x * 2 ^ K) : ℚ) := by exact_mod_cast this
  push_cast at hc
  exact hc

/-- Rounding to a double does not cross an integer: above. -/
theorem toDouble_le (x : ℚ) (m : Int) (hx0 : 0 ≤ x) (h53 : x < 2 ^ 53) (h : x ≤ (m : ℚ)) :
    toDouble x ≤ (m : ℚ) := by
  rcases eq_or_lt_of_le hx0 with h0 | hx
  · unfold toDouble
    rw [if_pos h0.symm]
    rw [← h0] at h
    exact h
  obtain ⟨K, t, _, _, _, hd⟩ := toDouble_scale x (2 ^ 53) hx h53 (by norm_num) (le_refl _)
  rw [hd, div_le_iff₀ (by positivity)]
  have hm : x * 2 ^ K ≤ ((m * 2 ^ K : Int) : ℚ) := by
    push_cast
    exact mul_le_mul_of_nonneg_right h (by positivity)
  have := roundHalfEven_le _ _ hm
  have hc : (roundHalfEven (x * 2 ^ K) : ℚ) ≤ ((m * 2 ^ K : Int) : ℚ) := by exact_mod_cast this
  push_cast at hc
  exact hc

/-- A product that stays below the integer `N` by the relative distance
`2 ^ (-53)` is rounded to a double below `N`. -/
theorem toDouble_lt (x : ℚ) (N : Nat) (hx : 0 ≤ x) (hN1 : 1 ≤ N) (hN : (N : ℚ) ≤ 2 ^ 53)
    (h : x ≤ (N : ℚ) * (1 - 1 / 2 ^ 53)) : toDouble x < (N : ℚ) := by
  have hNpos : (0 : ℚ) < (N : ℚ) := by exact_mod_cast hN1
  rcases eq_or_lt_of_le hx with h0 | hpos
  · unfold toDouble
    rw [if_pos h0.symm]
    exact hNpos
  have hxN : x < (N : ℚ) := by
    have : (N : ℚ) * (1 - 1 / 2 ^ 53) < (N : ℚ) := by
      have : (0 : ℚ) < (N : ℚ) * (1 / 2 ^ 53) := by positivity
      linarith
    linarith
  obtain ⟨K, t, ht0, htN, hKt, hd⟩ := toDouble_scale x N hpos hxN (by exact_mod_cast hN1) hN
  rw [hd, div_lt_iff₀ (by positivity)]
  have hgap : (N : ℚ) * 2 ^ K * (1 / 2 ^ 53) > 1 / 2 := by
    have h2K : (2 : ℚ) ^ K = 2 ^ 52 / t := by
      rw [eq_div_iff (ne_of_gt ht0)]
      exact hKt
    rw [h2K]
    have : (N : ℚ) * (2 ^ 52 / t) * (1 / 2 ^ 53) = (N : ℚ) / t * (1 / 2) := by
      field_simp
      ring
    rw [this]
    have : 1 < (N : ℚ) / t := by
      rw [lt_div_iff₀ ht0]
      linarith
    linarith
  have hy : x * 2 ^ K < ((N * 2 ^ K : Int) : ℚ) - 1 / 2 := by
    push_cast
    have h1 : x * 2 ^ K ≤ (N : ℚ) * (1 - 1 / 2 ^ 53) * 2 ^ K :=
      mul_le_mul_of_nonneg_right h (by positivity)
    have h2 : (N : ℚ) * (1 - 1 / 2 ^ 53) * 2 ^ K
        = (N : ℚ) * 2 ^ K - (N : ℚ) * 2 ^ K * (1 / 2 ^ 53) := by ring
    linarith
  have := roundHalfEven_lt _ _ hy
  have hc : (roundHalfEven (x * 2 ^ K) : ℚ) < ((N * 2 ^ K : Int) : ℚ) := by exact_mod_cast this
  push_cast at hc
  exact hc

theorem toDouble_nonneg (x : ℚ) (hx : 0 ≤ x) (h53 : x < 2 ^ 53) : 0 ≤ toDouble x := by
  have := toDouble_ge x 0 hx h53 (by exact_mod_cast hx)
  exact_mod_cast this

/-- The value of `toDouble` at a positive `x` whose leading bit has exponent `e`. -/
theorem toDouble_eval (x : ℚ) (e : Int) (hx : 0 < x) (he : -1022 ≤ e)
    (h1 : (2 : ℚ) ^ e ≤ x) (h2 : x < (2 : ℚ) ^ (e + 1)) :
    toDouble x = (roundHalfEven (x * (2 : ℚ) ^ (52 - e)) : ℚ) / (2 : ℚ) ^ (52 - e) := by
  have hlog : Int.log 2 x = e := by
    apply le_antisymm
    · have : Int.log 2 x < e + 1 := by
        rw [← Int.lt_zpow_iff_log_lt (by norm_num) hx]
        simpa using h2
      omega
    · rw [← Int.zpow_le_iff_le_log (by norm_num) hx]
      simpa using h1
  unfold toDouble
  rw [if_neg (ne_of_gt hx), abs_of_pos hx, hlog, max_eq_left he]

/-- A tie above an odd integer is rounded up. -/
theorem roundHalfEven_tie_odd (y : ℚ) (m : Int) (h : y = (m : ℚ) + 1 / 2) (hodd : m % 2 = 1) :
    roundHalfEven y = m + 1 := by
  have hfl : ⌊y⌋ = m := by
    rw [Int.floor_eq_iff, h]
    constructor <;> linarith
  unfold roundHalfEven
  rw [hfl, h]
  have e1 : (m : ℚ) + 1 / 2 - (m : ℚ) = 1 / 2 := by ring
  rw [e1, if_neg (lt_irrefl _), if_neg (lt_irrefl _), if_neg (by omega)]

/-- An integer is its own rounding. -/
theorem roundHalfEven_int (m : Int) : roundHalfEven (m : ℚ) = m := by
  unfold roundHalfEven
  rw [Int.floor_intCast, sub_self, if_pos (by norm_num)]

theorem legalColumns_length_le (b : Board) : (legalColumns b).length ≤ cols := by
  unfold legalColumns
  exact (List.length_filter_le _ _).trans (le_of_eq (List.length_range _))

theorem getBestMove_random_eq (settings : Settings) (u v : ℚ) (b : Board)
    (hrand : u < settings.randomness) (k : Nat)
    (hk : ⌊toDouble (v * ((legalColumns b).length : ℚ))⌋ = (k : Int)) :
    getBestMove settings u v b = some (((legalColumns b).get? k).map Int.ofNat, b) := by
  unfold getBestMove
  rw [if_pos hrand]
  simp only
  have hk' : Int.floor (toDouble
      (v * (((List.range cols).filter fun col : Nat => isValidMove b col).length : ℚ)))
      = Int.ofNat k := hk
  rw [hk']
  rfl

/-- C20 (amended): in the random branch of `getBestMove` (first draw below
`settings.randomness`), on a board with `n >= 1` legal columns and for a second
draw `v` with `0 <= v <= 1 - 2^-53` (the largest double below 1), the index
`k = floor(fl(v * n))`, where `fl` rounds the product to the nearest double,
lies in `0 .. n - 1` and is `floor(v * n)` or `floor(v * n) + 1`; the result is
the legal column at index `k` of the ascending list of legal columns and the
board is untouched; the column at index `k'` is returned for every draw in
`[k' / n, (k' + 1) * (1 - 2^-53) / n]` and only for draws in
`[k' * (1 - 2^-53) / n, (k' + 1) / n)`. -/
theorem getBestMove_random (settings : Settings) (u v : ℚ) (b : Board)
    (hrand : u < settings.randomness) (hn : 1 ≤ (legalColumns b).length)
    (hv0 : 0 ≤ v) (hv1 : v ≤ 1 - 1 / 2 ^ 53) :
    ∃ (k : Nat) (hk : k < (legalColumns b).length),
      ⌊toDouble (v * ((legalColumns b).length : ℚ))⌋ = (k : Int) ∧
      (⌊v * ((legalColumns b).length : ℚ)⌋ = (k : Int) ∨
        ⌊v * ((legalColumns b).length : ℚ)⌋ + 1 = (k : Int)) ∧
      getBestMove settings u v b
        = some (some (((legalColumns b).get ⟨k, hk⟩ : Nat) : Int), b) ∧
      isValidMove b (((legalColumns b).get ⟨k, hk⟩ : Nat) : Int) = true ∧
      ∀ (k' : Nat) (hk' : k' < (legalColumns b).length),
        (((k' : ℚ) / ((legalColumns b).length : ℚ) ≤ v ∧
            v ≤ ((k' : ℚ) + 1) * (1 - 1 / 2 ^ 53) / ((legalColumns b).length : ℚ)) →
          getBestMove settings u v b
            = some (some (((legalColumns b).get ⟨k', hk'⟩ : Nat) : Int), b)) ∧
        (getBestMove settings u v b
            = some (some (((legalColumns b).get ⟨k', hk'⟩ : Nat) : Int), b) →
          ((k' : ℚ) * (1 - 1 / 2 ^ 53) / ((legalColumns b).length : ℚ) ≤ v ∧
            v < ((k' : ℚ) + 1) / ((legalColumns b).length : ℚ))) := by
  have hnpos : (0 : ℚ) < ((legalColumns b).length : ℚ) := by exact_mod_cast hn
  have hn7 : ((legalColumns b).length : ℚ) ≤ 7 := by
    exact_mod_cast legalColumns_length_le b
  have hx0 : 0 ≤ v * ((legalColumns b).length : ℚ) := mul_nonneg hv0 (le_of_lt hnpos)
  have hxn : v * ((legalColumns b).length : ℚ)
      ≤ ((legalColumns b).length : ℚ) * (1 - 1 / 2 ^ 53) := by
    rw [mul_comm]
    exact mul_le_mul_of_nonneg_left hv1 (le_of_lt hnpos)
  have hx53 : v * ((legalColumns b).length : ℚ) < 2 ^ 53 := by
    have h1 : ((legalColumns b).length : ℚ) * (1 - 1 / 2 ^ 53) ≤ 7 * 1 :=
      mul_le_mul hn7 (by norm_num) (by norm_num) (by norm_num)
    have h2 : (7 : ℚ) * 1 < 2 ^ 53 := by norm_num
    linarith
  have hsmall : ∀ N : Nat, N ≤ (legalColumns b).length → (N : ℚ) ≤ 2 ^ 53 := by
    intro N hN
    have h1 : (N : ℚ) ≤ ((legalColumns b).length : ℚ) := by exact_mod_cast hN
    have h2 : (7 : ℚ) ≤ 2 ^ 53 := by norm_num
    linarith
  have hdlt : toDouble (v * ((legalColumns b).length : ℚ)) < ((legalColumns b).length : ℚ) :=
    toDouble_lt _ _ hx0 hn (hsmall _ (le_refl _)) hxn
  have hd0 : 0 ≤ toDouble (v * ((legalColumns b).length : ℚ)) := toDouble_nonneg _ hx0 hx53
  have hfl0 : 0 ≤ ⌊toDouble (v * ((legalColumns b).length : ℚ))⌋ := Int.floor_nonneg.2 hd0
  have hfl1 : ⌊toDouble (v * ((legalColumns b).length : ℚ))⌋
      < ((legalColumns b).length : Int) := by
    rw [Int.floor_lt]
    exact_mod_cast hdlt
  obtain ⟨k, hkeq⟩ : ∃ k : Nat,
      ⌊toDouble (v * ((legalColumns b).length : ℚ))⌋ = (k : Int) :=
    ⟨⌊toDouble (v * ((legalColumns b).length : ℚ))⌋.toNat, (Int.toNat_of_nonneg hfl0).symm⟩
  have hk : k < (legalColumns b).length := by
    rw [hkeq] at hfl1
    exact_mod_cast hfl1
  have hlow : ⌊v * ((legalColumns b).length : ℚ)⌋ ≤ (k : Int) := by
    rw [← hkeq, Int.le_floor]
    exact toDouble_ge _ _ hx0 hx53 (Int.floor_le _)
  have hhigh : (k : Int) ≤ ⌊v * ((legalColumns b).length : ℚ)⌋ + 1 := by
    have h1 : toDouble (v * ((legalColumns b).length : ℚ))
        ≤ ((⌊v * ((legalColumns b).length : ℚ)⌋ + 1 : Int) : ℚ) := by
      apply toDouble_le _ _ hx0 hx53
      push_cast
      exact le_of_lt (Int.lt_floor_add_one _)
    have h2 := Int.floor_le_floor h1
    rw [Int.floor_intCast, hkeq] at h2
    exact h2
  have hres := getBestMove_random_eq settings u v b hrand k hkeq
  have hget : (legalColumns b).get? k = some ((legalColumns b).get ⟨k, hk⟩) :=
    List.get?_eq_get hk
  rw [hget] at hres
  have hnodup : (legalColumns b).Nodup := by
    unfold legalColumns
    exact List.Nodup.filter _ (List.nodup_range _)
  refine ⟨k, hk, hkeq, by omega, hres, ?_, ?_⟩
  · have hmem : (legalColumns b).get ⟨k, hk⟩ ∈ legalColumns b := List.get_mem _ _ _
    unfold legalColumns at hmem
    exact (List.mem_filter.1 hmem).2
  · intro k' hk'
    rw [hres]
    constructor
    · rintro ⟨h1, h2⟩
      rw [div_le_iff₀ hnpos] at h1
      rw [le_div_iff₀ hnpos] at h2
      have hge : ((k' : Int) : ℚ) ≤ toDouble (v * ((legalColumns b).length : ℚ)) :=
        toDouble_ge _ _ hx0 hx53 (by exact_mod_cast h1)
      have hlt : toDouble (v * ((legalColumns b).length : ℚ)) < ((k' + 1 : Nat) : ℚ) :=
        toDouble_lt _ _ hx0 (Nat.succ_le_succ (Nat.zero_le _)) (hsmall _ hk')
          (by push_cast; exact h2)
      have hfl : ⌊toDouble (v * ((legalColumns b).length : ℚ))⌋ = (k' : Int) := by
        rw [Int.floor_eq_iff]
        exact ⟨hge, by push_cast at hlt ⊢; exact hlt⟩
      have hkk : k = k' := by
        rw [hkeq] at hfl
        exact_mod_cast hfl
      subst hkk
      rfl
    · intro heq
      simp only [Option.map_some', Option.some.injEq, Prod.mk.injEq, and_true] at heq
      have hcast : (legalColumns b).get ⟨k, hk⟩ = (legalColumns b).get ⟨k', hk'⟩ :=
        Int.ofNat.inj heq
      have hkk : k = k' := by
        have := (List.Nodup.get_inj_iff hnodup).1 hcast
        exact Fin.mk.inj this
      subst hkk
      have hfl := Int.floor_eq_iff.1 hkeq
      constructor
      · rw [div_le_iff₀ hnpos]
        rcases Nat.eq_zero_or_pos k with hz | hpos
        · rw [hz]
          simpa using hx0
        · by_contra hcon
          have hle : v * ((legalColumns b).length : ℚ) ≤ (k : ℚ) * (1 - 1 / 2 ^ 53) :=
            le_of_lt (not_le.1 hcon)
          have := toDouble_lt _ k hx0 hpos (hsmall _ (le_of_lt hk)) hle
          have h3 : ((k : Int) : ℚ) ≤ toDouble (v * ((legalColumns b).length : ℚ)) := hfl.1
          have h4 : ((k : Int) : ℚ) = (k : ℚ) := by push_cast; rfl
          linarith
      · rw [lt_div_iff₀ hnpos]
        by_contra hcon
        have hle : ((k + 1 : Int) : ℚ) ≤ v * ((legalColumns b).length : ℚ) := by
          push_cast
          exact not_lt.1 hcon
        have := toDouble_ge _ _ hx0 hx53 hle
        have h3 := hfl.2
        push_cast at this h3
        linarith

theorem getBestMove_random_witness :
    (0 : ℚ) < (difficulties Difficulty.easy).randomness ∧
    1 ≤ (legalColumns threeInRowGame.board).length ∧ (0 : ℚ) ≤ 1 / 2 ∧
    (1 : ℚ) / 2 ≤ 1 - 1 / 2 ^ 53 ∧
    ∃ (k : Nat) (hk : k < (legalColumns threeInRowGame.board).length),
      ⌊toDouble ((1 / 2 : ℚ) * ((legalColumns threeInRowGame.board).length : ℚ))⌋ = (k : Int) ∧
      (⌊(1 / 2 : ℚ) * ((legalColumns threeInRowGame.board).length : ℚ)⌋ = (k : Int) ∨
        ⌊(1 / 2 : ℚ) * ((legalColumns threeInRowGame.board).length : ℚ)⌋ + 1 = (k : Int)) ∧
      getBestMove (difficulties Difficulty.easy) 0 (1 / 2) threeInRowGame.board
        = some (some (((legalColumns threeInRowGame.board).get ⟨k, hk⟩ : Nat) : Int),
            threeInRowGame.board) ∧
      isValidMove threeInRowGame.board
        (((legalColumns threeInRowGame.board).get ⟨k, hk⟩ : Nat) : Int) = true ∧
      ∀ (k' : Nat) (hk' : k' < (legalColumns threeInRowGame.board).length),
        (((k' : ℚ) / ((legalColumns threeInRowGame.board).length : ℚ) ≤ 1 / 2 ∧
            (1 / 2 : ℚ) ≤ ((k' : ℚ) + 1) * (1 - 1 / 2 ^ 53)
              / ((legalColumns threeInRowGame.board).length : ℚ)) →
          getBestMove (difficulties Difficulty.easy) 0 (1 / 2) threeInRowGame.board
            = some (some (((legalColumns threeInRowGame.board).get ⟨k', hk'⟩ : Nat) : Int),
                threeInRowGame.board)) ∧
        (getBestMove (difficulties Difficulty.easy) 0 (1 / 2) threeInRowGame.board
            = some (some (((legalColumns threeInRowGame.board).get ⟨k', hk'⟩ : Nat) : Int),
                threeInRowGame.board) →
          ((k' : ℚ) * (1 - 1 / 2 ^ 53) / ((legalColumns threeInRowGame.board).length : ℚ)
              ≤ 1 / 2 ∧
            (1 / 2 : ℚ) < ((k' : ℚ) + 1) / ((legalColumns threeInRowGame.board).length : ℚ))) :=
  ⟨by norm_num [difficulties], by decide, by norm_num, by norm_num,
    getBestMove_random (difficulties Difficulty.easy) 0 (1 / 2) threeInRowGame.board
      (by norm_num [difficulties]) (by decide) (by norm_num) (by norm_num)⟩

/-- C20 (counterexample): on the empty board (`n = 7` legal columns
`0, 1, .., 6`) the draw `v = 2573485501354569 / 2^52`, a double with
`0 <= v < 4/7 < 1`, has `floor(v * 7) = 3`, yet the product `v * 7 = 4 - 2^-52`
is rounded to the double `4`, so the random branch returns the column at
index 4, not the one at index `floor(v * n) = 3`. -/
theorem getBestMove_random_index_counterexample :
    (0 : ℚ) ≤ 2573485501354569 / 2 ^ 52 ∧ (2573485501354569 / 2 ^ 52 : ℚ) < 4 / 7 ∧
    toDouble (2573485501354569 / 2 ^ 52) = 2573485501354569 / 2 ^ 52 ∧
    legalColumns initializeBoard = [0, 1, 2, 3, 4, 5, 6] ∧
    ⌊(2573485501354569 / 2 ^ 52 : ℚ) * ((legalColumns initializeBoard).length : ℚ)⌋ = 3 ∧
    toDouble ((2573485501354569 / 2 ^ 52 : ℚ) * ((legalColumns initializeBoard).length : ℚ))
      = 4 ∧
    getBestMove (difficulties Difficulty.easy) 0 (2573485501354569 / 2 ^ 52) initializeBoard
      = some (some 4, initializeBoard) ∧
    getBestMove (difficulties Difficulty.easy) 0 (2573485501354569 / 2 ^ 52) initializeBoard
      ≠ some (((legalColumns initializeBoard).get? 3).map Int.ofNat, initializeBoard) := by
  have hlist : legalColumns initializeBoard = [0, 1, 2, 3, 4, 5, 6] := by decide
  have hlen : ((legalColumns initializeBoard).length : ℚ) = 7 := by
    rw [hlist]
    norm_num
  have hv : toDouble (2573485501354569 / 2 ^ 52) = 2573485501354569 / 2 ^ 52 := by
    rw [toDouble_eval (2573485501354569 / 2 ^ 52) (-1) (by norm_num) (by norm_num)
      (by norm_num) (by norm_num)]
    have hy : (2573485501354569 / 2 ^ 52 : ℚ) * (2 : ℚ) ^ ((52 : Int) - (-1))
        = ((5146971002709138 : Int) : ℚ) := by norm_num
    rw [hy, roundHalfEven_int]
    norm_num
  have hprod : toDouble ((2573485501354569 / 2 ^ 52 : ℚ)
      * ((legalColumns initializeBoard).length : ℚ)) = 4 := by
    rw [hlen, toDouble_eval (2573485501354569 / 2 ^ 52 * 7) 1 (by norm_num) (by norm_num)
      (by norm_num) (by norm_num)]
    have hy : (2573485501354569 / 2 ^ 52 * 7 : ℚ) * (2 : ℚ) ^ ((52 : Int) - 1)
        = ((9007199254740991 : Int) : ℚ) + 1 / 2 := by norm_num
    rw [roundHalfEven_tie_odd _ 9007199254740991 hy (by norm_num)]
    norm_num
  have hres : getBestMove (difficulties Difficulty.easy) 0 (2573485501354569 / 2 ^ 52)
      initializeBoard = some (some 4, initializeBoard) := by
    rw [getBestMove_random_eq (difficulties Difficulty.easy) 0 _ initializeBoard
      (by norm_num [difficulties]) 4 (by rw [hprod]; norm_num), hlist]
    rfl
  refine ⟨by norm_num, by norm_num, hv, hlist, ?_, hprod, hres, ?_⟩
  · rw [hlen, Int.floor_eq_iff]
    constructor <;> norm_num
  · rw [hres, hlist]
    decide

/-! ## Power-up tags on the board are bounded by the inventory -/

theorem cellCount_write (b : Board) (i : Fin rows) (j : Fin cols) (v0 v : Cell) :
    cellCount (fun i' j' => if i' = i ∧ j' = j then v0 else b i' j') v
      ≤ cellCount b v + (if v = v0 then 1 else 0) := by
  unfold cellCount
  by_cases hv : v = v0
  · rw [if_pos hv]
    have hsub : (Finset.univ.filter fun p : Fin rows × Fin cols =>
          (if p.1 = i ∧ p.2 = j then v0 else b p.1 p.2) = v)
        ⊆ insert (i, j) (Finset.univ.filter fun p : Fin rows × Fin cols => b p.1 p.2 = v) := by
      intro p hp
      rw [Finset.mem_filter] at hp
      rw [Finset.mem_insert, Finset.mem_filter]
      by_cases hpe : p.1 = i ∧ p.2 = j
      · left
        exact Prod.ext hpe.1 hpe.2
      · right
        rw [if_neg hpe] at hp
        exact hp
    exact (Finset.card_le_card hsub).trans (Finset.card_insert_le _ _)
  · rw [if_neg hv, add_zero]
    apply Finset.card_le_card
    intro p hp
    rw [Finset.mem_filter] at hp ⊢
    dsimp only at hp
    by_cases hpe : p.1 = i ∧ p.2 = j
    · rw [if_pos hpe] at hp
      exact absurd hp.2.symm hv
    · rw [if_neg hpe] at hp
      exact hp

theorem cellCount_le_of_cleared (b b' : Board) (v : Cell) (hv : v ≠ Cell.empty)
    (h : ∀ i j, b' i j = Cell.empty ∨ b' i j = b i j) : cellCount b' v ≤ cellCount b v := by
  unfold cellCount
  apply Finset.card_le_card
  intro p hp
  rw [Finset.mem_filter] at hp ⊢
  rcases h p.1 p.2 with h1 | h1
  · rw [h1] at hp
    exact absurd hp.2.symm hv
  · rw [h1] at hp
    exact hp

theorem column_cellCount (b : Board) (c : Fin cols) (v : Cell) :
    (∑ r : Fin rows, if b r c = v then 1 else 0) = (columnUp b c).count v := by
  rw [columnUp_eq]
  simp only [List.count_cons, List.count_nil, Fin.sum_univ_six, beq_iff_eq]
  ring

theorem cellCount_eq_columns (b : Board) (v : Cell) :
    cellCount b v = ∑ c : Fin cols, (columnUp b c).count v := by
  unfold cellCount
  rw [Finset.card_filter, Fintype.sum_prod_type_right]
  exact Finset.sum_congr rfl fun c _ => column_cellCount b c v

theorem count_compacted (l : List Cell) (v : Cell) (hv : v ≠ Cell.empty) :
    (compacted l).count v = l.count v := by
  unfold compacted
  rw [List.count_append, List.count_replicate]
  have h1 : (Cell.empty == v) = false := by
    rw [beq_eq_false_iff_ne]
    exact fun h => hv h.symm
  rw [h1]
  have h2 : (l.filter fun x => x != Cell.empty).count v = l.count v := by
    apply List.count_filter
    simpa using hv
  rw [h2]
  simp

theorem cellCount_of_compacted (b b' : Board) (v : Cell) (hv : v ≠ Cell.empty)
    (h : ∀ c : Fin cols, columnUp b' c = compacted (columnUp b c)) :
    cellCount b' v = cellCount b v := by
  rw [cellCount_eq_columns, cellCount_eq_columns]
  exact Finset.sum_congr rfl fun c _ => by rw [h c, count_compacted _ _ hv]

theorem bombPowerUp_cellCount (b b1 : Board) (i0 : Fin rows) (j0 : Fin cols) (v : Cell)
    (hv : v ≠ Cell.empty) (h : bombPowerUp b i0.val j0.val = some b1) :
    cellCount b1 v ≤ cellCount b v := by
  have hir : (0 : Int) ≤ i0.val ∧ (i0.val : Int) < rows := ⟨by omega, by exact_mod_cast i0.isLt⟩
  have hjr : (0 : Int) ≤ j0.val ∧ (j0.val : Int) < cols := ⟨by omega, by exact_mod_cast j0.isLt⟩
  obtain ⟨b', hb', hcol⟩ := bombPowerUp_columns b i0.val j0.val hir hjr
  rw [hb'] at h
  have hb := Option.some.inj h
  subst hb
  rw [cellCount_of_compacted _ b' v hv hcol]
  apply cellCount_le_of_cleared _ _ v hv
  intro i j
  unfold clearNeighbours
  split
  · exact Or.inl rfl
  · exact Or.inr rfl

theorem clearRowPowerUp_cellCount (b b1 : Board) (i0 : Fin rows) (v : Cell)
    (hv : v ≠ Cell.empty) (h : clearRowPowerUp b i0.val = some b1) :
    cellCount b1 v ≤ cellCount b v := by
  obtain ⟨b', hb', hcol⟩ := clearRowPowerUp_columns b i0
  rw [hb'] at h
  have hb := Option.some.inj h
  subst hb
  rw [cellCount_of_compacted _ b' v hv hcol]
  apply cellCount_le_of_cleared _ _ v hv
  intro i j
  show (if i = i0 then Cell.empty else b i j) = Cell.empty ∨
    (if i = i0 then Cell.empty else b i j) = b i j
  split
  · exact Or.inl rfl
  · exact Or.inr rfl

theorem cellCount_initializeBoard (v : Cell) (hv : v ≠ Cell.empty) :
    cellCount initializeBoard v = 0 := by
  unfold cellCount
  rw [Finset.card_eq_zero, Finset.filter_eq_empty_iff]
  intro p _ hp
  exact hv hp.symm

theorem PowerUp.tag_ne_empty (t : PowerUp) : t.tag ≠ Cell.empty := by
  cases t <;> decide

theorem PowerUp.tag_inj (t t' : PowerUp) : t.tag = t'.tag ↔ t = t' := by
  cases t <;> cases t' <;> decide

theorem Player.disc_ne_tag (p : Player) (t : PowerUp) : t.tag ≠ p.disc := by
  cases p <;> cases t <;> decide

/-- In every reachable state the cells that hold the tag of a power-up kind and
the counter of that kind together do not exceed the initial counter: a tag
reaches the board only through a move that spends one unit of its kind. -/
theorem reachable_tag_count (allowed : PowerUp → Prop) (g : Game) (h : Reachable allowed g) :
    ∀ t : PowerUp, (cellCount g.board t.tag : Int) + g.powerUps.get t ≤ initialInventory.get t := by
  have hstart : ∀ g0 : Game,
      (∀ t : PowerUp, (cellCount g0.board t.tag : Int) + g0.powerUps.get t
        ≤ initialInventory.get t) →
      ∀ t : PowerUp, (cellCount initializeBoard t.tag : Int) + g0.powerUps.get t
        ≤ initialInventory.get t := by
    intro g0 ih t
    rw [cellCount_initializeBoard _ t.tag_ne_empty]
    have := ih t
    omega
  induction h with
  | initial =>
    intro t
    show (cellCount initializeBoard t.tag : Int) + initialInventory.get t ≤ initialInventory.get t
    rw [cellCount_initializeBoard _ t.tag_ne_empty]
    simp
  | @select g type _ _ ih =>
    unfold selectPowerUp
    split
    · exact ih
    · exact ih
  | @move g g' col isAIMove _ hmove ih =>
    rcases makeMove_cases g col isAIMove g' hmove with rfl | ⟨i, j, _, rfl⟩ |
      ⟨type, i, j, b1, hact, _, hbomb, hclear, hother, rfl⟩
    · exact ih
    · intro t
      have h1 := cellCount_write g.board i j g.currentPlayer.disc t.tag
      rw [if_neg (Player.disc_ne_tag _ _)] at h1
      have h2 := ih t
      show (cellCount (fun i' j' => if i' = i ∧ j' = j then g.currentPlayer.disc
        else g.board i' j') t.tag : Int) + g.powerUps.get t ≤ initialInventory.get t
      omega
    · intro t
      have hb1 : cellCount b1 t.tag ≤ cellCount g.board t.tag := by
        cases type with
        | bomb => exact bombPowerUp_cellCount g.board b1 i j _ t.tag_ne_empty (hbomb rfl)
        | clear => exact clearRowPowerUp_cellCount g.board b1 i _ t.tag_ne_empty (hclear rfl)
        | wild => rw [hother (Or.inl rfl)]
        | block => rw [hother (Or.inr rfl)]
      have h1 := cellCount_write b1 i j type.tag t.tag
      have h2 := ih t
      show (cellCount (fun i' j' => if i' = i ∧ j' = j then type.tag else b1 i' j') t.tag : Int)
        + (g.powerUps.decrement type).get t ≤ initialInventory.get t
      rw [Inventory.get_decrement]
      by_cases htt : t = type
      · subst htt
        rw [if_pos rfl]
        rw [if_pos rfl] at h1
        omega
      · rw [if_neg htt]
        rw [if_neg (fun hc => htt ((PowerUp.tag_inj _ _).1 hc))] at h1
        omega
  | @settle g g' row col o _ hcb ih =>
    obtain ⟨h1, h2, _⟩ := makeMoveCallback_fields g g' row col o hcb
    rw [h1, h2]
    exact ih
  | @start g _ ih =>
    exact hstart g ih
  | reset _ _ =>
    intro t
    show (cellCount initializeBoard t.tag : Int) + initialInventory.get t ≤ initialInventory.get t
    rw [cellCount_initializeBoard _ t.tag_ne_empty]
    simp
  | @mode g m _ ih =>
    unfold changeMode
    simp only
    split
    · exact hstart g ih
    · exact ih
  | level d _ ih =>
    exact ih

/-- A run of at least 4 cells along an axis takes at least 4 cells of the board
that hold the value or `'wild'`. -/
theorem hasRun_four_cells (b : Board) (v : Cell) (row col : Int) (d : Int × Int)
    (hd : d ∈ axes) (h : HasRun b v row col d.1 d.2) :
    4 ≤ (Finset.univ.filter fun p : Fin rows × Fin cols =>
      b p.1 p.2 = v ∨ b p.1 p.2 = Cell.wild).card := by
  obtain ⟨lo, hi, _, _, hlen, hall⟩ := h
  have hcell : ∀ t : Nat, t < 4 → ∃ (i : Fin rows) (j : Fin cols),
      (i.val : Int) = row + d.1 * (lo + t) ∧ (j.val : Int) = col + d.2 * (lo + t) ∧
      (b i j = v ∨ b i j = Cell.wild) := by
    intro t ht
    rcases hall (lo + t) (by omega) (by omega) with h1 | h1
    · obtain ⟨i, j, hi, hj, hb⟩ := (cellAt_eq_some_iff b _ _ _).1 h1
      exact ⟨i, j, hi, hj, Or.inl hb⟩
    · obtain ⟨i, j, hi, hj, hb⟩ := (cellAt_eq_some_iff b _ _ _).1 h1
      exact ⟨i, j, hi, hj, Or.inr hb⟩
  apply Finset.le_card_of_inj_on_range
    (fun t : Nat => ((⟨(row + d.1 * (lo + t)).toNat % rows, Nat.mod_lt _ (by decide)⟩ : Fin rows),
      (⟨(col + d.2 * (lo + t)).toNat % cols, Nat.mod_lt _ (by decide)⟩ : Fin cols)))
  · intro t ht
    obtain ⟨i, j, hi, hj, hb⟩ := hcell t ht
    rw [Finset.mem_filter]
    refine ⟨Finset.mem_univ _, ?_⟩
    have e1 : (⟨(row + d.1 * (lo + t)).toNat % rows, Nat.mod_lt _ (by decide)⟩ : Fin rows) = i := by
      apply Fin.ext
      simp only
      rw [← hi, Int.toNat_ofNat, Nat.mod_eq_of_lt i.isLt]
    have e2 : (⟨(col + d.2 * (lo + t)).toNat % cols, Nat.mod_lt _ (by decide)⟩ : Fin cols) = j := by
      apply Fin.ext
      simp only
      rw [← hj, Int.toNat_ofNat, Nat.mod_eq_of_lt j.isLt]
    simp only [e1, e2]
    exact hb
  · intro t ht t' ht' heq
    obtain ⟨i, j, hi, hj, _⟩ := hcell t ht
    obtain ⟨i', j', hi', hj', _⟩ := hcell t' ht'
    have e1 : (row + d.1 * (lo + t)).toNat % rows = (row + d.1 * (lo + t')).toNat % rows :=
      congrArg (fun p : Fin rows × Fin cols => p.1.val) heq
    have e2 : (col + d.2 * (lo + t)).toNat % cols = (col + d.2 * (lo + t')).toNat % cols :=
      congrArg (fun p : Fin rows × Fin cols => p.2.val) heq
    rw [← hi, ← hi', Int.toNat_ofNat, Int.toNat_ofNat, Nat.mod_eq_of_lt i.isLt,
      Nat.mod_eq_of_lt i'.isLt] at e1
    rw [← hj, ← hj', Int.toNat_ofNat, Int.toNat_ofNat, Nat.mod_eq_of_lt j.isLt,
      Nat.mod_eq_of_lt j'.isLt] at e2
    have e3 : row + d.1 * (lo + t) = row + d.1 * (lo + t') := by rw [← hi, ← hi', e1]
    have e4 : col + d.2 * (lo + t) = col + d.2 * (lo + t') := by rw [← hj, ← hj', e2]
    simp only [axes, List.mem_cons, List.mem_singleton, List.not_mem_nil, or_false] at hd
    rcases hd with rfl | rfl | rfl | rfl
    · simp only [one_mul] at e4
      omega
    · simp only [one_mul] at e3
      omega
    · simp only [one_mul] at e3
      omega
    · simp only [one_mul] at e3
      omega

theorem hasRun_cellCount (b : Board) (v : Cell) (row col : Int) (d : Int × Int)
    (hd : d ∈ axes) (h : HasRun b v row col d.1 d.2) :
    4 ≤ cellCount b v + cellCount b Cell.wild := by
  have h4 := hasRun_four_cells b v row col d hd h
  unfold cellCount
  rw [Finset.filter_or] at h4
  exact h4.trans (Finset.card_union_le _ _)

/-- For a cell that holds a string, `checkWin` returns `false`. -/
theorem checkWin_string (b : Board) (row col : Int) (v : Cell)
    (hcell : cellAt b row col = some v) (hv : v.isNumber = false) :
    checkWin b row col = some false := by
  have hnum : (v == Cell.empty || !v.isNumber) = true := by
    rw [hv]
    simp
  simp only [checkWin, hcell, Option.bind_eq_bind, Option.some_bind, hnum]
  rfl

theorem reachable_outcome (allowed : PowerUp → Prop) (g : Game) (col : Int) (isAIMove : Bool)
    (r : Option Outcome × Game) (h : Reachable allowed g)
    (hm : makeMoveOutcome g col isAIMove = some r) : Reachable allowed r.2 := by
  unfold makeMoveOutcome at hm
  split at hm
  · cases hm
    exact h
  · obtain ⟨g1, hg1, hm2⟩ := Option.bind_eq_some.1 hm
    obtain ⟨r2, hr2, hm3⟩ := Option.map_eq_some'.1 hm2
    subst hm3
    exact Reachable.settle _ col r2.1 (Reachable.move col isAIMove h hg1) hr2

/-- C1: for every board and every cell on it that holds a disc of player 1 or
2, and for the board of every reachable state and every cell on it that is
neither empty nor `'block'`, `checkWin(row, col)` returns a result, and the
result is `true` if and only if on at least one of the four axes there is a
contiguous run of at least 4 cells through `(row, col)` in which every cell
holds the value at `(row, col)` or `'wild'`. -/
theorem checkWin_iff_run (b : Board) (row col : Int) (value : Cell)
    (hcell : cellAt b row col = some value)
    (hne : value ≠ Cell.empty) (hnb : value ≠ Cell.block)
    (hb : (value = Cell.disc1 ∨ value = Cell.disc2) ∨ ∃ g, Reachable anyKind g ∧ g.board = b) :
    ∃ r, checkWin b row col = some r ∧
      (r = true ↔ ∃ d ∈ axes, HasRun b value row col d.1 d.2) := by
  by_cases hdisc : value = Cell.disc1 ∨ value = Cell.disc2
  · exact checkWin_disc b row col value hcell hdisc
  · rcases hb with hb | ⟨g, hg, rfl⟩
    · exact absurd hb hdisc
    · have hcount := reachable_tag_count anyKind g hg
      have hinv := (reachable_inventory_inv anyKind g hg).1
      have hw := hcount PowerUp.wild
      have hw0 := hinv PowerUp.wild
      have hwi : initialInventory.get PowerUp.wild = 1 := rfl
      have hwt : PowerUp.wild.tag = Cell.wild := rfl
      rw [hwi, hwt] at hw
      have hnorun : ∀ t : PowerUp, value = t.tag → t ≠ PowerUp.block →
          ¬ ∃ d ∈ axes, HasRun g.board value row col d.1 d.2 := by
        rintro t rfl htb ⟨d, hd, hrun⟩
        have h4 := hasRun_cellCount g.board t.tag row col d hd hrun
        have ht := hcount t
        have ht0 := hinv t
        cases t with
        | bomb =>
          have hi : initialInventory.get PowerUp.bomb = 2 := rfl
          rw [hi] at ht
          have ht' : PowerUp.bomb.tag = Cell.bomb := rfl
          rw [ht'] at ht h4
          omega
        | wild =>
          rw [hwt] at h4
          omega
        | clear =>
          have hi : initialInventory.get PowerUp.clear = 1 := rfl
          rw [hi] at ht
          have ht' : PowerUp.clear.tag = Cell.clear := rfl
          rw [ht'] at ht h4
          omega
        | block => exact htb rfl
      have hstr : value.isNumber = false := by
        cases value <;> simp_all [Cell.isNumber]
      refine ⟨false, checkWin_string g.board row col value hcell hstr, ?_⟩
      constructor
      · intro hc
        cases hc
      · intro hrun
        exfalso
        cases value with
        | empty => exact hne rfl
        | disc1 => exact hdisc (Or.inl rfl)
        | disc2 => exact hdisc (Or.inr rfl)
        | wild => exact hnorun PowerUp.wild rfl (by decide) hrun
        | block => exact hnb rfl
        | bomb => exact hnorun PowerUp.bomb rfl (by decide) hrun
        | clear => exact hnorun PowerUp.clear rfl (by decide) hrun

theorem checkWin_iff_run_witness :
    ∃ p, wildScenario = some p ∧
      [p.2.2.board 5 0, p.2.2.board 5 1, p.2.2.board 5 2, p.2.2.board 5 3]
        = [Cell.disc1, Cell.disc1, Cell.disc1, Cell.wild] ∧
      cellAt p.2.2.board 5 3 = some Cell.wild ∧
      Cell.wild ≠ Cell.empty ∧ Cell.wild ≠ Cell.block ∧
      Reachable anyKind p.2.2 ∧
      ∃ r, checkWin p.2.2.board 5 3 = some r ∧
        (r = true ↔ ∃ d ∈ axes, HasRun p.2.2.board Cell.wild 5 3 d.1 d.2) := by
  have hval : wildScenario.map (fun p =>
      [p.2.2.board 5 0, p.2.2.board 5 1, p.2.2.board 5 2, p.2.2.board 5 3])
      = some [Cell.disc1, Cell.disc1, Cell.disc1, Cell.wild] := by decide
  cases hp : wildScenario with
  | none => rw [hp] at hval; cases hval
  | some p =>
    rw [hp] at hval
    have hrow := Option.some.inj hval
    have h53 : p.2.2.board 5 3 = Cell.wild := by
      have := congrArg (fun l : List Cell => l.getD 3 Cell.empty) hrow
      exact this
    have hcell : cellAt p.2.2.board 5 3 = some Cell.wild := by
      rw [← h53]
      exact cellAt_nat p.2.2.board 5 3 (by decide) (by decide)
    have hreach : Reachable anyKind p.2.2 := by
      simp only [wildScenario, Option.bind_eq_some, Option.map_eq_some'] at hp
      obtain ⟨r1, h1, r2, h2, r3, h3, r4, h4, r5, h5, r6, h6, r, h7, rfl⟩ := hp
      have R0 : Reachable anyKind (startNewGame initialGame) := Reachable.start Reachable.initial
      have R1 := reachable_outcome anyKind _ _ _ _ R0 h1
      have R2 := reachable_outcome anyKind _ _ _ _ R1 h2
      have R3 := reachable_outcome anyKind _ _ _ _ R2 h3
      have R4 := reachable_outcome anyKind _ _ _ _ R3 h4
      have R5 := reachable_outcome anyKind _ _ _ _ R4 h5
      have R6 := reachable_outcome anyKind _ _ _ _ R5 h6
      exact reachable_outcome anyKind _ _ _ _ (Reachable.select PowerUp.wild R6 trivial) h7
    exact ⟨p, rfl, hrow, hcell, by decide, by decide, hreach,
      checkWin_iff_run p.2.2.board 5 3 Cell.wild hcell (by decide) (by decide)
        (Or.inr ⟨p.2.2, hreach, rfl⟩)⟩

/-! ## Bit-mask boards -/

end ConnectFour
